import Mathlib

/-!
Verification of the BlinkFill synthesis core (`src/dag.rs`).

Strings are modelled as byte sequences (`List Nat`), since the Rust code
indexes and slices `String`s by byte offset.  `HashSet<PositionSet>` is
modelled as `Finset PositionSet`; `HashMap` is modelled as an association
list whose order stands in for the (unspecified) hash-map iteration order.
Rust panics are modelled by `Option`: `none` means the corresponding Rust
execution panics.

The modules `input_data_graph.rs`, `language.rs`, `token.rs` and `graph.rs`
are referenced by `dag.rs` but are not part of the sources; the pieces of
them that the claims need are modelled from the specification (they are
marked `Modelled from the spec:` below).
-/

namespace BlinkFill

/-- Byte strings: Rust `String` / `&str` values, as their byte sequences. -/
abbrev Str := List Nat

/-- Modelled from the spec: tokens are a closed vocabulary owned by the external
token library (`token.rs`, absent from src/); only their identity matters here,
so they are abstract identifiers, and token matching is a parameter
(`Matcher`) wherever the semantics needs it. -/
abbrev Token := Nat

def EPSILON : Nat := 1

def KAPPA : Nat := 15

/-- First-match association lookup, mirroring `HashMap::get`. -/
def lookupA {α β : Type} [DecidableEq α] : List (α × β) → α → Option β
  | [], _ => none
  | (k, v) :: t, a => if k = a then some v else lookupA t a

/-- `Option`-valued `mapM`, used to thread Rust panics through loops. -/
def optMapM {α β : Type} (f : α → Option β) : List α → Option (List β)
  | [] => some []
  | a :: t => do
    let b ← f a
    let r ← optMapM f t
    pure (b :: r)

/-- UTF-8 continuation byte (`0x80 ≤ b < 0xC0`). -/
def contByte (b : Nat) : Bool := decide (0x80 ≤ b ∧ b < 0xC0)

/-- Validity of a byte sequence as UTF-8, at the granularity the boundary
checks care about: a string is a concatenation of characters, each being an
ASCII byte or a non-continuation lead byte followed by a non-empty run of
continuation bytes.  Every Rust `String` satisfies this. -/
inductive ValidUTF8 : List Nat → Prop where
  | nil : ValidUTF8 []
  | ascii (b : Nat) (t : List Nat) : b < 0x80 → ValidUTF8 t → ValidUTF8 (b :: t)
  | multi (b : Nat) (cs t : List Nat) : 0xC0 ≤ b → cs ≠ [] →
      (∀ c ∈ cs, 0x80 ≤ c ∧ c < 0xC0) → ValidUTF8 t → ValidUTF8 (b :: (cs ++ t))

/-- Rust `str::is_char_boundary` on the byte sequence. -/
def isCharBoundary (s : Str) (i : Nat) : Bool :=
  i == 0 || i == s.length ||
    (match s.get? i with
     | some b => !contByte b
     | none => false)

/-- Rust `&s[i..j]`: byte slice, panicking (`none`) unless `i ≤ j` and both
ends are char boundaries (which forces `j ≤ |s|`). -/
def sliceB (s : Str) (i j : Nat) : Option Str :=
  if i ≤ j ∧ isCharBoundary s i ∧ isCharBoundary s j then
    some ((s.drop i).take (j - i))
  else none

/-- Rust `str::find` for a nonempty pattern: byte index of the first
occurrence of `pat` in `hay`. -/
def findSub : Str → Str → Option Nat
  | [], pat => if pat = [] then some 0 else none
  | b :: t, pat =>
    if pat.isPrefixOf (b :: t) then some 0 else (findSub t pat).map (· + 1)

/-- The occurrence-search loop in `Dag::new`: starting from byte offset
`offset`, repeatedly `find` the substring `s` in `t[offset..]` and advance
the cursor by one past each hit, collecting the 0-based `(l, r)` byte ranges
of every (possibly overlapping) hit.  `none` models the panic of
`&t[offset..]` when the cursor lands inside a multi-byte character.  The
loop strictly advances the cursor, so its iteration count is bounded by the
string length; `fuel` is that bound, kept structural so the function
evaluates by kernel reduction (the caller passes an adequate budget, and
the characterization below shows the budget is never exhausted). -/
def occAux (t s : Str) : Nat → Nat → Option (List (Nat × Nat))
  | offset, fuel + 1 =>
    if offset < t.length then
      if isCharBoundary t offset then
        match findSub (t.drop offset) s with
        | none => some []
        | some start =>
          (occAux t s (offset + start + 1) fuel).map
            (fun rest => (offset + start, offset + start + s.length) :: rest)
      else none
    else some []
  | _, 0 => none

/-- All (overlapping) occurrences of `s` in `t`, as found by `Dag::new`. -/
def colOccs (t s : Str) : Option (List (Nat × Nat)) := occAux t s 0 (t.length + 1)

/-- The specification-level occurrence list: the `(l, l + |s|)` ranges of
every position `l ≥ off` at which `s` occurs in `t`, in increasing order. -/
def occsSpecFrom (t s : Str) (off : Nat) : List (Nat × Nat) :=
  (List.range t.length).filterMap (fun l =>
    if off ≤ l ∧ s.isPrefixOf (t.drop l) = true then some (l, l + s.length) else none)

/-- Every (possibly overlapping) occurrence of `s` in `t`, in increasing
order of position. -/
def occsSpec (t s : Str) : List (Nat × Nat) := occsSpecFrom t s 0

inductive PositionSet where
  | ConstantPosition : Int → PositionSet
  | GraphNode : Nat → PositionSet
deriving DecidableEq

/-- Modelled from the spec: the `InputDataGraph` (module
`input_data_graph.rs`, absent from src/).  Only the data that `dag.rs`
reads is kept: the number of rows, the per-node label maps
(`labels[v][(row, col)] = StringIndex`) and the per-edge token sets
(`tokens[(u, v)] = {(token, occurrence)}`).  The graph-construction
invariants the spec states for it are hypotheses of the theorems below. -/
structure InputDataGraph where
  numRows : Nat
  labels : List (Nat × List ((Nat × Nat) × Nat))
  tokens : List ((Nat × Nat) × List (Token × Int))

/-- `graph.labels[v]`, defaulting to the empty map (the Rust index would
panic for a node without labels; all nodes referenced by generated
position sets have labels). -/
def labelsOf (g : InputDataGraph) (v : Nat) : List ((Nat × Nat) × Nat) :=
  (lookupA g.labels v).getD []

def labelAt (g : InputDataGraph) (v : Nat) (id : (Nat × Nat)) : Option Nat :=
  lookupA (labelsOf g v) id

inductive SubstringExpressionSet where
  | ConstantString : Str → SubstringExpressionSet
  | SubstringSet : Nat → Finset PositionSet → Finset PositionSet → SubstringExpressionSet
deriving DecidableEq

namespace SubstringExpressionSet

/-- The loop body of `generate_substring_set`: a node labelled `l` at `id`
goes to the left position set, otherwise a node labelled `r` goes to the
right one. -/
def gssStep (id : (Nat × Nat)) (l r : Nat)
    (acc : Finset PositionSet × Finset PositionSet) (ent : Nat × List ((Nat × Nat) × Nat)) :
    Finset PositionSet × Finset PositionSet :=
  if lookupA ent.2 id = some l then
    (insert (PositionSet.GraphNode ent.1) acc.1, acc.2)
  else if lookupA ent.2 id = some r then
    (acc.1, insert (PositionSet.GraphNode ent.1) acc.2)
  else acc

/-- `SubstringExpressionSet::generate_substring_set`: scan every node of the
input data graph, then insert the two constant positions. -/
def generate_substring_set (id : (Nat × Nat)) (l r : Nat) (g : InputDataGraph) :
    SubstringExpressionSet :=
  let vs := g.labels.foldl (gssStep id l r) (∅, ∅)
  SubstringSet id.2
    (insert (PositionSet.ConstantPosition (l : Int)) vs.1)
    (insert (PositionSet.ConstantPosition (r : Int)) vs.2)

/-- `SubstringExpressionSet::intersection`. -/
def intersection : SubstringExpressionSet → SubstringExpressionSet →
    Option SubstringExpressionSet
  | ConstantString s1, ConstantString s2 =>
    if s1 = s2 then some (ConstantString s1) else none
  | SubstringSet c1 p1l p1r, SubstringSet c2 p2l p2r =>
    if c1 = c2 then
      let pl := p1l ∩ p2l
      if pl = ∅ then none
      else
        let pr := p1r ∩ p2r
        if pr = ∅ then none
        else some (SubstringSet c1 pl pr)
    else none
  | _, _ => none

/-- The column of a substring set (`0` for a constant string). -/
def colOf : SubstringExpressionSet → Nat
  | ConstantString _ => 0
  | SubstringSet c _ _ => c

/-- The left position set of a substring set (`∅` for a constant string). -/
def leftSetOf : SubstringExpressionSet → Finset PositionSet
  | ConstantString _ => ∅
  | SubstringSet _ l _ => l

/-- The right position set of a substring set (`∅` for a constant string). -/
def rightSetOf : SubstringExpressionSet → Finset PositionSet
  | ConstantString _ => ∅
  | SubstringSet _ _ r => r

end SubstringExpressionSet

structure Dag where
  start : Nat
  finish : Nat
  substrings : List ((Nat × Nat) × List SubstringExpressionSet)
deriving DecidableEq

/-- The edge enumeration of `Dag::new`: `(i, j)` for `0 ≤ i < j ≤ n`,
in the loop order of the source (`i` outer ascending, `j` inner ascending). -/
def edgePairs (n : Nat) : List (Nat × Nat) :=
  (List.range n).flatMap (fun i => (List.range (n - i)).map (fun k => (i, i + k + 1)))

/-- The substring expressions contributed by one input column `p = (ci, t)`
for the output fragment `s`: one `SubstringSet` per occurrence of `s` in
`t`, with 1-based boundary string indices (`none` on a slicing panic in the
search loop). -/
def colExprs (g : InputDataGraph) (row : Nat) (s : Str) (p : Nat × Str) :
    Option (List SubstringExpressionSet) :=
  (colOccs p.2 s).map (fun occs => occs.map (fun lr =>
    SubstringExpressionSet.generate_substring_set (row, p.1) (lr.1 + 1) (lr.2 + 1) g))

/-- The candidate list of one DAG edge with substring `s`: the constant
string witness followed by one `SubstringSet` per occurrence of `s` in each
input column (`none` on a string-slicing panic). -/
def edgeExprs (input : List Str) (g : InputDataGraph) (row : Nat) (s : Str) :
    Option (List SubstringExpressionSet) :=
  (optMapM (colExprs g row s) input.enum).map List.flatten

/-- The full candidate entry of one DAG edge `e`. -/
def newEdgeEntry (input : List Str) (g : InputDataGraph) (row : Nat) (output : Str)
    (e : (Nat × Nat)) : Option ((Nat × Nat) × List SubstringExpressionSet) :=
  (sliceB output e.1 e.2).bind (fun s =>
    (edgeExprs input g row s).map (fun exprs =>
      (e, SubstringExpressionSet.ConstantString s :: exprs)))

/-- `Dag::new` for one example (`none` models a byte-slicing panic). -/
def Dag.new (input : List Str) (output : Str) (g : InputDataGraph) (row : Nat) :
    Option Dag :=
  (optMapM (newEdgeEntry input g row output) (edgePairs output.length)).map
    (fun entries => ⟨0, output.length, entries⟩)

/-- The renumbering state of `Dag::intersection`: the `renumber` map and the
`curr` counter. -/
structure NumSt where
  map : List ((Nat × Nat) × Nat)
  ctr : Nat

/-- `renumber.entry(pair).or_insert_with(...)`: look the pair up, assigning
the next fresh number on a miss. -/
def numGet (st : NumSt) (p : (Nat × Nat)) : NumSt × Nat :=
  match lookupA st.map p with
  | some v => (st, v)
  | none => (⟨(p, st.ctr) :: st.map, st.ctr + 1⟩, st.ctr)

/-- All pairwise intersections of two candidate lists, skipping empty ones. -/
def interExprs (s1 s2 : List SubstringExpressionSet) : List SubstringExpressionSet :=
  s1.flatMap (fun e1 => s2.filterMap (fun e2 => e1.intersection e2))

/-- The body of the double loop of `Dag::intersection` for one pair of edges:
number both endpoint pairs, and append the product edge unless its candidate
list is empty. -/
def interStep (acc : NumSt × List ((Nat × Nat) × List SubstringExpressionSet))
    (ent1 ent2 : (Nat × Nat) × List SubstringExpressionSet) :
    NumSt × List ((Nat × Nat) × List SubstringExpressionSet) :=
  let (st1, vs) := numGet acc.1 (ent1.1.1, ent2.1.1)
  let (st2, vf) := numGet st1 (ent1.1.2, ent2.1.2)
  let es := interExprs ent1.2 ent2.2
  (st2, if es = [] then acc.2 else acc.2 ++ [((vs, vf), es)])

def Dag.intersection (d1 d2 : Dag) : Dag :=
  let folded := d1.substrings.foldl
    (fun acc ent1 => d2.substrings.foldl (fun a ent2 => interStep a ent1 ent2) acc)
    (⟨[], 0⟩, [])
  let (st1, s) := numGet folded.1 (d1.start, d2.start)
  let (_, f) := numGet st1 (d1.finish, d2.finish)
  ⟨s, f, folded.2⟩

/-- The double loop of `Dag::intersection`, flattened: all pairs of a left
edge entry and a right edge entry, in loop order. -/
def pairsL (d1 d2 : Dag) :
    List (((Nat × Nat) × List SubstringExpressionSet) × ((Nat × Nat) × List SubstringExpressionSet)) :=
  d1.substrings.flatMap (fun ent1 => d2.substrings.map (fun ent2 => (ent1, ent2)))

/-- `interStep` on a pair. -/
def stepPair (a : NumSt × List ((Nat × Nat) × List SubstringExpressionSet))
    (pe : ((Nat × Nat) × List SubstringExpressionSet) × ((Nat × Nat) × List SubstringExpressionSet)) :
    NumSt × List ((Nat × Nat) × List SubstringExpressionSet) :=
  interStep a pe.1 pe.2

/-- The state after the double loop of `Dag::intersection`. -/
def interFoldSt (d1 d2 : Dag) : NumSt × List ((Nat × Nat) × List SubstringExpressionSet) :=
  (pairsL d1 d2).foldl stepPair (⟨[], 0⟩, [])

/-- The complete renumbering map of `Dag::intersection`, including the final
`start` and `finish` assignments. -/
def numAll (d1 d2 : Dag) : NumSt :=
  (numGet (numGet (interFoldSt d1 d2).1 (d1.start, d2.start)).1 (d1.finish, d2.finish)).1

/-- The fold at the end of `Dag::learn`; `none` is the `unwrap` panic on an
empty example list. -/
def foldDags : List Dag → Option Dag
  | [] => none
  | d :: t => some (t.foldl Dag.intersection d)

/-- `Dag::learn`: one DAG per example, folded by intersection. -/
def Dag.learn (paired : List (List Str × Str)) (g : InputDataGraph) : Option Dag :=
  (optMapM (fun p => Dag.new p.2.1 p.2.2 g p.1) paired.enum).bind foldDags

/-! ### The target language (modelled from the spec, module `language.rs`) -/

inductive Direction where
  | Start : Direction
  | End : Direction
deriving DecidableEq

/-- Modelled from the spec: a concrete `Position` of `language.rs` (absent
from src/): an absolute index, or the start/end of the `occ`-th match of a
token. -/
inductive Position where
  | ConstantPosition : Int → Position
  | Match : Token → Int → Direction → Position
deriving DecidableEq

/-- Modelled from the spec: a concrete substring expression of `language.rs`. -/
inductive SubstringExpression where
  | ConstantString : Str → SubstringExpression
  | Substring : Nat → Position → Position → SubstringExpression
deriving DecidableEq

/-- Modelled from the spec: a synthesized program is the concatenation of a
list of substring expressions. -/
structure StringExpression where
  exprs : List SubstringExpression
deriving DecidableEq

/-- Modelled from the spec: the external token library, as the function
giving every token's ordered `(left-index, right-index)` matches (1-based)
in a string. -/
abbrev Matcher := Token → Str → List (Nat × Nat)

/-- Modelled from the spec (§4.7): evaluating a `Position` against a column
string; `none` is `OutOfBounds` / `NoMatch`. -/
def evalPosition (m : Matcher) (p : Position) (s : Str) : Option Nat :=
  match p with
  | Position.ConstantPosition k =>
    if 1 ≤ k ∧ k ≤ (s.length : Int) + 1 then some k.toNat else none
  | Position.Match tok occ dir =>
    let ms := m tok s
    let sel : Option (Nat × Nat) :=
      if 0 < occ then ms.get? (occ.toNat - 1)
      else if occ < 0 then
        if (-occ).toNat ≤ ms.length then ms.get? (ms.length - (-occ).toNat) else none
      else none
    sel.map (fun lr => match dir with | Direction.Start => lr.1 | Direction.End => lr.2)

/-- 1-based inclusive-left, exclusive-right slice: the fragment between
`StringIndex l` and `StringIndex r`. -/
def slice1 (s : Str) (l r : Nat) : Str := (s.drop (l - 1)).take (r - l)

/-- Modelled from the spec (§4.7): evaluating one substring expression on a
row. -/
def evalSE (m : Matcher) (row : List Str) : SubstringExpression → Option Str
  | SubstringExpression.ConstantString s => some s
  | SubstringExpression.Substring c pl pr => do
    let col ← row.get? c
    let l ← evalPosition m pl col
    let r ← evalPosition m pr col
    if 1 ≤ l ∧ l ≤ r ∧ r ≤ col.length + 1 then some (slice1 col l r) else none

/-- Modelled from the spec (§4.7): running a program concatenates its
sub-expressions' results, failing atomically. -/
def runProg (m : Matcher) (pr : StringExpression) (row : List Str) : Option Str :=
  (optMapM (evalSE m row) pr.exprs).map List.flatten

/-! ### Ranking and extraction (`Dag::top_ranked_expression`) -/

/-- The rank key used by `max_by_key`: `0` for a constant position, the
node's rank for a graph node. -/
def rankKey (ranks : Nat → Nat) : PositionSet → Nat
  | PositionSet.ConstantPosition _ => 0
  | PositionSet.GraphNode v => ranks v

/-- An injective key giving `PositionSet` a linear order; used as the
documented iteration order over the unordered `HashSet` (the spec requires
implementations to pick and document such an order). -/
def posKey : PositionSet → Lex (Int × Int)
  | PositionSet.ConstantPosition k => toLex (0, k)
  | PositionSet.GraphNode v => toLex (1, (v : Int))

def posLE (a b : PositionSet) : Prop := posKey a ≤ posKey b

instance : DecidableRel posLE := fun a b =>
  inferInstanceAs (Decidable (posKey a ≤ posKey b))

instance : IsTrans PositionSet posLE :=
  ⟨fun _ _ _ h1 h2 => le_trans h1 h2⟩

instance : IsAntisymm PositionSet posLE :=
  ⟨fun a b h1 h2 => by
    have h := le_antisymm h1 h2
    cases a <;> cases b <;> simp only [posKey] at h <;>
      (injection toLex.injective h with h3 h4) <;> simp_all⟩

instance : IsTotal PositionSet posLE :=
  ⟨fun a b => le_total (posKey a) (posKey b)⟩

/-- The iteration order of a position `HashSet` in this model: the elements
in ascending `posLE` order (insertion sort is used so that the function
evaluates by kernel reduction). -/
def sortPos (s : Finset PositionSet) : List PositionSet :=
  Quotient.lift (fun l => List.insertionSort posLE l)
    (fun a b h =>
      List.eq_of_perm_of_sorted
        ((List.perm_insertionSort posLE a).trans
          (List.Perm.trans h (List.perm_insertionSort posLE b).symm))
        (List.sorted_insertionSort posLE a)
        (List.sorted_insertionSort posLE b))
    s.val

/-- Rust's `Iterator::max_by_key` over a list: the last maximal element;
`none` on an empty iterator (where the Rust caller's `unwrap` would panic —
position sets of well-formed DAGs are never empty). -/
def rustMax (key : PositionSet → Nat) : List PositionSet → Option PositionSet :=
  List.foldl
    (fun acc x =>
      match acc with
      | none => some x
      | some a => if key a ≤ key x then some x else some a)
    none

/-- `p_l.iter().max_by_key(key)` of the source, on the modelled iteration
order. -/
def pickMax (key : PositionSet → Nat) (s : Finset PositionSet) : Option PositionSet :=
  rustMax key (sortPos s)

/-- The `sample` closure of `top_ranked_expression`: for a graph node, take
the first `(token, occurrence)` of some nonempty in-edge token set
(direction `End`), falling back to an out-edge (direction `Start`); `none`
models the `panic!` when the node has no incident tokens. -/
def sampleP (g : InputDataGraph) : PositionSet → Option Position
  | PositionSet.ConstantPosition k => some (Position.ConstantPosition k)
  | PositionSet.GraphNode v =>
    match g.tokens.findSome?
      (fun ent => if ent.1.2 = v then
        ent.2.head?.map (fun tp => Position.Match tp.1 tp.2 Direction.End)
      else none) with
    | some p => some p
    | none =>
      g.tokens.findSome?
        (fun ent => if ent.1.1 = v then
          ent.2.head?.map (fun tp => Position.Match tp.1 tp.2 Direction.Start)
        else none)

/-- `k.0 as usize` on an `isize` value: two's-complement cast. -/
def usizeOf (k : Int) : Nat := (k % (2 ^ 64 : Int)).toNat

/-- Release-mode `usize` subtraction (wrapping). -/
def usizeSub (a b : Nat) : Nat := (a + 2 ^ 64 - b) % 2 ^ 64

/-- Release-mode `usize` addition (wrapping). -/
def usizeAdd (a b : Nat) : Nat := (a + b) % 2 ^ 64

/-- Release-mode `usize` multiplication (wrapping). -/
def usizeMul (a b : Nat) : Nat := a * b % 2 ^ 64

/-- The `(ConstantPosition k, GraphNode v)` summation loop: sum of
`si - k` over the node's label entries, with the `bad` flag set (and the
loop broken) at the first entry with `si ≤ k`. -/
def sumDiffsLT (k : Nat) : List ((Nat × Nat) × Nat) → Nat × Bool
  | [] => (0, false)
  | ent :: t =>
    if k < ent.2 then
      let r := sumDiffsLT k t
      (usizeAdd (ent.2 - k) r.1, r.2)
    else (0, true)

/-- The `(GraphNode v, ConstantPosition k)` summation loop (difference
direction reversed). -/
def sumDiffsGT (k : Nat) : List ((Nat × Nat) × Nat) → Nat × Bool
  | [] => (0, false)
  | ent :: t =>
    if ent.2 < k then
      let r := sumDiffsGT k t
      (usizeAdd (k - ent.2) r.1, r.2)
    else (0, true)

/-- The `(GraphNode v1, GraphNode v2)` summation loop: for each label entry
`(id, si1)` of `v1`, look up `si2 = labels[v2][id]` and sum `si2 - si1`
(the Rust index panic for a missing `id` is modelled by the default `0`,
which likewise sets `bad`; well-formed graphs label every node at every id). -/
def sumDiffsGG (g : InputDataGraph) (v2 : Nat) : List ((Nat × Nat) × Nat) → Nat × Bool
  | [] => (0, false)
  | ent :: t =>
    let si2 := (labelAt g v2 ent.1).getD 0
    if ent.2 < si2 then
      let r := sumDiffsGG g v2 t
      (usizeAdd (si2 - ent.2) r.1, r.2)
    else (0, true)

/-- One iteration of the candidate loop of `top_ranked_expression`: the
(optional) concrete expression and the score of one candidate set. -/
def candScore (g : InputDataGraph) (ranks : Nat → Nat) :
    SubstringExpressionSet → Option SubstringExpression × Nat
  | SubstringExpressionSet.ConstantString s =>
    (some (SubstringExpression.ConstantString s),
      usizeMul (usizeMul s.length s.length) EPSILON)
  | SubstringExpressionSet.SubstringSet ci pl pr =>
    match pickMax (rankKey ranks) pl, pickMax (rankKey ranks) pr with
    | some p_l, some p_r =>
      let rows := g.numRows
      let lenBad : Nat × Bool :=
        match p_l, p_r with
        | PositionSet.ConstantPosition k1, PositionSet.ConstantPosition k2 =>
          (usizeSub (usizeOf k2) (usizeOf k1), false)
        | PositionSet.ConstantPosition k, PositionSet.GraphNode v =>
          let r := sumDiffsLT (usizeOf k) (labelsOf g v)
          (r.1 / rows, r.2)
        | PositionSet.GraphNode v, PositionSet.ConstantPosition k =>
          let r := sumDiffsGT (usizeOf k) (labelsOf g v)
          (r.1 / rows, r.2)
        | PositionSet.GraphNode v1, PositionSet.GraphNode v2 =>
          let r := sumDiffsGG g v2 (labelsOf g v1)
          (r.1 / rows, r.2)
      let expr : Option SubstringExpression :=
        if lenBad.2 then none
        else do
          let a ← sampleP g p_l
          let b ← sampleP g p_r
          pure (SubstringExpression.Substring ci a b)
      (expr, usizeMul (usizeMul lenBad.1 lenBad.1) KAPPA)
    | _, _ => (none, 0)

/-- The running-best update of the candidate loop: keep a candidate with a
concrete expression if there is no best yet or its score is strictly
higher. -/
def betterCand (best : Option (Nat × SubstringExpression))
    (c : Option SubstringExpression × Nat) : Option (Nat × SubstringExpression) :=
  match c.1, best with
  | some ex, none => some (c.2, ex)
  | some ex, some b => if b.1 < c.2 then some (c.2, ex) else some b
  | none, b => b

/-- The best-scoring candidate of one edge's candidate list. -/
def bestCand (g : InputDataGraph) (ranks : Nat → Nat)
    (es : List SubstringExpressionSet) : Option (Nat × SubstringExpression) :=
  es.foldl (fun b e => betterCand b (candScore g ranks e)) none

/-- `best_by_edge`: the edges that have a best-scoring candidate. -/
def bestByEdge (g : InputDataGraph) (ranks : Nat → Nat) (d : Dag) :
    List ((Nat × Nat) × (Nat × SubstringExpression)) :=
  d.substrings.filterMap (fun ent => (bestCand g ranks ent.2).map (fun b => (ent.1, b)))

/-! ### Shortest path (modelled from the spec, module `graph.rs`) -/

def succsOf (adjE : List (Nat × Nat)) (u : Nat) : List Nat :=
  adjE.filterMap (fun e => if e.1 = u then some e.2 else none)

/-- All simple (`vis`-avoiding) node paths from `u` to `fin` along `adjE`,
bounded by `fuel`. -/
def simplePathsAux (adjE : List (Nat × Nat)) (fin : Nat) :
    Nat → Nat → List Nat → List (List Nat)
  | 0, _, _ => []
  | fuel + 1, u, vis =>
    (if u = fin then [[u]] else []) ++
    (succsOf adjE u).flatMap (fun v =>
      if v ∈ vis then []
      else (simplePathsAux adjE fin fuel v (v :: vis)).map (fun p => u :: p))

/-- All simple paths from `st` to `fin`; the fuel bounds any simple path's
node count. -/
def pathsFor (adjE : List (Nat × Nat)) (st fin : Nat) : List (List Nat) :=
  simplePathsAux adjE fin (2 * adjE.length + 2) st [st]

def pathEdgesOf : List Nat → List (Nat × Nat)
  | a :: b :: t => (a, b) :: pathEdgesOf (b :: t)
  | _ => []

/-- `ns` is a path from `st` to `fin` whose consecutive steps are edges of
`adjE`. -/
def isPathL (adjE : List (Nat × Nat)) (st fin : Nat) (ns : List Nat) : Prop :=
  ns.head? = some st ∧ ns.getLast? = some fin ∧
    List.Chain' (fun a b => (a, b) ∈ adjE) ns

def argminBy (cost : List Nat → Int) : List (List Nat) → Option (List Nat) :=
  List.foldl
    (fun acc p =>
      match acc with
      | none => some p
      | some q => if cost p < cost q then some p else some q)
    none

/-- Modelled from the spec: `graph::shortest_path_dag` (module `graph.rs`,
absent from src/): the lowest-cost start-to-finish path, `none` when no
such path exists. -/
def shortest_path_dag (st fin : Nat) (adjE : List (Nat × Nat)) (cost : (Nat × Nat) → Int) :
    Option (List (Nat × Nat)) :=
  (argminBy (fun p => ((pathEdgesOf p).map cost).sum) (pathsFor adjE st fin)).map
    pathEdgesOf

/-- `Dag::top_ranked_expression`.  The node ranks are a parameter: they are
computed by `InputDataGraph::rank_nodes` / `distances` (absent from src/),
and nothing below depends on their values.  Modelled from the spec. -/
def Dag.top_ranked_expression (d : Dag) (g : InputDataGraph) (ranks : Nat → Nat) :
    Option StringExpression :=
  let bbe := bestByEdge g ranks d
  let adjE := bbe.map (fun x => x.1)
  (shortest_path_dag d.start d.finish adjE
      (fun e => -((((lookupA bbe e).getD (0, SubstringExpression.ConstantString [])).1 : Nat) : Int))).map
    (fun pes =>
      ⟨pes.map (fun e => ((lookupA bbe e).getD (0, SubstringExpression.ConstantString [])).2)⟩)

/-- `Dag::learn` followed by `top_ranked_expression`: the synthesis pipeline
of `learn_program_full`, for a given input data graph. -/
def learnTopRanked (paired : List (List Str × Str)) (g : InputDataGraph)
    (ranks : Nat → Nat) : Option StringExpression :=
  (Dag.learn paired g).bind (fun d => d.top_ranked_expression g ranks)

/-! ### Isomorphism of DAGs under node renumbering (claim C7) -/

/-- One edge of a DAG, renamed through the partial node map `m` and with its
candidate list taken as a multiset (edge reordering and candidate reordering
are immaterial to a DAG's meaning). -/
def edgeKeyM (m : List (Nat × Nat)) (e : (Nat × Nat) × List SubstringExpressionSet) :
    (Option Nat × Option Nat) × Multiset SubstringExpressionSet :=
  ((lookupA m e.1.1, lookupA m e.1.2), (e.2 : Multiset SubstringExpressionSet))

/-- `d'` is the image of `d` under the node renaming `m`: `m` is functional
and injective, maps `start` to `start` and `finish` to `finish`, and renames
the edge list up to reordering (of the edges, and of each edge's candidate
list). -/
def DagIso (m : List (Nat × Nat)) (d d' : Dag) : Prop :=
  (∀ a b c, (a, b) ∈ m → (a, c) ∈ m → b = c) ∧
  (∀ a b c, (a, c) ∈ m → (b, c) ∈ m → a = b) ∧
  lookupA m d.start = some d'.start ∧
  lookupA m d.finish = some d'.finish ∧
  (d.substrings.map (edgeKeyM m)).Perm
    (d'.substrings.map (fun e => ((some e.1.1, some e.1.2),
      (e.2 : Multiset SubstringExpressionSet))))

/-- The node renaming witnessing commutativity of `Dag::intersection`: the
number of the pair `(a, b)` in `d1 ∩ d2` goes to the number of `(b, a)` in
`d2 ∩ d1`. -/
def commMap (d1 d2 : Dag) : List (Nat × Nat) :=
  (numAll d1 d2).map.filterMap (fun ent =>
    (lookupA (numAll d2 d1).map (ent.1.2, ent.1.1)).map (fun y => (ent.2, y)))

/-- The node renaming witnessing associativity of `Dag::intersection`: the
number of `((a, b), c)` in `(d1 ∩ d2) ∩ d3` goes to the number of
`(a, (b, c))` in `d1 ∩ (d2 ∩ d3)`, threading the two inner renumberings. -/
def assocMap (d1 d2 d3 : Dag) : List (Nat × Nat) :=
  (numAll (d1.intersection d2) d3).map.filterMap (fun ent =>
    (lookupA ((numAll d1 d2).map.map Prod.swap) ent.1.1).bind (fun p =>
      (lookupA (numAll d2 d3).map (p.2, ent.1.2)).bind (fun n23 =>
        (lookupA (numAll d1 (d2.intersection d3)).map (p.1, n23)).map
          (fun y => (ent.2, y)))))

/-! ### Semantic validity of candidates (claim C1) -/

/-- A position-set element denotes the 1-based boundary value `val` on row
`ρ`, column `ci`: a constant equal to it, or a graph node labelled with it
there. -/
def posVal (g : InputDataGraph) (ρ ci : Nat) : PositionSet → Nat → Prop
  | PositionSet.ConstantPosition k, val => k = (val : Int)
  | PositionSet.GraphNode v, val => labelAt g v (ρ, ci) = some val

/-- A candidate set is semantically valid for the expected fragment `s` on
row `ρ` with input columns `inp`: a constant candidate is the fragment, and
a substring-set candidate names a real column and in-range boundaries that
slice to the fragment, with every position denoting the same boundaries. -/
def SemCandOK (g : InputDataGraph) (ρ : Nat) (inp : List Str) (s : Str) :
    SubstringExpressionSet → Prop
  | SubstringExpressionSet.ConstantString s' => s' = s
  | SubstringExpressionSet.SubstringSet ci L R =>
    ∃ colS, inp.get? ci = some colS ∧ ∃ l r : Nat,
      1 ≤ l ∧ l ≤ r ∧ r ≤ colS.length + 1 ∧ slice1 colS l r = s ∧
      (∀ p ∈ L, posVal g ρ ci p l) ∧ (∀ p ∈ R, posVal g ρ ci p r)

/-- A DAG is semantically valid for example row `ρ` (input `inp`, output
`out`): some assignment of output positions to its nodes sends `start` to
`0` and `finish` to `|out|`, orders every edge, and validates every
candidate against the output fragment between its endpoints. -/
def DagSem (g : InputDataGraph) (ρ : Nat) (inp : List Str) (out : Str)
    (d : Dag) : Prop :=
  ∃ φ : Nat → Nat, φ d.start = 0 ∧ φ d.finish = out.length ∧
    ∀ ent ∈ d.substrings, φ ent.1.1 ≤ φ ent.1.2 ∧ φ ent.1.2 ≤ out.length ∧
      ∀ c ∈ ent.2, SemCandOK g ρ inp
        ((out.drop (φ ent.1.1)).take (φ ent.1.2 - φ ent.1.1)) c

/-! ## Basic lemmas -/

theorem lookupA_nil {α β : Type} [DecidableEq α] (a : α) :
    lookupA ([] : List (α × β)) a = none := rfl

theorem lookupA_cons {α β : Type} [DecidableEq α] (k : α) (v : β) (t : List (α × β))
    (a : α) : lookupA ((k, v) :: t) a = if k = a then some v else lookupA t a := rfl

theorem lookupA_mem {α β : Type} [DecidableEq α] {l : List (α × β)} {a : α} {b : β}
    (h : lookupA l a = some b) : (a, b) ∈ l := by
  induction l with
  | nil => simp [lookupA] at h
  | cons e t ih =>
    obtain ⟨k, v⟩ := e
    rw [lookupA_cons] at h
    by_cases hk : k = a
    · simp [hk] at h
      simp [hk, h]
    · simp [hk] at h
      exact List.mem_cons_of_mem _ (ih h)

theorem lookupA_of_mem_nodup {α β : Type} [DecidableEq α] {l : List (α × β)} {a : α}
    {b : β} (hnd : (l.map Prod.fst).Nodup) (h : (a, b) ∈ l) : lookupA l a = some b := by
  induction l with
  | nil => simp at h
  | cons e t ih =>
    obtain ⟨k, v⟩ := e
    simp only [List.map_cons, List.nodup_cons] at hnd
    rcases List.mem_cons.1 h with h1 | h1
    · obtain ⟨rfl, rfl⟩ := Prod.mk.injEq .. ▸ h1
      simp [lookupA_cons]
    · rw [lookupA_cons]
      have hk : k ≠ a := by
        intro rfl_k
        exact hnd.1 (by simpa [rfl_k] using List.mem_map_of_mem Prod.fst h1)
      simp [hk]
      exact ih hnd.2 h1

theorem lookupA_eq_none_iff {α β : Type} [DecidableEq α] {l : List (α × β)} {a : α} :
    lookupA l a = none ↔ a ∉ l.map Prod.fst := by
  induction l with
  | nil => simp [lookupA]
  | cons e t ih =>
    obtain ⟨k, v⟩ := e
    rw [lookupA_cons]
    by_cases hk : k = a
    · simp [hk]
    · simp only [hk, if_neg, ite_false, List.map_cons, List.mem_cons, not_or]
      rw [ih]
      constructor
      · exact fun h => ⟨fun hc => hk hc.symm, h⟩
      · exact fun h => h.2

theorem lookupA_isSome_iff {α β : Type} [DecidableEq α] {l : List (α × β)} {a : α} :
    (lookupA l a).isSome ↔ a ∈ l.map Prod.fst := by
  cases h : lookupA l a with
  | none => simpa using lookupA_eq_none_iff.1 h
  | some b =>
    simp only [Option.isSome_some, true_iff]
    exact List.mem_map_of_mem Prod.fst (lookupA_mem h)

theorem optMapM_nil {α β : Type} (f : α → Option β) : optMapM f [] = some [] := rfl

theorem optMapM_cons {α β : Type} (f : α → Option β) (a : α) (t : List α) :
    optMapM f (a :: t) = (f a).bind (fun b => (optMapM f t).map (fun r => b :: r)) := by
  simp only [optMapM, Option.bind_eq_bind]
  cases f a <;> simp
  cases optMapM f t <;> simp

theorem optMapM_eq_some {α β : Type} {f : α → Option β} {l : List α} {r : List β}
    (h : optMapM f l = some r) :
    List.Forall₂ (fun a b => f a = some b) l r := by
  induction l generalizing r with
  | nil => simp [optMapM_nil] at h; simp [h]
  | cons a t ih =>
    rw [optMapM_cons] at h
    cases hfa : f a with
    | none => simp [hfa] at h
    | some b =>
      simp only [hfa, Option.bind_some] at h
      cases hrec : optMapM f t with
      | none => simp [hrec] at h
      | some rt =>
        simp [hrec] at h
        subst h
        exact List.Forall₂.cons hfa (ih hrec)

theorem optMapM_isSome {α β : Type} {f : α → Option β} {l : List α}
    (h : ∀ a ∈ l, (f a).isSome) : (optMapM f l).isSome := by
  induction l with
  | nil => simp [optMapM_nil]
  | cons a t ih =>
    rw [optMapM_cons]
    obtain ⟨b, hb⟩ := Option.isSome_iff_exists.1 (h a (by simp))
    obtain ⟨r, hr⟩ := Option.isSome_iff_exists.1 (ih (fun x hx => h x (by simp [hx])))
    simp [hb, hr]

/-! ## Characterization of `generate_substring_set` (claim C6) -/

theorem gssStep_left {id : (Nat × Nat)} {l r : Nat} (acc : Finset PositionSet × Finset PositionSet)
    {ent : Nat × List ((Nat × Nat) × Nat)} (h1 : lookupA ent.2 id = some l) :
    SubstringExpressionSet.gssStep id l r acc ent =
      (insert (PositionSet.GraphNode ent.1) acc.1, acc.2) := by
  unfold SubstringExpressionSet.gssStep
  rw [if_pos h1]

theorem gssStep_right {id : (Nat × Nat)} {l r : Nat} (acc : Finset PositionSet × Finset PositionSet)
    {ent : Nat × List ((Nat × Nat) × Nat)} (h1 : lookupA ent.2 id ≠ some l)
    (h2 : lookupA ent.2 id = some r) :
    SubstringExpressionSet.gssStep id l r acc ent =
      (acc.1, insert (PositionSet.GraphNode ent.1) acc.2) := by
  unfold SubstringExpressionSet.gssStep
  rw [if_neg h1, if_pos h2]

theorem gssStep_skip {id : (Nat × Nat)} {l r : Nat} (acc : Finset PositionSet × Finset PositionSet)
    {ent : Nat × List ((Nat × Nat) × Nat)} (h1 : lookupA ent.2 id ≠ some l)
    (h2 : lookupA ent.2 id ≠ some r) :
    SubstringExpressionSet.gssStep id l r acc ent = acc := by
  unfold SubstringExpressionSet.gssStep
  rw [if_neg h1, if_neg h2]

theorem gssFold_fst_mem (id : (Nat × Nat)) (l r : Nat) (ents : List (Nat × List ((Nat × Nat) × Nat)))
    (a b : Finset PositionSet) (p : PositionSet) :
    p ∈ (ents.foldl (SubstringExpressionSet.gssStep id l r) (a, b)).1 ↔
      p ∈ a ∨ ∃ ent ∈ ents, p = PositionSet.GraphNode ent.1 ∧ lookupA ent.2 id = some l := by
  induction ents generalizing a b with
  | nil => simp
  | cons e t ih =>
    simp only [List.foldl_cons]
    by_cases h1 : lookupA e.2 id = some l
    · rw [gssStep_left _ h1, ih]
      simp only [Finset.mem_insert, List.mem_cons]
      constructor
      · rintro ((h | h) | h)
        · exact Or.inr ⟨e, Or.inl rfl, h, h1⟩
        · exact Or.inl h
        · obtain ⟨ent, hm, hp, hl⟩ := h
          exact Or.inr ⟨ent, Or.inr hm, hp, hl⟩
      · rintro (h | ⟨ent, hm | hm, hp, hl⟩)
        · exact Or.inl (Or.inr h)
        · subst hm; exact Or.inl (Or.inl hp)
        · exact Or.inr ⟨ent, hm, hp, hl⟩
    · by_cases h2 : lookupA e.2 id = some r
      · rw [gssStep_right _ h1 h2, ih]
        simp only [List.mem_cons]
        constructor
        · rintro (h | h)
          · exact Or.inl h
          · obtain ⟨ent, hm, hp, hl⟩ := h
            exact Or.inr ⟨ent, Or.inr hm, hp, hl⟩
        · rintro (h | ⟨ent, hm | hm, hp, hl⟩)
          · exact Or.inl h
          · subst hm; exact absurd hl h1
          · exact Or.inr ⟨ent, hm, hp, hl⟩
      · rw [gssStep_skip _ h1 h2, ih]
        simp only [List.mem_cons]
        constructor
        · rintro (h | h)
          · exact Or.inl h
          · obtain ⟨ent, hm, hp, hl⟩ := h
            exact Or.inr ⟨ent, Or.inr hm, hp, hl⟩
        · rintro (h | ⟨ent, hm | hm, hp, hl⟩)
          · exact Or.inl h
          · subst hm; exact absurd hl h1
          · exact Or.inr ⟨ent, hm, hp, hl⟩

theorem gssFold_snd_mem (id : (Nat × Nat)) (l r : Nat) (ents : List (Nat × List ((Nat × Nat) × Nat)))
    (a b : Finset PositionSet) (p : PositionSet) :
    p ∈ (ents.foldl (SubstringExpressionSet.gssStep id l r) (a, b)).2 ↔
      p ∈ b ∨ ∃ ent ∈ ents, p = PositionSet.GraphNode ent.1 ∧
        lookupA ent.2 id ≠ some l ∧ lookupA ent.2 id = some r := by
  induction ents generalizing a b with
  | nil => simp
  | cons e t ih =>
    simp only [List.foldl_cons]
    by_cases h1 : lookupA e.2 id = some l
    · rw [gssStep_left _ h1, ih]
      simp only [List.mem_cons]
      constructor
      · rintro (h | h)
        · exact Or.inl h
        · obtain ⟨ent, hm, hp, hl⟩ := h
          exact Or.inr ⟨ent, Or.inr hm, hp, hl⟩
      · rintro (h | ⟨ent, hm | hm, hp, hl⟩)
        · exact Or.inl h
        · subst hm; exact absurd h1 hl.1
        · exact Or.inr ⟨ent, hm, hp, hl⟩
    · by_cases h2 : lookupA e.2 id = some r
      · rw [gssStep_right _ h1 h2, ih]
        simp only [Finset.mem_insert, List.mem_cons]
        constructor
        · rintro ((h | h) | h)
          · exact Or.inr ⟨e, Or.inl rfl, h, h1, h2⟩
          · exact Or.inl h
          · obtain ⟨ent, hm, hp, hl⟩ := h
            exact Or.inr ⟨ent, Or.inr hm, hp, hl⟩
        · rintro (h | ⟨ent, hm | hm, hp, hl⟩)
          · exact Or.inl (Or.inr h)
          · subst hm; exact Or.inl (Or.inl hp)
          · exact Or.inr ⟨ent, hm, hp, hl⟩
      · rw [gssStep_skip _ h1 h2, ih]
        simp only [List.mem_cons]
        constructor
        · rintro (h | h)
          · exact Or.inl h
          · obtain ⟨ent, hm, hp, hl⟩ := h
            exact Or.inr ⟨ent, Or.inr hm, hp, hl⟩
        · rintro (h | ⟨ent, hm | hm, hp, hl⟩)
          · exact Or.inl h
          · subst hm; exact absurd hl.2 h2
          · exact Or.inr ⟨ent, hm, hp, hl⟩

theorem exists_ent_iff_labelAt {g : InputDataGraph} {id : (Nat × Nat)} {x : Nat}
    {p : PositionSet} (hnd : (g.labels.map Prod.fst).Nodup) :
    (∃ ent ∈ g.labels, p = PositionSet.GraphNode ent.1 ∧ lookupA ent.2 id = some x) ↔
      ∃ v, p = PositionSet.GraphNode v ∧ labelAt g v id = some x := by
  constructor
  · rintro ⟨ent, hm, rfl, hl⟩
    refine ⟨ent.1, rfl, ?_⟩
    unfold labelAt labelsOf
    rw [lookupA_of_mem_nodup hnd (by exact hm)]
    exact hl
  · rintro ⟨v, rfl, hl⟩
    unfold labelAt labelsOf at hl
    cases hv : lookupA g.labels v with
    | none => rw [hv] at hl; simp [lookupA] at hl
    | some m =>
      rw [hv] at hl
      exact ⟨(v, m), lookupA_mem hv, rfl, hl⟩

theorem mem_generate_left {g : InputDataGraph} {id : (Nat × Nat)} {l r : Nat}
    {p : PositionSet} (hnd : (g.labels.map Prod.fst).Nodup) :
    p ∈ (SubstringExpressionSet.generate_substring_set id l r g).leftSetOf ↔
      p = PositionSet.ConstantPosition (l : Int) ∨
        ∃ v, p = PositionSet.GraphNode v ∧ labelAt g v id = some l := by
  unfold SubstringExpressionSet.generate_substring_set
  simp only [SubstringExpressionSet.leftSetOf, Finset.mem_insert]
  rw [gssFold_fst_mem]
  simp only [Finset.not_mem_empty, false_or]
  rw [exists_ent_iff_labelAt hnd]

theorem mem_generate_right {g : InputDataGraph} {id : (Nat × Nat)} {l r : Nat}
    {p : PositionSet} (hnd : (g.labels.map Prod.fst).Nodup) (hlr : l ≠ r) :
    p ∈ (SubstringExpressionSet.generate_substring_set id l r g).rightSetOf ↔
      p = PositionSet.ConstantPosition (r : Int) ∨
        ∃ v, p = PositionSet.GraphNode v ∧ labelAt g v id = some r := by
  unfold SubstringExpressionSet.generate_substring_set
  simp only [SubstringExpressionSet.rightSetOf, Finset.mem_insert]
  rw [gssFold_snd_mem]
  simp only [Finset.not_mem_empty, false_or]
  rw [← exists_ent_iff_labelAt hnd]
  constructor
  · rintro (h | ⟨ent, hm, hp, _, hl⟩)
    · exact Or.inl h
    · exact Or.inr ⟨ent, hm, hp, hl⟩
  · rintro (h | ⟨ent, hm, hp, hl⟩)
    · exact Or.inl h
    · refine Or.inr ⟨ent, hm, hp, ?_, hl⟩
      rw [hl]
      intro hc
      exact hlr (by injection hc with h3; omega)

/-- C6 (counterexample): with a graph labelling node 7 with index 5 at cell
(0,0), `generate_substring_set((0,0), l = 5, r = 5)` puts node 7 into the
left set only (the `else if` never tests the right label once the left test
matched): node 7's label equals `r`, yet `GraphNode 7` is missing from `R`,
refuting the claimed characterization of the right set. -/
theorem c6_counterexample :
    labelAt (⟨1, [(7, [((0, 0), 5)])], []⟩ : InputDataGraph) 7 (0, 0) = some 5 ∧
    PositionSet.GraphNode 7 ∉
      (SubstringExpressionSet.generate_substring_set (0, 0) 5 5
        (⟨1, [(7, [((0, 0), 5)])], []⟩ : InputDataGraph)).rightSetOf ∧
    PositionSet.GraphNode 7 ∈
      (SubstringExpressionSet.generate_substring_set (0, 0) 5 5
        (⟨1, [(7, [((0, 0), 5)])], []⟩ : InputDataGraph)).leftSetOf := by decide

/-- C6 (amended): `generate_substring_set(id, l, r)` returns a substring set
over `id`'s column whose left set contains `GraphNode v` for exactly the
nodes labelled `l` at `id` plus the fallback `ConstantPosition l`; provided
`l ≠ r`, the right set symmetrically contains exactly the nodes labelled `r`
plus `ConstantPosition r` (when `l = r` the left test shadows the right one
and every node labelled `r` is claimed by the left set); both sets are
always non-empty. -/
theorem c6_amended (g : InputDataGraph) (id : (Nat × Nat)) (l r : Nat)
    (hnd : (g.labels.map Prod.fst).Nodup) :
    (SubstringExpressionSet.generate_substring_set id l r g).colOf = id.2 ∧
    (∀ p, p ∈ (SubstringExpressionSet.generate_substring_set id l r g).leftSetOf ↔
      p = PositionSet.ConstantPosition (l : Int) ∨
        ∃ v, p = PositionSet.GraphNode v ∧ labelAt g v id = some l) ∧
    (l ≠ r →
      ∀ p, p ∈ (SubstringExpressionSet.generate_substring_set id l r g).rightSetOf ↔
        p = PositionSet.ConstantPosition (r : Int) ∨
          ∃ v, p = PositionSet.GraphNode v ∧ labelAt g v id = some r) ∧
    (SubstringExpressionSet.generate_substring_set id l r g).leftSetOf ≠ ∅ ∧
    (SubstringExpressionSet.generate_substring_set id l r g).rightSetOf ≠ ∅ := by
  refine ⟨rfl, fun p => mem_generate_left hnd, fun hlr p => mem_generate_right hnd hlr, ?_, ?_⟩ <;>
    simp [SubstringExpressionSet.generate_substring_set, SubstringExpressionSet.leftSetOf,
      SubstringExpressionSet.rightSetOf, Finset.insert_ne_empty]

/-- Witness for C6 (amended) at a concrete graph, `l = 5`, `r = 9`. -/
theorem c6_amended_witness :
    ((((⟨1, [(7, [((0, 0), 5)])], []⟩ : InputDataGraph)).labels.map Prod.fst).Nodup) ∧
    ((SubstringExpressionSet.generate_substring_set (0, 0) 5 9
        (⟨1, [(7, [((0, 0), 5)])], []⟩ : InputDataGraph)).colOf = 0 ∧
    (∀ p, p ∈ (SubstringExpressionSet.generate_substring_set (0, 0) 5 9
        (⟨1, [(7, [((0, 0), 5)])], []⟩ : InputDataGraph)).leftSetOf ↔
      p = PositionSet.ConstantPosition (5 : Int) ∨
        ∃ v, p = PositionSet.GraphNode v ∧
          labelAt (⟨1, [(7, [((0, 0), 5)])], []⟩ : InputDataGraph) v (0, 0) = some 5) ∧
    ((5 : Nat) ≠ 9 →
      ∀ p, p ∈ (SubstringExpressionSet.generate_substring_set (0, 0) 5 9
          (⟨1, [(7, [((0, 0), 5)])], []⟩ : InputDataGraph)).rightSetOf ↔
        p = PositionSet.ConstantPosition (9 : Int) ∨
          ∃ v, p = PositionSet.GraphNode v ∧
            labelAt (⟨1, [(7, [((0, 0), 5)])], []⟩ : InputDataGraph) v (0, 0) = some 9) ∧
    (SubstringExpressionSet.generate_substring_set (0, 0) 5 9
        (⟨1, [(7, [((0, 0), 5)])], []⟩ : InputDataGraph)).leftSetOf ≠ ∅ ∧
    (SubstringExpressionSet.generate_substring_set (0, 0) 5 9
        (⟨1, [(7, [((0, 0), 5)])], []⟩ : InputDataGraph)).rightSetOf ≠ ∅) :=
  ⟨by decide, c6_amended (⟨1, [(7, [((0, 0), 5)])], []⟩ : InputDataGraph) (0, 0) 5 9 (by decide)⟩

/-! ## The candidate-scoring step of `top_ranked_expression` (claim C2) -/

theorem sumDiffsLT_bad_iff (k : Nat) (l : List ((Nat × Nat) × Nat)) :
    (sumDiffsLT k l).2 = true ↔ ∃ ent ∈ l, ent.2 ≤ k := by
  induction l with
  | nil => simp [sumDiffsLT]
  | cons ent t ih =>
    by_cases h : k < ent.2
    · simp only [sumDiffsLT, h, if_pos, List.mem_cons]
      rw [ih]
      constructor
      · rintro ⟨e, hm, he⟩
        exact ⟨e, Or.inr hm, he⟩
      · rintro ⟨e, hm | hm, he⟩
        · subst hm; omega
        · exact ⟨e, hm, he⟩
    · simp only [sumDiffsLT, h, ite_false, List.mem_cons]
      exact iff_of_true (by trivial) ⟨ent, Or.inl rfl, by omega⟩

theorem sumDiffsLT_eq_sum (k : Nat) (l : List ((Nat × Nat) × Nat))
    (h : ∀ ent ∈ l, k < ent.2) :
    sumDiffsLT k l = ((l.map (fun ent => ent.2 - k)).sum % 2 ^ 64, false) := by
  induction l with
  | nil => simp [sumDiffsLT]
  | cons ent t ih =>
    have h1 : k < ent.2 := h ent (by simp)
    simp only [sumDiffsLT, h1, if_pos, List.map_cons, List.sum_cons]
    rw [ih (fun e he => h e (by simp [he]))]
    show (usizeAdd (ent.2 - k) ((t.map (fun ent => ent.2 - k)).sum % 2 ^ 64), false) = _
    unfold usizeAdd
    have hm : (ent.2 - k + (t.map (fun ent => ent.2 - k)).sum % 2 ^ 64) % 2 ^ 64 =
        (ent.2 - k + (t.map (fun ent => ent.2 - k)).sum) % 2 ^ 64 := by omega
    rw [hm]

theorem sumDiffsGT_bad_iff (k : Nat) (l : List ((Nat × Nat) × Nat)) :
    (sumDiffsGT k l).2 = true ↔ ∃ ent ∈ l, k ≤ ent.2 := by
  induction l with
  | nil => simp [sumDiffsGT]
  | cons ent t ih =>
    by_cases h : ent.2 < k
    · simp only [sumDiffsGT, h, if_pos, List.mem_cons]
      rw [ih]
      constructor
      · rintro ⟨e, hm, he⟩
        exact ⟨e, Or.inr hm, he⟩
      · rintro ⟨e, hm | hm, he⟩
        · subst hm; omega
        · exact ⟨e, hm, he⟩
    · simp only [sumDiffsGT, h, ite_false, List.mem_cons]
      exact iff_of_true (by trivial) ⟨ent, Or.inl rfl, by omega⟩

theorem sumDiffsGT_eq_sum (k : Nat) (l : List ((Nat × Nat) × Nat))
    (h : ∀ ent ∈ l, ent.2 < k) :
    sumDiffsGT k l = ((l.map (fun ent => k - ent.2)).sum % 2 ^ 64, false) := by
  induction l with
  | nil => simp [sumDiffsGT]
  | cons ent t ih =>
    have h1 : ent.2 < k := h ent (by simp)
    simp only [sumDiffsGT, h1, if_pos, List.map_cons, List.sum_cons]
    rw [ih (fun e he => h e (by simp [he]))]
    show (usizeAdd (k - ent.2) ((t.map (fun ent => k - ent.2)).sum % 2 ^ 64), false) = _
    unfold usizeAdd
    have hm : (k - ent.2 + (t.map (fun ent => k - ent.2)).sum % 2 ^ 64) % 2 ^ 64 =
        (k - ent.2 + (t.map (fun ent => k - ent.2)).sum) % 2 ^ 64 := by omega
    rw [hm]

theorem sumDiffsGG_bad_iff (g : InputDataGraph) (v2 : Nat) (l : List ((Nat × Nat) × Nat)) :
    (sumDiffsGG g v2 l).2 = true ↔ ∃ ent ∈ l, (labelAt g v2 ent.1).getD 0 ≤ ent.2 := by
  induction l with
  | nil => simp [sumDiffsGG]
  | cons ent t ih =>
    by_cases h : ent.2 < (labelAt g v2 ent.1).getD 0
    · simp only [sumDiffsGG, h, if_pos, List.mem_cons]
      rw [ih]
      constructor
      · rintro ⟨e, hm, he⟩
        exact ⟨e, Or.inr hm, he⟩
      · rintro ⟨e, hm | hm, he⟩
        · subst hm; omega
        · exact ⟨e, hm, he⟩
    · simp only [sumDiffsGG, h, ite_false, List.mem_cons]
      exact iff_of_true (by trivial) ⟨ent, Or.inl rfl, by omega⟩

theorem sumDiffsGG_eq_sum (g : InputDataGraph) (v2 : Nat) (l : List ((Nat × Nat) × Nat))
    (h : ∀ ent ∈ l, ent.2 < (labelAt g v2 ent.1).getD 0) :
    sumDiffsGG g v2 l =
      ((l.map (fun ent => (labelAt g v2 ent.1).getD 0 - ent.2)).sum % 2 ^ 64, false) := by
  induction l with
  | nil => simp [sumDiffsGG]
  | cons ent t ih =>
    have h1 : ent.2 < (labelAt g v2 ent.1).getD 0 := h ent (by simp)
    simp only [sumDiffsGG, h1, if_pos, List.map_cons, List.sum_cons]
    rw [ih (fun e he => h e (by simp [he]))]
    show (usizeAdd ((labelAt g v2 ent.1).getD 0 - ent.2)
      ((t.map (fun ent => (labelAt g v2 ent.1).getD 0 - ent.2)).sum % 2 ^ 64), false) = _
    unfold usizeAdd
    have hm : ((labelAt g v2 ent.1).getD 0 - ent.2 +
        (t.map (fun ent => (labelAt g v2 ent.1).getD 0 - ent.2)).sum % 2 ^ 64) % 2 ^ 64 =
        ((labelAt g v2 ent.1).getD 0 - ent.2 +
          (t.map (fun ent => (labelAt g v2 ent.1).getD 0 - ent.2)).sum) % 2 ^ 64 := by omega
    rw [hm]

theorem candScore_CS (g : InputDataGraph) (ranks : Nat → Nat) (s : Str) :
    candScore g ranks (SubstringExpressionSet.ConstantString s) =
      (some (SubstringExpression.ConstantString s),
        usizeMul (usizeMul s.length s.length) EPSILON) := rfl

theorem candScore_CPCP (g : InputDataGraph) (ranks : Nat → Nat) (ci : Nat)
    (pl pr : Finset PositionSet) (k1 k2 : Int)
    (hl : pickMax (rankKey ranks) pl = some (PositionSet.ConstantPosition k1))
    (hr : pickMax (rankKey ranks) pr = some (PositionSet.ConstantPosition k2)) :
    candScore g ranks (SubstringExpressionSet.SubstringSet ci pl pr) =
      (some (SubstringExpression.Substring ci (Position.ConstantPosition k1)
          (Position.ConstantPosition k2)),
        usizeMul (usizeMul (usizeSub (usizeOf k2) (usizeOf k1))
          (usizeSub (usizeOf k2) (usizeOf k1))) KAPPA) := by
  simp [candScore, hl, hr, sampleP]

theorem candScore_CPGN (g : InputDataGraph) (ranks : Nat → Nat) (ci : Nat)
    (pl pr : Finset PositionSet) (k : Int) (v : Nat)
    (hl : pickMax (rankKey ranks) pl = some (PositionSet.ConstantPosition k))
    (hr : pickMax (rankKey ranks) pr = some (PositionSet.GraphNode v)) :
    candScore g ranks (SubstringExpressionSet.SubstringSet ci pl pr) =
      (if (sumDiffsLT (usizeOf k) (labelsOf g v)).2 then none
       else (sampleP g (PositionSet.GraphNode v)).map
         (fun b => SubstringExpression.Substring ci (Position.ConstantPosition k) b),
       usizeMul (usizeMul ((sumDiffsLT (usizeOf k) (labelsOf g v)).1 / g.numRows)
         ((sumDiffsLT (usizeOf k) (labelsOf g v)).1 / g.numRows)) KAPPA) := by
  simp only [candScore, hl, hr]
  by_cases hb : (sumDiffsLT (usizeOf k) (labelsOf g v)).2
  · simp [hb]
  · cases hs : sampleP g (PositionSet.GraphNode v) <;> simp [hb, hs, sampleP]

theorem candScore_GNCP (g : InputDataGraph) (ranks : Nat → Nat) (ci : Nat)
    (pl pr : Finset PositionSet) (k : Int) (v : Nat)
    (hl : pickMax (rankKey ranks) pl = some (PositionSet.GraphNode v))
    (hr : pickMax (rankKey ranks) pr = some (PositionSet.ConstantPosition k)) :
    candScore g ranks (SubstringExpressionSet.SubstringSet ci pl pr) =
      (if (sumDiffsGT (usizeOf k) (labelsOf g v)).2 then none
       else (sampleP g (PositionSet.GraphNode v)).map
         (fun a => SubstringExpression.Substring ci a (Position.ConstantPosition k)),
       usizeMul (usizeMul ((sumDiffsGT (usizeOf k) (labelsOf g v)).1 / g.numRows)
         ((sumDiffsGT (usizeOf k) (labelsOf g v)).1 / g.numRows)) KAPPA) := by
  simp only [candScore, hl, hr]
  by_cases hb : (sumDiffsGT (usizeOf k) (labelsOf g v)).2
  · simp [hb]
  · cases hs : sampleP g (PositionSet.GraphNode v) <;> simp [hb, hs, sampleP]

theorem candScore_GNGN (g : InputDataGraph) (ranks : Nat → Nat) (ci : Nat)
    (pl pr : Finset PositionSet) (v1 v2 : Nat)
    (hl : pickMax (rankKey ranks) pl = some (PositionSet.GraphNode v1))
    (hr : pickMax (rankKey ranks) pr = some (PositionSet.GraphNode v2)) :
    candScore g ranks (SubstringExpressionSet.SubstringSet ci pl pr) =
      (if (sumDiffsGG g v2 (labelsOf g v1)).2 then none
       else (sampleP g (PositionSet.GraphNode v1)).bind
         (fun a => (sampleP g (PositionSet.GraphNode v2)).map
           (fun b => SubstringExpression.Substring ci a b)),
       usizeMul (usizeMul ((sumDiffsGG g v2 (labelsOf g v1)).1 / g.numRows)
         ((sumDiffsGG g v2 (labelsOf g v1)).1 / g.numRows)) KAPPA) := by
  simp only [candScore, hl, hr]
  by_cases hb : (sumDiffsGG g v2 (labelsOf g v1)).2
  · simp [hb]
  · cases hs : sampleP g (PositionSet.GraphNode v1) <;>
      cases hs2 : sampleP g (PositionSet.GraphNode v2) <;> simp [hb, hs, hs2]

/-- C2 (counterexample).  First conjunct: a `SubstringSet` whose picked pair
is two constant positions with `r − ℓ = 3 − 5 ≤ 0` (a non-positive
difference in every row) is NOT marked invalid: the candidate survives with
the wrapped `usize` length `2⁶⁴ − 2` and the wrapped `usize` score
`((2⁶⁴ − 2)² · 15) mod 2⁶⁴ = 60`, refuting the claimed validity check "for
every shape including two ConstantPositions".  Remaining conjuncts: with two
rows and label differences 3 and 6, the surviving candidate's score is
`(9 / 2)² · 15 = 240` (integer division), not `4.5² · 15 = 303.75` as the
arithmetic-mean reading requires. -/
theorem c2_counterexample :
    candScore (⟨1, [], []⟩ : InputDataGraph) (fun _ => 0)
        (SubstringExpressionSet.SubstringSet 0 {PositionSet.ConstantPosition 5}
          {PositionSet.ConstantPosition 3}) =
      (some (SubstringExpression.Substring 0 (Position.ConstantPosition 5)
        (Position.ConstantPosition 3)), 60) ∧
    usizeSub (usizeOf 3) (usizeOf 5) = 2 ^ 64 - 2 ∧
    candScore (⟨2, [(4, [((0, 0), 4), ((1, 0), 7)])], [((3, 4), [(0, 1)])]⟩ : InputDataGraph)
        (fun _ => 0)
        (SubstringExpressionSet.SubstringSet 0 {PositionSet.ConstantPosition 1}
          {PositionSet.GraphNode 4}) =
      (some (SubstringExpression.Substring 0 (Position.ConstantPosition 1)
        (Position.Match 0 1 Direction.End)), 240) ∧
    (240 : ℚ) ≠ ((9 : ℚ) / 2) ^ 2 * 15 := by
  refine ⟨by decide, by decide, by decide, by norm_num⟩

/-- C2 (amended): scoring a candidate for a DAG edge, in release-mode
wrapping `usize` arithmetic throughout.  `ConstantString s` scores
`|s|² · EPSILON` (wrapping).  For a `SubstringSet`, after `ℓ` and `r` are
picked by maximum rank key: if both are constant positions `k1, k2`, no
validity check is performed and the candidate always survives, with
`len = k2 − k1` computed by wrapping `usize` subtraction; if a graph node is
involved, the code sums the index differences over all of the node's label
entries (one per `(row, col)` cell) with wrapping addition, marks the
candidate invalid exactly when some entry's difference is non-positive, and
otherwise takes `len` as the floor of the summed differences divided by the
number of rows; a surviving candidate scores `len² · KAPPA` with both
multiplications wrapping. -/
theorem c2_amended (g : InputDataGraph) (ranks : Nat → Nat) :
    (∀ s, candScore g ranks (SubstringExpressionSet.ConstantString s) =
      (some (SubstringExpression.ConstantString s),
        usizeMul (usizeMul s.length s.length) EPSILON)) ∧
    (∀ ci pl pr (k1 k2 : Int),
      pickMax (rankKey ranks) pl = some (PositionSet.ConstantPosition k1) →
      pickMax (rankKey ranks) pr = some (PositionSet.ConstantPosition k2) →
      candScore g ranks (SubstringExpressionSet.SubstringSet ci pl pr) =
        (some (SubstringExpression.Substring ci (Position.ConstantPosition k1)
            (Position.ConstantPosition k2)),
          usizeMul (usizeMul (usizeSub (usizeOf k2) (usizeOf k1))
            (usizeSub (usizeOf k2) (usizeOf k1))) KAPPA)) ∧
    (∀ ci pl pr (k : Int) v,
      pickMax (rankKey ranks) pl = some (PositionSet.ConstantPosition k) →
      pickMax (rankKey ranks) pr = some (PositionSet.GraphNode v) →
      ((∀ ent ∈ labelsOf g v, usizeOf k < ent.2) →
        candScore g ranks (SubstringExpressionSet.SubstringSet ci pl pr) =
          ((sampleP g (PositionSet.GraphNode v)).map
            (fun b => SubstringExpression.Substring ci (Position.ConstantPosition k) b),
           usizeMul (usizeMul
             ((((labelsOf g v).map (fun ent => ent.2 - usizeOf k)).sum % 2 ^ 64) / g.numRows)
             ((((labelsOf g v).map (fun ent => ent.2 - usizeOf k)).sum % 2 ^ 64) / g.numRows))
             KAPPA)) ∧
      ((∃ ent ∈ labelsOf g v, ent.2 ≤ usizeOf k) →
        (candScore g ranks (SubstringExpressionSet.SubstringSet ci pl pr)).1 = none)) ∧
    (∀ ci pl pr (k : Int) v,
      pickMax (rankKey ranks) pl = some (PositionSet.GraphNode v) →
      pickMax (rankKey ranks) pr = some (PositionSet.ConstantPosition k) →
      ((∀ ent ∈ labelsOf g v, ent.2 < usizeOf k) →
        candScore g ranks (SubstringExpressionSet.SubstringSet ci pl pr) =
          ((sampleP g (PositionSet.GraphNode v)).map
            (fun a => SubstringExpression.Substring ci a (Position.ConstantPosition k)),
           usizeMul (usizeMul
             ((((labelsOf g v).map (fun ent => usizeOf k - ent.2)).sum % 2 ^ 64) / g.numRows)
             ((((labelsOf g v).map (fun ent => usizeOf k - ent.2)).sum % 2 ^ 64) / g.numRows))
             KAPPA)) ∧
      ((∃ ent ∈ labelsOf g v, usizeOf k ≤ ent.2) →
        (candScore g ranks (SubstringExpressionSet.SubstringSet ci pl pr)).1 = none)) ∧
    (∀ ci pl pr v1 v2,
      pickMax (rankKey ranks) pl = some (PositionSet.GraphNode v1) →
      pickMax (rankKey ranks) pr = some (PositionSet.GraphNode v2) →
      ((∀ ent ∈ labelsOf g v1, ent.2 < (labelAt g v2 ent.1).getD 0) →
        candScore g ranks (SubstringExpressionSet.SubstringSet ci pl pr) =
          ((sampleP g (PositionSet.GraphNode v1)).bind
            (fun a => (sampleP g (PositionSet.GraphNode v2)).map
              (fun b => SubstringExpression.Substring ci a b)),
           usizeMul (usizeMul
             ((((labelsOf g v1).map
               (fun ent => (labelAt g v2 ent.1).getD 0 - ent.2)).sum % 2 ^ 64) / g.numRows)
             ((((labelsOf g v1).map
               (fun ent => (labelAt g v2 ent.1).getD 0 - ent.2)).sum % 2 ^ 64) / g.numRows))
             KAPPA)) ∧
      ((∃ ent ∈ labelsOf g v1, (labelAt g v2 ent.1).getD 0 ≤ ent.2) →
        (candScore g ranks (SubstringExpressionSet.SubstringSet ci pl pr)).1 = none)) := by
  refine ⟨fun s => rfl, fun ci pl pr k1 k2 hl hr => candScore_CPCP g ranks ci pl pr k1 k2 hl hr,
    fun ci pl pr k v hl hr => ⟨?_, ?_⟩, fun ci pl pr k v hl hr => ⟨?_, ?_⟩,
    fun ci pl pr v1 v2 hl hr => ⟨?_, ?_⟩⟩
  · intro hpos
    rw [candScore_CPGN g ranks ci pl pr k v hl hr, sumDiffsLT_eq_sum _ _ hpos]
    simp
  · intro hbad
    rw [candScore_CPGN g ranks ci pl pr k v hl hr]
    have : (sumDiffsLT (usizeOf k) (labelsOf g v)).2 = true := (sumDiffsLT_bad_iff _ _).2 hbad
    simp [this]
  · intro hpos
    rw [candScore_GNCP g ranks ci pl pr k v hl hr, sumDiffsGT_eq_sum _ _ hpos]
    simp
  · intro hbad
    rw [candScore_GNCP g ranks ci pl pr k v hl hr]
    have : (sumDiffsGT (usizeOf k) (labelsOf g v)).2 = true := (sumDiffsGT_bad_iff _ _).2 hbad
    simp [this]
  · intro hpos
    rw [candScore_GNGN g ranks ci pl pr v1 v2 hl hr, sumDiffsGG_eq_sum _ _ _ hpos]
    simp
  · intro hbad
    rw [candScore_GNGN g ranks ci pl pr v1 v2 hl hr]
    have : (sumDiffsGG g v2 (labelsOf g v1)).2 = true := (sumDiffsGG_bad_iff _ _ _).2 hbad
    simp [this]

/-- Witness for C2 (amended): all five scoring shapes evaluated on a
two-row graph (node 4 labelled 4 and 7, node 6 labelled 2 and 3, an
in-edge for node 4 and an out-edge for node 6). -/
theorem c2_amended_witness :
    candScore (⟨2, [(4, [((0, 0), 4), ((1, 0), 7)]), (6, [((0, 0), 2), ((1, 0), 3)])],
        [((3, 4), [(0, 1)]), ((6, 8), [(1, 2)])]⟩ : InputDataGraph) (fun _ => 0)
      (SubstringExpressionSet.ConstantString [97, 98]) =
      (some (SubstringExpression.ConstantString [97, 98]), 4) ∧
    candScore (⟨2, [(4, [((0, 0), 4), ((1, 0), 7)]), (6, [((0, 0), 2), ((1, 0), 3)])],
        [((3, 4), [(0, 1)]), ((6, 8), [(1, 2)])]⟩ : InputDataGraph) (fun _ => 0)
      (SubstringExpressionSet.SubstringSet 3 {PositionSet.ConstantPosition 2}
        {PositionSet.ConstantPosition 6}) =
      (some (SubstringExpression.Substring 3 (Position.ConstantPosition 2)
        (Position.ConstantPosition 6)), 240) ∧
    candScore (⟨2, [(4, [((0, 0), 4), ((1, 0), 7)]), (6, [((0, 0), 2), ((1, 0), 3)])],
        [((3, 4), [(0, 1)]), ((6, 8), [(1, 2)])]⟩ : InputDataGraph) (fun _ => 0)
      (SubstringExpressionSet.SubstringSet 0 {PositionSet.ConstantPosition 1}
        {PositionSet.GraphNode 4}) =
      (some (SubstringExpression.Substring 0 (Position.ConstantPosition 1)
        (Position.Match 0 1 Direction.End)), 240) ∧
    (candScore (⟨2, [(4, [((0, 0), 4), ((1, 0), 7)]), (6, [((0, 0), 2), ((1, 0), 3)])],
        [((3, 4), [(0, 1)]), ((6, 8), [(1, 2)])]⟩ : InputDataGraph) (fun _ => 0)
      (SubstringExpressionSet.SubstringSet 0 {PositionSet.ConstantPosition 5}
        {PositionSet.GraphNode 4})).1 = none ∧
    candScore (⟨2, [(4, [((0, 0), 4), ((1, 0), 7)]), (6, [((0, 0), 2), ((1, 0), 3)])],
        [((3, 4), [(0, 1)]), ((6, 8), [(1, 2)])]⟩ : InputDataGraph) (fun _ => 0)
      (SubstringExpressionSet.SubstringSet 0 {PositionSet.GraphNode 6}
        {PositionSet.ConstantPosition 9}) =
      (some (SubstringExpression.Substring 0 (Position.Match 1 2 Direction.Start)
        (Position.ConstantPosition 9)), 540) ∧
    (candScore (⟨2, [(4, [((0, 0), 4), ((1, 0), 7)]), (6, [((0, 0), 2), ((1, 0), 3)])],
        [((3, 4), [(0, 1)]), ((6, 8), [(1, 2)])]⟩ : InputDataGraph) (fun _ => 0)
      (SubstringExpressionSet.SubstringSet 0 {PositionSet.GraphNode 6}
        {PositionSet.ConstantPosition 3})).1 = none ∧
    candScore (⟨2, [(4, [((0, 0), 4), ((1, 0), 7)]), (6, [((0, 0), 2), ((1, 0), 3)])],
        [((3, 4), [(0, 1)]), ((6, 8), [(1, 2)])]⟩ : InputDataGraph) (fun _ => 0)
      (SubstringExpressionSet.SubstringSet 0 {PositionSet.GraphNode 6}
        {PositionSet.GraphNode 4}) =
      (some (SubstringExpression.Substring 0 (Position.Match 1 2 Direction.Start)
        (Position.Match 0 1 Direction.End)), 135) ∧
    (candScore (⟨2, [(4, [((0, 0), 4), ((1, 0), 7)]), (6, [((0, 0), 2), ((1, 0), 3)])],
        [((3, 4), [(0, 1)]), ((6, 8), [(1, 2)])]⟩ : InputDataGraph) (fun _ => 0)
      (SubstringExpressionSet.SubstringSet 0 {PositionSet.GraphNode 4}
        {PositionSet.GraphNode 6})).1 = none := by
  have h := c2_amended (⟨2, [(4, [((0, 0), 4), ((1, 0), 7)]), (6, [((0, 0), 2), ((1, 0), 3)])],
        [((3, 4), [(0, 1)]), ((6, 8), [(1, 2)])]⟩ : InputDataGraph) (fun _ => 0)
  refine ⟨?_, ?_, ?_, ?_, ?_, ?_, ?_, ?_⟩
  · rw [h.1 [97, 98]]
    decide
  · rw [h.2.1 3 _ _ 2 6 (by decide) (by decide)]
    decide
  · rw [(h.2.2.1 0 _ _ 1 4 (by decide) (by decide)).1 (by decide)]
    decide
  · rw [(h.2.2.1 0 _ _ 5 4 (by decide) (by decide)).2 (by decide)]
  · rw [(h.2.2.2.1 0 _ _ 9 6 (by decide) (by decide)).1 (by decide)]
    decide
  · rw [(h.2.2.2.1 0 _ _ 3 6 (by decide) (by decide)).2 (by decide)]
  · rw [(h.2.2.2.2 0 _ _ 6 4 (by decide) (by decide)).1 (by decide)]
    decide
  · rw [(h.2.2.2.2 0 _ _ 4 6 (by decide) (by decide)).2 (by decide)]

/-! ## Expression-set and DAG intersection (claim C4) -/

theorem inter_CS_eq (s : Str) :
    (SubstringExpressionSet.ConstantString s).intersection
      (SubstringExpressionSet.ConstantString s) =
      some (SubstringExpressionSet.ConstantString s) := by
  simp [SubstringExpressionSet.intersection]

theorem inter_CS_ne {s1 s2 : Str} (h : s1 ≠ s2) :
    (SubstringExpressionSet.ConstantString s1).intersection
      (SubstringExpressionSet.ConstantString s2) = none := by
  simp [SubstringExpressionSet.intersection, h]

theorem inter_SS_some {c : Nat} {l1 r1 l2 r2 : Finset PositionSet}
    (hL : l1 ∩ l2 ≠ ∅) (hR : r1 ∩ r2 ≠ ∅) :
    (SubstringExpressionSet.SubstringSet c l1 r1).intersection
      (SubstringExpressionSet.SubstringSet c l2 r2) =
      some (SubstringExpressionSet.SubstringSet c (l1 ∩ l2) (r1 ∩ r2)) := by
  simp [SubstringExpressionSet.intersection, hL, hR]

theorem inter_SS_col {c1 c2 : Nat} {l1 r1 l2 r2 : Finset PositionSet} (h : c1 ≠ c2) :
    (SubstringExpressionSet.SubstringSet c1 l1 r1).intersection
      (SubstringExpressionSet.SubstringSet c2 l2 r2) = none := by
  simp [SubstringExpressionSet.intersection, h]

theorem inter_SS_emptyL {c1 c2 : Nat} {l1 r1 l2 r2 : Finset PositionSet}
    (h : l1 ∩ l2 = ∅) :
    (SubstringExpressionSet.SubstringSet c1 l1 r1).intersection
      (SubstringExpressionSet.SubstringSet c2 l2 r2) = none := by
  by_cases hc : c1 = c2
  · subst hc; simp [SubstringExpressionSet.intersection, h]
  · simp [SubstringExpressionSet.intersection, hc]

theorem inter_SS_emptyR {c1 c2 : Nat} {l1 r1 l2 r2 : Finset PositionSet}
    (h : r1 ∩ r2 = ∅) :
    (SubstringExpressionSet.SubstringSet c1 l1 r1).intersection
      (SubstringExpressionSet.SubstringSet c2 l2 r2) = none := by
  by_cases hc : c1 = c2
  · subst hc
    by_cases hl : l1 ∩ l2 = ∅ <;> simp [SubstringExpressionSet.intersection, hl, h]
  · simp [SubstringExpressionSet.intersection, hc]

theorem inter_cross_CS_SS (s : Str) (c : Nat) (l r : Finset PositionSet) :
    (SubstringExpressionSet.ConstantString s).intersection
      (SubstringExpressionSet.SubstringSet c l r) = none := rfl

theorem inter_cross_SS_CS (s : Str) (c : Nat) (l r : Finset PositionSet) :
    (SubstringExpressionSet.SubstringSet c l r).intersection
      (SubstringExpressionSet.ConstantString s) = none := rfl

theorem mem_interExprs {s1 s2 : List SubstringExpressionSet}
    {e : SubstringExpressionSet} :
    e ∈ interExprs s1 s2 ↔
      ∃ e1 ∈ s1, ∃ e2 ∈ s2, e1.intersection e2 = some e := by
  unfold interExprs
  simp [List.mem_flatMap, List.mem_filterMap]

theorem interExprs_ne_nil {s1 s2 : List SubstringExpressionSet} :
    interExprs s1 s2 ≠ [] ↔
      ∃ e1 ∈ s1, ∃ e2 ∈ s2, e1.intersection e2 ≠ none := by
  constructor
  · intro h
    cases he : interExprs s1 s2 with
    | nil => exact absurd he h
    | cons e t =>
      obtain ⟨e1, h1, e2, h2, hi⟩ := mem_interExprs.1 (he ▸ List.mem_cons_self e t)
      exact ⟨e1, h1, e2, h2, by simp [hi]⟩
  · rintro ⟨e1, h1, e2, h2, hi⟩ hnil
    obtain ⟨e, he⟩ := Option.ne_none_iff_exists.1 hi
    have hmem : e ∈ interExprs s1 s2 := mem_interExprs.2 ⟨e1, h1, e2, h2, he.symm⟩
    rw [hnil] at hmem
    simp at hmem

/-! ### The renumbering map -/

/-- Numbers already assigned never change. -/
theorem numGet_stable {st : NumSt} {q : (Nat × Nat)} {n : Nat} (p : (Nat × Nat))
    (h : lookupA st.map q = some n) : lookupA (numGet st p).1.map q = some n := by
  unfold numGet
  cases hp : lookupA st.map p with
  | some v => simpa using h
  | none =>
    simp only
    rw [lookupA_cons]
    have : p ≠ q := fun hc => by rw [hc] at hp; rw [hp] at h; cases h
    simp [this, h]

theorem numGet_lookup_self (st : NumSt) (p : (Nat × Nat)) :
    lookupA (numGet st p).1.map p = some (numGet st p).2 := by
  unfold numGet
  cases hp : lookupA st.map p with
  | some v => simpa using hp
  | none => simp [lookupA_cons]

theorem numGet_lookup_src {st : NumSt} {p q : (Nat × Nat)} {n : Nat}
    (h : lookupA (numGet st p).1.map q = some n) :
    lookupA st.map q = some n ∨ (q = p ∧ n = st.ctr ∧ lookupA st.map p = none) := by
  unfold numGet at h
  cases hp : lookupA st.map p with
  | some v => rw [hp] at h; exact Or.inl h
  | none =>
    rw [hp] at h
    simp only [lookupA_cons] at h
    by_cases hq : p = q
    · subst hq
      simp at h
      exact Or.inr ⟨rfl, h.symm, rfl⟩
    · simp [hq] at h
      exact Or.inl h

theorem numGet_lookup_src_none {st : NumSt} {p q : (Nat × Nat)}
    (h : lookupA (numGet st p).1.map q = none) : lookupA st.map q = none := by
  unfold numGet at h
  cases hp : lookupA st.map p with
  | some v => rw [hp] at h; exact h
  | none =>
    rw [hp] at h
    simp only [lookupA_cons] at h
    by_cases hq : p = q
    · simp [hq] at h
    · simpa [hq] using h

/-- Well-formedness of the renumbering state: all assigned numbers are below
the counter and distinct pairs get distinct numbers. -/
def WFNum (st : NumSt) : Prop :=
  (∀ p n, lookupA st.map p = some n → n < st.ctr) ∧
  (∀ p q n, lookupA st.map p = some n → lookupA st.map q = some n → p = q)

theorem numGet_ctr_le (st : NumSt) (p : (Nat × Nat)) : st.ctr ≤ (numGet st p).1.ctr := by
  unfold numGet
  cases lookupA st.map p with
  | some v => exact le_refl _
  | none => exact Nat.le_succ _

theorem numGet_wf {st : NumSt} (h : WFNum st) (p : (Nat × Nat)) : WFNum (numGet st p).1 := by
  unfold WFNum at h ⊢
  constructor
  · intro q n hq
    have hle := numGet_ctr_le st p
    rcases numGet_lookup_src hq with h1 | ⟨_, rfl, hnone⟩
    · exact lt_of_lt_of_le (h.1 q n h1) hle
    · unfold numGet
      rw [hnone]
      exact Nat.lt_succ_self _
  · intro q q' n hq hq'
    rcases numGet_lookup_src hq with h1 | ⟨hq1, hn1, hnone1⟩ <;>
      rcases numGet_lookup_src hq' with h2 | ⟨hq2, hn2, hnone2⟩
    · exact h.2 q q' n h1 h2
    · exact absurd (hn2 ▸ h.1 q n h1) (Nat.lt_irrefl st.ctr)
    · exact absurd (hn1 ▸ h.1 q' n h2) (Nat.lt_irrefl st.ctr)
    · rw [hq1, hq2]

theorem numGet_num_lt {st : NumSt} (h : WFNum st) (p : (Nat × Nat)) :
    (numGet st p).2 < (numGet st p).1.ctr := by
  unfold numGet
  cases hp : lookupA st.map p with
  | some v => exact h.1 p v hp
  | none => exact Nat.lt_succ_self _

/-! ### Characterization of `Dag::intersection` -/

theorem foldl_pairs {α β γ : Type} (l1 : List α) (l2 : List β) (f : γ → α → β → γ)
    (init : γ) :
    l1.foldl (fun acc x => l2.foldl (fun a y => f a x y) acc) init =
      (l1.flatMap (fun x => l2.map (fun y => (x, y)))).foldl (fun a p => f a p.1 p.2) init := by
  induction l1 generalizing init with
  | nil => rfl
  | cons x t ih =>
    simp only [List.foldl_cons, List.flatMap_cons, List.foldl_append, List.foldl_map]
    exact ih _

theorem intersection_eq (d1 d2 : Dag) :
    d1.intersection d2 =
      ⟨(numGet (interFoldSt d1 d2).1 (d1.start, d2.start)).2,
       (numGet (numGet (interFoldSt d1 d2).1 (d1.start, d2.start)).1
         (d1.finish, d2.finish)).2,
       (interFoldSt d1 d2).2⟩ := by
  unfold Dag.intersection interFoldSt pairsL stepPair
  rw [foldl_pairs d1.substrings d2.substrings (fun a e1 e2 => interStep a e1 e2)]

theorem stepPair_fst (a : NumSt × List ((Nat × Nat) × List SubstringExpressionSet))
    (pe : ((Nat × Nat) × List SubstringExpressionSet) × ((Nat × Nat) × List SubstringExpressionSet)) :
    (stepPair a pe).1 =
      (numGet (numGet a.1 (pe.1.1.1, pe.2.1.1)).1 (pe.1.1.2, pe.2.1.2)).1 := by
  unfold stepPair interStep
  simp only []

theorem stepPair_snd (a : NumSt × List ((Nat × Nat) × List SubstringExpressionSet))
    (pe : ((Nat × Nat) × List SubstringExpressionSet) × ((Nat × Nat) × List SubstringExpressionSet)) :
    (stepPair a pe).2 =
      a.2 ++ (if interExprs pe.1.2 pe.2.2 = [] then []
        else [(((numGet a.1 (pe.1.1.1, pe.2.1.1)).2,
                (numGet (numGet a.1 (pe.1.1.1, pe.2.1.1)).1 (pe.1.1.2, pe.2.1.2)).2),
               interExprs pe.1.2 pe.2.2)]) := by
  unfold stepPair interStep
  by_cases h : interExprs pe.1.2 pe.2.2 = [] <;> simp [h]

theorem interFold_stable (ps : List (((Nat × Nat) × List SubstringExpressionSet) ×
      ((Nat × Nat) × List SubstringExpressionSet)))
    (a : NumSt × List ((Nat × Nat) × List SubstringExpressionSet)) {q : (Nat × Nat)} {n : Nat}
    (h : lookupA a.1.map q = some n) :
    lookupA ((ps.foldl stepPair a).1).map q = some n := by
  induction ps generalizing a with
  | nil => exact h
  | cons pe t ih =>
    simp only [List.foldl_cons]
    refine ih _ ?_
    rw [stepPair_fst]
    exact numGet_stable _ (numGet_stable _ h)

theorem interFold_wfnum (ps : List (((Nat × Nat) × List SubstringExpressionSet) ×
      ((Nat × Nat) × List SubstringExpressionSet)))
    (a : NumSt × List ((Nat × Nat) × List SubstringExpressionSet)) (h : WFNum a.1) :
    WFNum ((ps.foldl stepPair a).1) := by
  induction ps generalizing a with
  | nil => exact h
  | cons pe t ih =>
    simp only [List.foldl_cons]
    refine ih _ ?_
    rw [stepPair_fst]
    exact numGet_wf (numGet_wf h _) _

theorem interFold_dom (ps : List (((Nat × Nat) × List SubstringExpressionSet) ×
      ((Nat × Nat) × List SubstringExpressionSet)))
    (a : NumSt × List ((Nat × Nat) × List SubstringExpressionSet))
    {pe : ((Nat × Nat) × List SubstringExpressionSet) × ((Nat × Nat) × List SubstringExpressionSet)}
    (hm : pe ∈ ps) :
    (∃ n, lookupA ((ps.foldl stepPair a).1).map (pe.1.1.1, pe.2.1.1) = some n) ∧
    (∃ m, lookupA ((ps.foldl stepPair a).1).map (pe.1.1.2, pe.2.1.2) = some m) := by
  induction ps generalizing a with
  | nil => simp at hm
  | cons pe0 t ih =>
    simp only [List.foldl_cons]
    rcases List.mem_cons.1 hm with rfl | hm'
    · constructor
      · refine ⟨(numGet a.1 (pe.1.1.1, pe.2.1.1)).2, ?_⟩
        refine interFold_stable t _ ?_
        rw [stepPair_fst]
        exact numGet_stable _ (numGet_lookup_self _ _)
      · refine ⟨(numGet (numGet a.1 (pe.1.1.1, pe.2.1.1)).1 (pe.1.1.2, pe.2.1.2)).2, ?_⟩
        refine interFold_stable t _ ?_
        rw [stepPair_fst]
        exact numGet_lookup_self _ _
    · exact ih _ hm'

theorem interFold_mem (ps : List (((Nat × Nat) × List SubstringExpressionSet) ×
      ((Nat × Nat) × List SubstringExpressionSet)))
    (a : NumSt × List ((Nat × Nat) × List SubstringExpressionSet))
    (e : (Nat × Nat) × List SubstringExpressionSet) :
    e ∈ (ps.foldl stepPair a).2 ↔
      e ∈ a.2 ∨ ∃ pe ∈ ps, interExprs pe.1.2 pe.2.2 ≠ [] ∧
        ∃ n m, lookupA ((ps.foldl stepPair a).1).map (pe.1.1.1, pe.2.1.1) = some n ∧
          lookupA ((ps.foldl stepPair a).1).map (pe.1.1.2, pe.2.1.2) = some m ∧
          e = ((n, m), interExprs pe.1.2 pe.2.2) := by
  induction ps generalizing a with
  | nil => simp
  | cons pe0 t ih =>
    simp only [List.foldl_cons]
    rw [ih]
    have hsp : lookupA ((t.foldl stepPair (stepPair a pe0)).1).map
        (pe0.1.1.1, pe0.2.1.1) = some (numGet a.1 (pe0.1.1.1, pe0.2.1.1)).2 := by
      refine interFold_stable t _ ?_
      rw [stepPair_fst]
      exact numGet_stable _ (numGet_lookup_self _ _)
    have hfp : lookupA ((t.foldl stepPair (stepPair a pe0)).1).map
        (pe0.1.1.2, pe0.2.1.2) =
        some (numGet (numGet a.1 (pe0.1.1.1, pe0.2.1.1)).1 (pe0.1.1.2, pe0.2.1.2)).2 := by
      refine interFold_stable t _ ?_
      rw [stepPair_fst]
      exact numGet_lookup_self _ _
    rw [stepPair_snd]
    constructor
    · rintro (hmem | ⟨pe, hpe, hne, n, m, hn, hm, rfl⟩)
      · rcases List.mem_append.1 hmem with hmem | hmem
        · exact Or.inl hmem
        · by_cases hne : interExprs pe0.1.2 pe0.2.2 = []
          · simp [hne] at hmem
          · simp only [hne, ite_false, List.mem_singleton] at hmem
            subst hmem
            exact Or.inr ⟨pe0, List.mem_cons_self _ _, hne, _, _, hsp, hfp, rfl⟩
      · exact Or.inr ⟨pe, List.mem_cons_of_mem _ hpe, hne, n, m, hn, hm, rfl⟩
    · rintro (hmem | ⟨pe, hpe, hne, n, m, hn, hm, rfl⟩)
      · exact Or.inl (List.mem_append.2 (Or.inl hmem))
      · rcases List.mem_cons.1 hpe with rfl | hpe'
        · refine Or.inl (List.mem_append.2 (Or.inr ?_))
          have hn' : n = (numGet a.1 (pe.1.1.1, pe.2.1.1)).2 := by
            rw [hn] at hsp; injection hsp
          have hm' : m = (numGet (numGet a.1 (pe.1.1.1, pe.2.1.1)).1 (pe.1.1.2, pe.2.1.2)).2 := by
            rw [hm] at hfp; injection hfp
          simp [hne, hn', hm']
        · exact Or.inr ⟨pe, hpe', hne, n, m, hn, hm, rfl⟩

/-- The full membership characterization of the product DAG's edge map:
every entry arises from one pair of parent entries with non-empty candidate
intersection, keyed by the renumbering of the endpoint pairs. -/
theorem mem_intersection_substrings {d1 d2 : Dag} {e : (Nat × Nat) × List SubstringExpressionSet} :
    e ∈ (d1.intersection d2).substrings ↔
      ∃ ent1 ∈ d1.substrings, ∃ ent2 ∈ d2.substrings,
        interExprs ent1.2 ent2.2 ≠ [] ∧
        ∃ n m, lookupA (numAll d1 d2).map (ent1.1.1, ent2.1.1) = some n ∧
          lookupA (numAll d1 d2).map (ent1.1.2, ent2.1.2) = some m ∧
          e = ((n, m), interExprs ent1.2 ent2.2) := by
  have hsub : (d1.intersection d2).substrings = (interFoldSt d1 d2).2 := by
    rw [intersection_eq]
  rw [hsub]
  unfold interFoldSt
  rw [interFold_mem]
  simp only [List.not_mem_nil, false_or]
  constructor
  · rintro ⟨pe, hpe, hne, n, m, hn, hm, rfl⟩
    obtain ⟨ent1, h1, ent2, h2, rfl⟩ : ∃ ent1 ∈ d1.substrings, ∃ ent2 ∈ d2.substrings,
        (ent1, ent2) = pe := by
      unfold pairsL at hpe
      simp only [List.mem_flatMap, List.mem_map] at hpe
      obtain ⟨x, hx, y, hy, rfl⟩ := hpe
      exact ⟨x, hx, y, hy, rfl⟩
    refine ⟨ent1, h1, ent2, h2, hne, n, m, ?_, ?_, rfl⟩ <;>
      unfold numAll <;>
      exact numGet_stable _ (numGet_stable _ (by assumption))
  · rintro ⟨ent1, h1, ent2, h2, hne, n, m, hn, hm, rfl⟩
    have hpe : (ent1, ent2) ∈ pairsL d1 d2 := by
      unfold pairsL
      simp only [List.mem_flatMap, List.mem_map]
      exact ⟨ent1, h1, ent2, h2, rfl⟩
    obtain ⟨⟨n', hn'⟩, ⟨m', hm'⟩⟩ := interFold_dom (pairsL d1 d2) (⟨[], 0⟩, []) hpe
    have hn2 : lookupA (numAll d1 d2).map (ent1.1.1, ent2.1.1) = some n' :=
      numGet_stable _ (numGet_stable _ hn')
    have hm2 : lookupA (numAll d1 d2).map (ent1.1.2, ent2.1.2) = some m' :=
      numGet_stable _ (numGet_stable _ hm')
    have hnn : n = n' := by rw [hn] at hn2; injection hn2
    have hmm : m = m' := by rw [hm] at hm2; injection hm2
    exact ⟨(ent1, ent2), hpe, hne, n', m', hn', hm', by rw [hnn, hmm]⟩

/-- C4: expression-set intersection returns `ConstantString(s)` exactly for
equal constants, `SubstringSet(c, L₁∩L₂, R₁∩R₂)` exactly for same-column
substring sets with both side intersections non-empty, and `none` in every
other case (unequal constants, differing columns, an empty side, and both
cross-kind orders); and a product edge of DAG intersection is emitted only
when at least one pairwise intersection of the two parent edges' candidate
sets is non-empty. -/
theorem c4_intersection :
    (∀ s1 s2 : Str,
      (s1 = s2 → (SubstringExpressionSet.ConstantString s1).intersection
        (SubstringExpressionSet.ConstantString s2) =
          some (SubstringExpressionSet.ConstantString s1)) ∧
      (s1 ≠ s2 → (SubstringExpressionSet.ConstantString s1).intersection
        (SubstringExpressionSet.ConstantString s2) = none)) ∧
    (∀ (c1 c2 : Nat) (l1 r1 l2 r2 : Finset PositionSet),
      (c1 = c2 → l1 ∩ l2 ≠ ∅ → r1 ∩ r2 ≠ ∅ →
        (SubstringExpressionSet.SubstringSet c1 l1 r1).intersection
          (SubstringExpressionSet.SubstringSet c2 l2 r2) =
          some (SubstringExpressionSet.SubstringSet c1 (l1 ∩ l2) (r1 ∩ r2))) ∧
      (c1 ≠ c2 → (SubstringExpressionSet.SubstringSet c1 l1 r1).intersection
        (SubstringExpressionSet.SubstringSet c2 l2 r2) = none) ∧
      (l1 ∩ l2 = ∅ → (SubstringExpressionSet.SubstringSet c1 l1 r1).intersection
        (SubstringExpressionSet.SubstringSet c2 l2 r2) = none) ∧
      (r1 ∩ r2 = ∅ → (SubstringExpressionSet.SubstringSet c1 l1 r1).intersection
        (SubstringExpressionSet.SubstringSet c2 l2 r2) = none)) ∧
    (∀ (s : Str) (c : Nat) (l r : Finset PositionSet),
      (SubstringExpressionSet.ConstantString s).intersection
        (SubstringExpressionSet.SubstringSet c l r) = none ∧
      (SubstringExpressionSet.SubstringSet c l r).intersection
        (SubstringExpressionSet.ConstantString s) = none) ∧
    (∀ (d1 d2 : Dag) (e : (Nat × Nat) × List SubstringExpressionSet),
      e ∈ (d1.intersection d2).substrings →
        ∃ ent1 ∈ d1.substrings, ∃ ent2 ∈ d2.substrings,
          ∃ e1 ∈ ent1.2, ∃ e2 ∈ ent2.2, e1.intersection e2 ≠ none) := by
  refine ⟨fun s1 s2 => ⟨?_, ?_⟩, fun c1 c2 l1 r1 l2 r2 => ⟨?_, ?_, ?_, ?_⟩,
    fun s c l r => ⟨rfl, rfl⟩, ?_⟩
  · rintro rfl
    exact inter_CS_eq s1
  · exact inter_CS_ne
  · rintro rfl hL hR
    exact inter_SS_some hL hR
  · exact inter_SS_col
  · exact inter_SS_emptyL
  · exact inter_SS_emptyR
  · intro d1 d2 e he
    obtain ⟨ent1, h1, ent2, h2, hne, _⟩ := mem_intersection_substrings.1 he
    obtain ⟨e1, he1, e2, he2, hi⟩ := interExprs_ne_nil.1 hne
    exact ⟨ent1, h1, ent2, h2, e1, he1, e2, he2, hi⟩

/-- Witness for C4 at concrete inputs, one per case. -/
theorem c4_intersection_witness :
    (SubstringExpressionSet.ConstantString [97]).intersection
      (SubstringExpressionSet.ConstantString [97]) =
      some (SubstringExpressionSet.ConstantString [97]) ∧
    (SubstringExpressionSet.ConstantString [97]).intersection
      (SubstringExpressionSet.ConstantString [98]) = none ∧
    (SubstringExpressionSet.SubstringSet 0
        {PositionSet.ConstantPosition 1, PositionSet.GraphNode 2}
        {PositionSet.ConstantPosition 3}).intersection
      (SubstringExpressionSet.SubstringSet 0 {PositionSet.ConstantPosition 1}
        {PositionSet.ConstantPosition 3, PositionSet.ConstantPosition 4}) =
      some (SubstringExpressionSet.SubstringSet 0
        ({PositionSet.ConstantPosition 1, PositionSet.GraphNode 2} ∩
          {PositionSet.ConstantPosition 1})
        ({PositionSet.ConstantPosition 3} ∩
          {PositionSet.ConstantPosition 3, PositionSet.ConstantPosition 4})) ∧
    (SubstringExpressionSet.SubstringSet 0 {PositionSet.ConstantPosition 1}
        {PositionSet.ConstantPosition 3}).intersection
      (SubstringExpressionSet.SubstringSet 1 {PositionSet.ConstantPosition 1}
        {PositionSet.ConstantPosition 3}) = none ∧
    (SubstringExpressionSet.SubstringSet 0 {PositionSet.ConstantPosition 1}
        {PositionSet.ConstantPosition 3}).intersection
      (SubstringExpressionSet.SubstringSet 0 {PositionSet.ConstantPosition 2}
        {PositionSet.ConstantPosition 3}) = none ∧
    (SubstringExpressionSet.SubstringSet 0 {PositionSet.ConstantPosition 1}
        {PositionSet.ConstantPosition 3}).intersection
      (SubstringExpressionSet.SubstringSet 0 {PositionSet.ConstantPosition 1}
        {PositionSet.ConstantPosition 4}) = none ∧
    (∃ ent1 ∈ (⟨0, 1, [((0, 1), [SubstringExpressionSet.ConstantString [97]])]⟩ : Dag).substrings,
      ∃ ent2 ∈ (⟨0, 1, [((0, 1), [SubstringExpressionSet.ConstantString [97]])]⟩ : Dag).substrings,
        ∃ e1 ∈ ent1.2, ∃ e2 ∈ ent2.2, e1.intersection e2 ≠ none) := by
  have h := c4_intersection
  refine ⟨(h.1 [97] [97]).1 rfl, (h.1 [97] [98]).2 (by decide),
    (h.2.1 0 0 _ _ _ _).1 rfl (by decide) (by decide),
    (h.2.1 0 1 _ _ _ _).2.1 (by decide),
    (h.2.1 0 0 _ _ _ _).2.2.1 (by decide),
    (h.2.1 0 0 _ _ _ _).2.2.2 (by decide),
    h.2.2.2 (⟨0, 1, [((0, 1), [SubstringExpressionSet.ConstantString [97]])]⟩ : Dag)
      (⟨0, 1, [((0, 1), [SubstringExpressionSet.ConstantString [97]])]⟩ : Dag)
      ((0, 1), [SubstringExpressionSet.ConstantString [97]]) (by decide)⟩

/-! ## The occurrence search of `Dag::new` (claims C3, C10) -/

theorem prefixB_none {s : Str} (h : s ≠ []) : s.isPrefixOf ([] : Str) = false := by
  cases s with
  | nil => exact absurd rfl h
  | cons b t => rfl

theorem prefixB_take {s x : Str} : s.isPrefixOf x = true ↔ x.take s.length = s := by
  induction s generalizing x with
  | nil => simp [List.isPrefixOf]
  | cons a as ih =>
    cases x with
    | nil => simp [List.isPrefixOf]
    | cons b bs =>
      simp only [List.isPrefixOf, Bool.and_eq_true, beq_iff_eq, List.length_cons,
        List.take_succ_cons, List.cons.injEq]
      rw [ih]
      constructor
      · rintro ⟨rfl, h2⟩
        exact ⟨rfl, h2⟩
      · rintro ⟨rfl, h2⟩
        exact ⟨rfl, h2⟩

theorem prefixB_lt_length {s x : Str} (hs : s ≠ []) (h : s.isPrefixOf x = true) :
    0 < x.length := by
  cases x with
  | nil => rw [prefixB_none hs] at h; cases h
  | cons b bs => simp

theorem findSub_some_prefixB {t pat : Str} {i : Nat} (h : findSub t pat = some i) :
    pat.isPrefixOf (t.drop i) = true := by
  induction t generalizing i with
  | nil =>
    unfold findSub at h
    by_cases hp : pat = ([] : Str)
    · simp [hp] at h
      subst hp
      simp [← h, List.isPrefixOf]
    · simp [hp] at h
  | cons b t ih =>
    unfold findSub at h
    by_cases hp : pat.isPrefixOf (b :: t) = true
    · simp [hp] at h
      simp [← h, hp]
    · simp [hp] at h
      obtain ⟨i', hi', rfl⟩ := h
      simpa using ih hi'

theorem findSub_some_min {t pat : Str} {i : Nat} (h : findSub t pat = some i) :
    ∀ j, j < i → pat.isPrefixOf (t.drop j) = false := by
  induction t generalizing i with
  | nil =>
    unfold findSub at h
    by_cases hp : pat = ([] : Str)
    · simp [hp] at h
      omega
    · simp [hp] at h
  | cons b t ih =>
    unfold findSub at h
    by_cases hp : pat.isPrefixOf (b :: t) = true
    · simp [hp] at h
      omega
    · simp [hp] at h
      obtain ⟨i', hi', rfl⟩ := h
      intro j hj
      cases j with
      | zero => simpa using Bool.of_not_eq_true hp
      | succ j' => simpa using ih hi' j' (by omega)

theorem findSub_none {t pat : Str} (h : findSub t pat = none) :
    ∀ j, pat.isPrefixOf (t.drop j) = false := by
  induction t with
  | nil =>
    unfold findSub at h
    by_cases hp : pat = ([] : Str)
    · simp [hp] at h
    · intro j
      simp only [List.drop_nil]
      exact prefixB_none hp
  | cons b t ih =>
    unfold findSub at h
    by_cases hp : pat.isPrefixOf (b :: t) = true
    · simp [hp] at h
    · simp [hp] at h
      intro j
      cases j with
      | zero => simpa using Bool.of_not_eq_true hp
      | succ j' => simpa using ih h j'

theorem occsSpecFrom_ge {t s : Str} {off : Nat} (h : t.length ≤ off) :
    occsSpecFrom t s off = [] := by
  unfold occsSpecFrom
  rw [List.filterMap_eq_nil]
  intro l hl
  rw [List.mem_range] at hl
  have : ¬(off ≤ l) := by omega
  simp [this]

theorem occsSpecFrom_nohit {t s : Str} {off : Nat}
    (h : ∀ l, off ≤ l → s.isPrefixOf (t.drop l) = false) :
    occsSpecFrom t s off = [] := by
  unfold occsSpecFrom
  rw [List.filterMap_eq_nil]
  intro l _
  by_cases hle : off ≤ l
  · simp [h l hle]
  · simp [hle]

theorem range_filterMap_split {α : Type} {n l0 : Nat} {g1 g2 : Nat → Option α} {x : α}
    (h0 : ∀ l, l < l0 → g1 l = none) (hx : g1 l0 = some x)
    (hgt : ∀ l, l0 < l → g1 l = g2 l) (hle : ∀ l, l ≤ l0 → g2 l = none)
    (hn : l0 < n) :
    (List.range n).filterMap g1 = x :: (List.range n).filterMap g2 := by
  have key : ∀ k, (List.range (l0 + 1 + k)).filterMap g1 =
      x :: (List.range (l0 + 1 + k)).filterMap g2 := by
    intro k
    induction k with
    | zero =>
      have e0 : l0 + 1 + 0 = l0 + 1 := rfl
      rw [e0, List.range_succ, List.filterMap_append, List.filterMap_append]
      have e1 : (List.range l0).filterMap g1 = [] := by
        rw [List.filterMap_eq_nil]
        intro l hl
        exact h0 l (List.mem_range.1 hl)
      have e2 : (List.range l0).filterMap g2 = [] := by
        rw [List.filterMap_eq_nil]
        intro l hl
        exact hle l (le_of_lt (List.mem_range.1 hl))
      rw [e1, e2]
      simp [hx, hle l0 le_rfl]
    | succ k ih =>
      have e0 : l0 + 1 + (k + 1) = (l0 + 1 + k) + 1 := by omega
      rw [e0, List.range_succ, List.filterMap_append, List.filterMap_append, ih]
      have e1 : List.filterMap g1 [l0 + 1 + k] = List.filterMap g2 [l0 + 1 + k] := by
        have hg := hgt (l0 + 1 + k) (by omega)
        rw [List.filterMap_cons, List.filterMap_cons, hg]
        cases g2 (l0 + 1 + k) <;> rfl
      rw [e1]
      simp
  have e0 : l0 + 1 + (n - (l0 + 1)) = n := by omega
  have := key (n - (l0 + 1))
  rw [e0] at this
  exact this

theorem occsSpecFrom_split {t s : Str} {off l0 : Nat} (hs : s ≠ []) (hoff : off ≤ l0)
    (hpre : s.isPrefixOf (t.drop l0) = true)
    (hmin : ∀ l, off ≤ l → l < l0 → s.isPrefixOf (t.drop l) = false) :
    occsSpecFrom t s off = (l0, l0 + s.length) :: occsSpecFrom t s (l0 + 1) := by
  have hl0 : l0 < t.length := by
    have := prefixB_lt_length hs hpre
    rw [List.length_drop] at this
    omega
  unfold occsSpecFrom
  refine range_filterMap_split ?_ ?_ ?_ ?_ hl0
  · intro l hl
    by_cases hle : off ≤ l
    · simp [hmin l hle hl]
    · simp [hle]
  · simp [hoff, hpre]
  · intro l hl
    have h1 : off ≤ l := by omega
    have h2 : l0 + 1 ≤ l := by omega
    simp [h1, h2]
  · intro l hl
    have : ¬(l0 + 1 ≤ l) := by omega
    simp [this]

theorem occAux_eq_spec {t s : Str} (hs : s ≠ []) :
    ∀ (fuel off : Nat) (occs : List (Nat × Nat)), t.length - off < fuel →
      occAux t s off fuel = some occs → occs = occsSpecFrom t s off := by
  intro fuel
  induction fuel with
  | zero => omega
  | succ m ih =>
    intro off occs hlt h
    rw [occAux] at h
    by_cases hoff : off < t.length
    · rw [if_pos hoff] at h
      by_cases hb : isCharBoundary t off = true
      · rw [if_pos hb] at h
        cases hf : findSub (t.drop off) s with
        | none =>
          rw [hf] at h
          have hocc : occs = [] := by
            injection h with h2
            exact h2.symm
          subst hocc
          refine (occsSpecFrom_nohit ?_).symm
          intro l hl
          have := findSub_none hf (l - off)
          rwa [List.drop_drop, Nat.add_sub_cancel' hl] at this
        | some start =>
          rw [hf] at h
          simp only [Option.map_eq_some'] at h
          obtain ⟨rest, hrest, hocc⟩ := h
          have hrec : rest = occsSpecFrom t s (off + start + 1) := by
            refine ih (off + start + 1) rest (by omega) ?_
            exact hrest
          have hpre : s.isPrefixOf (t.drop (off + start)) = true := by
            have := findSub_some_prefixB hf
            rwa [List.drop_drop] at this
          have hmin : ∀ l, off ≤ l → l < off + start →
              s.isPrefixOf (t.drop l) = false := by
            intro l h1 h2
            have := findSub_some_min hf (l - off) (by omega)
            rwa [List.drop_drop, Nat.add_sub_cancel' h1] at this
          rw [occsSpecFrom_split hs (by omega) hpre hmin]
          rw [← hocc, hrec]
      · rw [if_neg hb] at h
        cases h
    · rw [if_neg hoff] at h
      have hocc : occs = [] := by
        injection h with h2
        exact h2.symm
      subst hocc
      exact (occsSpecFrom_ge (by omega)).symm

theorem colOccs_eq_spec {t s : Str} (hs : s ≠ []) {occs : List (Nat × Nat)}
    (h : colOccs t s = some occs) : occs = occsSpec t s :=
  occAux_eq_spec hs (t.length + 1) 0 occs (by omega) h

theorem mem_occsSpec {t s : Str} (hs : s ≠ []) (l r : Nat) :
    (l, r) ∈ occsSpec t s ↔ s.isPrefixOf (t.drop l) = true ∧ r = l + s.length := by
  unfold occsSpec occsSpecFrom
  simp only [List.mem_filterMap, List.mem_range]
  constructor
  · rintro ⟨l', hl', hcond⟩
    by_cases hc : 0 ≤ l' ∧ s.isPrefixOf (t.drop l') = true
    · rw [if_pos hc] at hcond
      injection hcond with h2
      obtain ⟨rfl, rfl⟩ := Prod.mk.injEq .. ▸ h2
      exact ⟨hc.2, rfl⟩
    · rw [if_neg hc] at hcond
      cases hcond
  · rintro ⟨hpre, rfl⟩
    refine ⟨l, ?_, ?_⟩
    · have := prefixB_lt_length hs hpre
      rw [List.length_drop] at this
      omega
    · simp [hpre]

theorem mem_edgePairs {n i j : Nat} : (i, j) ∈ edgePairs n ↔ i < j ∧ j ≤ n := by
  unfold edgePairs
  simp only [List.mem_flatMap, List.mem_map, List.mem_range]
  constructor
  · rintro ⟨a, ha, k, hk, heq⟩
    simp only [Prod.mk.injEq] at heq
    omega
  · rintro ⟨h1, h2⟩
    refine ⟨i, by omega, j - i - 1, by omega, ?_⟩
    simp only [Prod.mk.injEq, true_and]
    omega

theorem edgePairs_nodup (n : Nat) : (edgePairs n).Nodup := by
  unfold edgePairs
  rw [List.nodup_flatMap]
  constructor
  · intro i _
    refine List.Nodup.map ?_ (List.nodup_range _)
    intro a b hab
    simp only [Prod.mk.injEq, true_and] at hab
    omega
  · refine List.Pairwise.imp ?_ (List.pairwise_lt_range n)
    intro a b hab
    intro x hx hx'
    simp only [Function.onFun, List.mem_map, List.mem_range] at hx hx'
    obtain ⟨k, _, rfl⟩ := hx
    obtain ⟨k', _, heq⟩ := hx'
    simp only [Prod.mk.injEq] at heq
    omega

theorem forall₂_mem_right {α β : Type} {R : α → β → Prop} {l1 : List α} {l2 : List β}
    (h : List.Forall₂ R l1 l2) {b : β} (hb : b ∈ l2) : ∃ a ∈ l1, R a b := by
  induction h with
  | nil => simp at hb
  | cons hR _ ih =>
    rcases List.mem_cons.1 hb with rfl | hb'
    · exact ⟨_, by simp, hR⟩
    · obtain ⟨a, ha, hr⟩ := ih hb'
      exact ⟨a, by simp [ha], hr⟩

theorem optMapM_map_eq {α β : Type} {f : α → Option β} {l : List α} {ys : List β}
    (h : optMapM f l = some ys) (gf : α → β)
    (hdet : ∀ a ∈ l, ∀ y, f a = some y → y = gf a) : ys = l.map gf := by
  induction l generalizing ys with
  | nil =>
    rw [optMapM_nil] at h
    injection h with h2
    rw [← h2]
    rfl
  | cons a t ih =>
    rw [optMapM_cons] at h
    cases hfa : f a with
    | none => rw [hfa] at h; cases h
    | some b =>
      rw [hfa] at h
      cases hrec : optMapM f t with
      | none =>
        rw [hrec] at h
        simp at h
      | some ys' =>
        rw [hrec] at h
        simp at h
        subst h
        rw [List.map_cons]
        rw [hdet a (by simp) b hfa]
        rw [ih hrec (fun x hx y hy => hdet x (by simp [hx]) y hy)]

theorem isCharBoundary_le_length {s : Str} {i : Nat} (h : isCharBoundary s i = true) :
    i ≤ s.length := by
  unfold isCharBoundary at h
  simp only [Bool.or_eq_true, beq_iff_eq] at h
  rcases h with (h | h) | h
  · omega
  · omega
  · cases hg : s.get? i with
    | none => rw [hg] at h; cases h
    | some b =>
      have hlt : i < s.length := by
        by_contra hc
        rw [List.get?_eq_none.2 (by omega)] at hg
        cases hg
      omega

theorem sliceB_some {s : Str} {i j : Nat} {x : Str} (h : sliceB s i j = some x) :
    x = (s.drop i).take (j - i) ∧ i ≤ j ∧ j ≤ s.length := by
  unfold sliceB at h
  by_cases hc : i ≤ j ∧ isCharBoundary s i = true ∧ isCharBoundary s j = true
  · rw [if_pos hc] at h
    injection h with h2
    exact ⟨h2.symm, hc.1, isCharBoundary_le_length hc.2.2⟩
  · rw [if_neg hc] at h
    cases h

theorem DagNew_some {input : List Str} {o : Str} {g : InputDataGraph} {row : Nat}
    {d : Dag} (h : Dag.new input o g row = some d) :
    ∃ entries, optMapM (newEdgeEntry input g row o) (edgePairs o.length) = some entries ∧
      d = ⟨0, o.length, entries⟩ := by
  unfold Dag.new at h
  cases he : optMapM (newEdgeEntry input g row o) (edgePairs o.length) with
  | none => rw [he] at h; cases h
  | some es =>
    rw [he, Option.map_some'] at h
    injection h with h2
    exact ⟨es, rfl, h2.symm⟩

theorem newEdgeEntry_some {input : List Str} {g : InputDataGraph} {row : Nat} {o : Str}
    {e : Nat × Nat} {ent : (Nat × Nat) × List SubstringExpressionSet}
    (h : newEdgeEntry input g row o e = some ent) :
    ∃ s exprs, sliceB o e.1 e.2 = some s ∧ edgeExprs input g row s = some exprs ∧
      ent = (e, SubstringExpressionSet.ConstantString s :: exprs) := by
  unfold newEdgeEntry at h
  cases hs : sliceB o e.1 e.2 with
  | none => rw [hs] at h; cases h
  | some s =>
    rw [hs, Option.some_bind] at h
    cases hx : edgeExprs input g row s with
    | none => rw [hx] at h; cases h
    | some exprs =>
      rw [hx, Option.map_some'] at h
      injection h with h2
      exact ⟨s, exprs, rfl, hx, h2.symm⟩

theorem colExprs_det {g : InputDataGraph} {row : Nat} {s : Str} {p : Nat × Str}
    {res : List SubstringExpressionSet} (hs : s ≠ [])
    (h : colExprs g row s p = some res) :
    res = (occsSpec p.2 s).map (fun lr =>
      SubstringExpressionSet.generate_substring_set (row, p.1) (lr.1 + 1) (lr.2 + 1) g) := by
  unfold colExprs at h
  cases hc : colOccs p.2 s with
  | none => rw [hc] at h; cases h
  | some occs =>
    rw [hc, Option.map_some'] at h
    injection h with h2
    rw [← h2, colOccs_eq_spec hs hc]

theorem edgeExprs_det {input : List Str} {g : InputDataGraph} {row : Nat} {s : Str}
    {exprs : List SubstringExpressionSet} (hs : s ≠ [])
    (h : edgeExprs input g row s = some exprs) :
    exprs = input.enum.flatMap (fun p => (occsSpec p.2 s).map (fun lr =>
      SubstringExpressionSet.generate_substring_set (row, p.1) (lr.1 + 1) (lr.2 + 1) g)) := by
  unfold edgeExprs at h
  cases hc : optMapM (colExprs g row s) input.enum with
  | none => rw [hc] at h; cases h
  | some cols =>
    rw [hc, Option.map_some'] at h
    injection h with h2
    have hcols := optMapM_map_eq hc
      (fun p => (occsSpec p.2 s).map (fun lr =>
        SubstringExpressionSet.generate_substring_set (row, p.1) (lr.1 + 1) (lr.2 + 1) g))
      (fun p _ res hres => colExprs_det hs hres)
    rw [← h2, hcols, List.flatMap_def]

theorem forall₂_fst_eq {α γ : Type} {R : α → (α × γ) → Prop} {l1 : List α}
    {l2 : List (α × γ)} (h : List.Forall₂ R l1 l2) (hp : ∀ a b, R a b → b.1 = a) :
    l2.map Prod.fst = l1 := by
  induction h with
  | nil => rfl
  | cons hR hrest ih =>
    simp only [List.map_cons]
    rw [hp _ _ hR, ih]

theorem occsSpec_nodup (t s : Str) : (occsSpec t s).Nodup := by
  unfold occsSpec occsSpecFrom
  refine List.Nodup.filterMap ?_ (List.nodup_range _)
  intro a a' b hb hb'
  by_cases hc : 0 ≤ a ∧ s.isPrefixOf (t.drop a) = true
  · rw [if_pos hc] at hb
    by_cases hc' : 0 ≤ a' ∧ s.isPrefixOf (t.drop a') = true
    · rw [if_pos hc'] at hb'
      simp only [Option.mem_def, Option.some.injEq] at hb hb'
      rw [← hb] at hb'
      injection hb' with h2 h3
      exact h2.symm
    · rw [if_neg hc'] at hb'
      cases hb'
  · rw [if_neg hc] at hb
    cases hb

/-- The full characterization of `Dag::new` whenever it returns. -/
theorem dagNew_char (input : List Str) (o : Str) (g : InputDataGraph) (row : Nat)
    (d : Dag) (h : Dag.new input o g row = some d) :
    d.start = 0 ∧ d.finish = o.length ∧
    (d.substrings.map Prod.fst).Nodup ∧
    (∀ i j : Nat, (i, j) ∈ d.substrings.map Prod.fst ↔ i < j ∧ j ≤ o.length) ∧
    (∀ i j es, lookupA d.substrings (i, j) = some es →
      es = SubstringExpressionSet.ConstantString ((o.drop i).take (j - i)) ::
        input.enum.flatMap (fun p =>
          (occsSpec p.2 ((o.drop i).take (j - i))).map (fun lr =>
            SubstringExpressionSet.generate_substring_set (row, p.1)
              (lr.1 + 1) (lr.2 + 1) g))) ∧
    (∀ (t s : Str) (l r : Nat), s ≠ [] →
      ((l, r) ∈ occsSpec t s ↔ s.isPrefixOf (t.drop l) = true ∧ r = l + s.length)) ∧
    (∀ t s : Str, (occsSpec t s).Nodup) := by
  obtain ⟨entries, hopt, rfl⟩ := DagNew_some h
  have hF := optMapM_eq_some hopt
  have hkeys : entries.map Prod.fst = edgePairs o.length := by
    refine forall₂_fst_eq hF ?_
    intro e ent hr
    obtain ⟨s, exprs, _, _, hent⟩ := newEdgeEntry_some hr
    rw [hent]
  refine ⟨rfl, rfl, ?_, ?_, ?_, fun t s l r hs => mem_occsSpec hs l r,
    fun t s => occsSpec_nodup t s⟩
  · rw [hkeys]
    exact edgePairs_nodup _
  · intro i j
    rw [hkeys]
    exact mem_edgePairs
  · intro i j es hlk
    have hmem := lookupA_mem hlk
    obtain ⟨e, hep, hrel⟩ := forall₂_mem_right hF hmem
    obtain ⟨s, exprs, hsl, hee, hent⟩ := newEdgeEntry_some hrel
    have he1 : e = (i, j) := by
      injection hent with h1 h2
      exact h1.symm
    subst he1
    injection hent with h1 h2
    obtain ⟨hs_eq, hij, hjlen⟩ := sliceB_some hsl
    have hij' : i < j ∧ j ≤ o.length := mem_edgePairs.1 hep
    have hs_ne : s ≠ [] := by
      intro hn
      have hlen := congrArg List.length hs_eq
      rw [hn] at hlen
      simp only [List.length_nil, List.length_take, List.length_drop] at hlen
      omega
    rw [h2, hs_eq, edgeExprs_det hs_ne hee, ← hs_eq]

/-- C3: for every input row and output `o` of length `n`, whenever the
single-example DAG is constructed it has start `0`, finish `n`, and exactly
one edge `(i, j)` for every `0 ≤ i < j ≤ n`; each edge's candidate list is
the `ConstantString(o[i..j])` witness followed by one `SubstringSet` per
occurrence — including overlapping occurrences — of `o[i..j]` in every
input column of the row (`occsSpec` lists exactly the occurrence positions,
each once, as the final two conjuncts state). -/
theorem c3_single_dag (input : List Str) (o : Str) (g : InputDataGraph) (row : Nat)
    (d : Dag) (h : Dag.new input o g row = some d) :
    d.start = 0 ∧ d.finish = o.length ∧
    (d.substrings.map Prod.fst).Nodup ∧
    (∀ i j : Nat, (i, j) ∈ d.substrings.map Prod.fst ↔ i < j ∧ j ≤ o.length) ∧
    (∀ i j es, lookupA d.substrings (i, j) = some es →
      es = SubstringExpressionSet.ConstantString ((o.drop i).take (j - i)) ::
        input.enum.flatMap (fun p =>
          (occsSpec p.2 ((o.drop i).take (j - i))).map (fun lr =>
            SubstringExpressionSet.generate_substring_set (row, p.1)
              (lr.1 + 1) (lr.2 + 1) g))) ∧
    (∀ (t s : Str) (l r : Nat), s ≠ [] →
      ((l, r) ∈ occsSpec t s ↔ s.isPrefixOf (t.drop l) = true ∧ r = l + s.length)) ∧
    (∀ t s : Str, (occsSpec t s).Nodup) :=
  dagNew_char input o g row d h

theorem contByte_false_of_ascii {b : Nat} (h : b < 0x80) : contByte b = false := by
  simp [contByte]
  omega

theorem validUTF8_head_not_cont {t : List Nat} (hv : ValidUTF8 t) :
    t = [] ∨ ∃ b0 t', t = b0 :: t' ∧ contByte b0 = false := by
  cases hv with
  | nil => exact Or.inl rfl
  | ascii b t hb _ => exact Or.inr ⟨b, t, rfl, contByte_false_of_ascii hb⟩
  | multi b cs t hge _ _ _ =>
    refine Or.inr ⟨b, cs ++ t, rfl, ?_⟩
    simp [contByte]
    omega

theorem boundary_head {b : Nat} {t : List Nat} (hv : ValidUTF8 t) :
    isCharBoundary (b :: t) 1 = true := by
  rcases validUTF8_head_not_cont hv with rfl | ⟨b0, t', rfl, hc⟩
  · simp [isCharBoundary]
  · simp [isCharBoundary, hc]

theorem boundary_lift {u t : List Nat} {i : Nat} (hi : 1 ≤ i)
    (h : isCharBoundary t i = true) :
    isCharBoundary (u ++ t) (u.length + i) = true := by
  unfold isCharBoundary at h ⊢
  simp only [Bool.or_eq_true, beq_iff_eq] at h ⊢
  rcases h with (h | h) | h
  · omega
  · refine Or.inl (Or.inr ?_)
    rw [List.length_append]
    omega
  · cases hg : t.get? i with
    | none => rw [hg] at h; cases h
    | some c =>
      rw [hg] at h
      refine Or.inr ?_
      rw [List.get?_append_right (by omega)]
      have : u.length + i - u.length = i := by omega
      rw [this, hg]
      exact h

theorem valid_boundary_after_ascii {t : List Nat} (hv : ValidUTF8 t) :
    ∀ l b, t.get? l = some b → b < 0x80 → isCharBoundary t (l + 1) = true := by
  induction hv with
  | nil => intro l b h _; simp at h
  | ascii b0 t0 hb0 hv0 ih =>
    intro l b h hba
    cases l with
    | zero => exact boundary_head hv0
    | succ k =>
      have h2 := ih k b (by simpa using h) hba
      have h3 := boundary_lift (u := [b0]) (by omega) h2
      have h4 : ([b0] : List Nat) ++ t0 = b0 :: t0 := rfl
      have h5 : ([b0] : List Nat).length + (k + 1) = k + 1 + 1 := by
        simp only [List.length_cons, List.length_nil]
        omega
      rw [h4, h5] at h3
      exact h3
  | multi b0 cs t0 hge hne hcs hv0 ih =>
    intro l b h hba
    cases l with
    | zero =>
      simp at h
      omega
    | succ k =>
      have h2 : (cs ++ t0).get? k = some b := by simpa using h
      by_cases hk : k < cs.length
      · rw [List.get?_append hk] at h2
        have hmem : b ∈ cs := List.get?_mem h2
        have := hcs b hmem
        omega
      · rw [List.get?_append_right (by omega)] at h2
        have h4 := ih (k - cs.length) b h2 hba
        have h5 := boundary_lift (u := b0 :: cs) (by omega) h4
        have he : (b0 :: cs) ++ t0 = b0 :: (cs ++ t0) := by simp
        rw [he] at h5
        have harith : (b0 :: cs).length + (k - cs.length + 1) = k + 1 + 1 := by
          simp only [List.length_cons]
          omega
        rw [harith] at h5
        exact h5

theorem ascii_valid {t : List Nat} (h : ∀ b ∈ t, b < 0x80) : ValidUTF8 t := by
  induction t with
  | nil => exact ValidUTF8.nil
  | cons b t ih =>
    exact ValidUTF8.ascii b t (h b (by simp)) (ih (fun x hx => h x (by simp [hx])))

theorem ascii_boundary {t : List Nat} (h : ∀ b ∈ t, b < 0x80) {i : Nat}
    (hi : i ≤ t.length) : isCharBoundary t i = true := by
  unfold isCharBoundary
  simp only [Bool.or_eq_true, beq_iff_eq]
  by_cases h0 : i = 0
  · exact Or.inl (Or.inl h0)
  · by_cases hl : i = t.length
    · exact Or.inl (Or.inr hl)
    · refine Or.inr ?_
      cases hg : t.get? i with
      | none =>
        rw [List.get?_eq_none] at hg
        omega
      | some b =>
        have hb := h b (List.get?_mem hg)
        simp [contByte_false_of_ascii hb]

theorem occAux_total {t s : Str} (hv : ValidUTF8 t) (hs : ∀ b ∈ s, b < 0x80)
    (hsne : s ≠ []) :
    ∀ (fuel off : Nat), t.length - off < fuel → isCharBoundary t off = true →
      (occAux t s off fuel).isSome := by
  intro fuel
  induction fuel with
  | zero => omega
  | succ m ih =>
    intro off hlt hb
    rw [occAux]
    by_cases hoff : off < t.length
    · rw [if_pos hoff, if_pos hb]
      cases hf : findSub (t.drop off) s with
      | none => simp
      | some start =>
        have hpre : s.isPrefixOf (t.drop (off + start)) = true := by
          have := findSub_some_prefixB hf
          rwa [List.drop_drop] at this
        obtain ⟨b0, s', rfl⟩ : ∃ b0 s', s = b0 :: s' := by
          cases s with
          | nil => exact absurd rfl hsne
          | cons x xs => exact ⟨x, xs, rfl⟩
        have hb0 : b0 < 0x80 := hs b0 (by simp)
        have hd0 : (t.drop (off + start)).get? 0 = some b0 := by
          have htake := prefixB_take.1 hpre
          cases hd : t.drop (off + start) with
          | nil => rw [hd] at htake; simp at htake
          | cons x xs =>
            rw [hd] at htake
            simp only [List.length_cons, List.take_succ_cons, List.cons.injEq] at htake
            simp [htake.1]
        have ht0 : t.get? (off + start) = some b0 := by
          rwa [List.get?_drop, Nat.add_zero] at hd0
        have hbnext := valid_boundary_after_ascii hv (off + start) b0 ht0 hb0
        have hrec := ih (off + start + 1) (by omega) hbnext
        cases hr : occAux t (b0 :: s') (off + start + 1) m with
        | none => rw [hr] at hrec; cases hrec
        | some rest => simp [hr]
    · rw [if_neg hoff]
      simp

theorem DagNew_total {input : List Str} {o : Str} {g : InputDataGraph} {row : Nat}
    (ho : ∀ b ∈ o, b < 0x80) (hin : ∀ t ∈ input, ValidUTF8 t) :
    ∃ d, Dag.new input o g row = some d := by
  unfold Dag.new
  have hsome : (optMapM (newEdgeEntry input g row o) (edgePairs o.length)).isSome := by
    refine optMapM_isSome ?_
    intro e he
    obtain ⟨i, j⟩ := e
    obtain ⟨hij, hjn⟩ := mem_edgePairs.1 he
    unfold newEdgeEntry
    have hslice : sliceB o i j = some ((o.drop i).take (j - i)) := by
      unfold sliceB
      rw [if_pos ⟨by omega, ascii_boundary ho (by omega), ascii_boundary ho hjn⟩]
    rw [hslice, Option.some_bind]
    have hs_sub : ∀ b ∈ (o.drop i).take (j - i), b < 0x80 := by
      intro b hb
      exact ho b (List.drop_subset i o (List.take_subset _ _ hb))
    have hs_ne : (o.drop i).take (j - i) ≠ [] := by
      intro hn
      have hlen := congrArg List.length hn
      simp only [List.length_take, List.length_drop, List.length_nil] at hlen
      omega
    have hx : (edgeExprs input g row ((o.drop i).take (j - i))).isSome := by
      unfold edgeExprs
      have : (optMapM (colExprs g row ((o.drop i).take (j - i))) input.enum).isSome := by
        refine optMapM_isSome ?_
        intro p hp
        unfold colExprs
        have hvt : ValidUTF8 p.2 := by
          refine hin p.2 ?_
          obtain ⟨pi, pt⟩ := p
          have := List.mem_enum_iff_get?.1 hp
          simp only at this
          exact List.get?_mem this
        have : (colOccs p.2 ((o.drop i).take (j - i))).isSome := by
          unfold colOccs
          refine occAux_total hvt hs_sub hs_ne (p.2.length + 1) 0 (by omega) ?_
          simp [isCharBoundary]
        cases hc : colOccs p.2 ((o.drop i).take (j - i)) with
        | none => rw [hc] at this; cases this
        | some occs => simp [hc]
      cases hc : optMapM (colExprs g row ((o.drop i).take (j - i))) input.enum with
      | none => rw [hc] at this; cases this
      | some cols => simp [hc]
    cases hc : edgeExprs input g row ((o.drop i).take (j - i)) with
    | none => rw [hc] at hx; cases hx
    | some exprs => simp [hc]
  cases hc : optMapM (newEdgeEntry input g row o) (edgePairs o.length) with
  | none => rw [hc] at hsome; cases hsome
  | some entries =>
    refine ⟨⟨0, o.length, entries⟩, ?_⟩
    rfl

/-- C10: DAG node offsets are byte offsets: slicing the output `"é"`
(bytes `[0xC3, 0xA9]`) panics on a non-boundary byte pair, so construction
returns no DAG; for ASCII output (and valid-UTF-8 input columns, as every
Rust string is) construction is total; and a constant string's score uses
its byte length. -/
theorem c10_byte_offsets :
    Dag.new [[97]] [0xC3, 0xA9] (⟨1, [], []⟩ : InputDataGraph) 0 = none ∧
    (∀ (input : List Str) (o : Str) (g : InputDataGraph) (row : Nat),
      (∀ b ∈ o, b < 0x80) → (∀ t ∈ input, ValidUTF8 t) →
      ∃ d, Dag.new input o g row = some d) ∧
    (∀ (g : InputDataGraph) (ranks : Nat → Nat) (s : Str),
      candScore g ranks (SubstringExpressionSet.ConstantString s) =
        (some (SubstringExpression.ConstantString s),
          usizeMul (usizeMul s.length s.length) EPSILON)) := by
  refine ⟨by decide, fun input o g row ho hin => DagNew_total ho hin, fun g ranks s => rfl⟩

/-- Witness for C10 at a concrete ASCII example. -/
theorem c10_byte_offsets_witness :
    (∀ b ∈ ([97] : Str), b < 0x80) ∧
    (∃ d, Dag.new [[97]] [97] (⟨1, [], []⟩ : InputDataGraph) 0 = some d) :=
  ⟨by decide,
   c10_byte_offsets.2.1 [[97]] [97] (⟨1, [], []⟩ : InputDataGraph) 0 (by decide)
     (fun t ht => by
       have : t = [97] := by simpa using ht
       rw [this]
       exact ascii_valid (by decide))⟩

/-! ## `Dag::learn` on empty and non-empty example lists (claim C9) -/

/-- C9: with an empty example sequence the per-example DAG list is empty and
the final fold yields `None`, which the source `unwrap`s — a panic
(modelled `none`), not a `NoConsistentProgram` result; with a non-empty
sequence whose per-example DAGs all construct, the fold succeeds, so the
`unwrap` never panics there. -/
theorem c9_learn_unwrap :
    (∀ g : InputDataGraph, optMapM (fun p => Dag.new p.2.1 p.2.2 g p.1)
      (([] : List (List Str × Str)).enum) = some [] ∧
      foldDags [] = none ∧ Dag.learn [] g = none) ∧
    (∀ (paired : List (List Str × Str)) (g : InputDataGraph) (ds : List Dag),
      paired ≠ [] →
      optMapM (fun p => Dag.new p.2.1 p.2.2 g p.1) paired.enum = some ds →
      ∃ d, Dag.learn paired g = some d) := by
  constructor
  · intro g
    exact ⟨rfl, rfl, rfl⟩
  · intro paired g ds hne hopt
    have hlen : ds.length = paired.enum.length := ((optMapM_eq_some hopt).length_eq).symm
    cases hds : ds with
    | nil =>
      rw [hds] at hlen
      simp only [List.length_nil, List.enum_length] at hlen
      exact absurd (List.length_eq_zero.1 hlen.symm) hne
    | cons d0 dt =>
      refine ⟨dt.foldl Dag.intersection d0, ?_⟩
      unfold Dag.learn
      rw [hopt, hds]
      rfl

/-- Witness for C9 with one concrete example. -/
theorem c9_learn_unwrap_witness :
    ([([[97]], [97])] : List (List Str × Str)) ≠ [] ∧
    (∃ d, Dag.learn [([[97]], [97])] (⟨1, [], []⟩ : InputDataGraph) = some d) :=
  ⟨by decide,
   c9_learn_unwrap.2 [([[97]], [97])] (⟨1, [], []⟩ : InputDataGraph)
     [⟨0, 1, [((0, 1), [SubstringExpressionSet.ConstantString [97],
       SubstringExpressionSet.SubstringSet 0 {PositionSet.ConstantPosition 1}
         {PositionSet.ConstantPosition 2}])]⟩]
     (by decide) (by decide)⟩

/-! ## Empty output (claim C8) -/

/-! ## The path search of ranking and extraction (claim C5) -/

theorem mem_succsOf {adjE : List (Nat × Nat)} {u v : Nat} :
    v ∈ succsOf adjE u ↔ (u, v) ∈ adjE := by
  unfold succsOf
  simp only [List.mem_filterMap]
  constructor
  · rintro ⟨e, he, hcond⟩
    by_cases h1 : e.1 = u
    · rw [if_pos h1] at hcond
      injection hcond with h2
      have : e = (u, v) := by
        obtain ⟨a, b⟩ := e
        simp only at h1 h2
        rw [h1, h2]
      rwa [this] at he
    · rw [if_neg h1] at hcond
      cases hcond
  · intro h
    exact ⟨(u, v), h, by simp⟩

theorem spa_sound {adjE : List (Nat × Nat)} {fin : Nat} :
    ∀ (fuel u : Nat) (vis ns : List Nat), ns ∈ simplePathsAux adjE fin fuel u vis →
      ns.head? = some u ∧ ns.getLast? = some fin ∧
        List.Chain' (fun a b => (a, b) ∈ adjE) ns := by
  intro fuel
  induction fuel with
  | zero => intro u vis ns h; simp [simplePathsAux] at h
  | succ m ih =>
    intro u vis ns h
    rw [simplePathsAux] at h
    rcases List.mem_append.1 h with hbase | hrec
    · by_cases hu : u = fin
      · rw [if_pos hu] at hbase
        simp only [List.mem_singleton] at hbase
        subst hbase
        simp [hu]
      · rw [if_neg hu] at hbase
        simp at hbase
    · simp only [List.mem_flatMap] at hrec
      obtain ⟨v, hv, hns⟩ := hrec
      by_cases hvv : v ∈ vis
      · rw [if_pos hvv] at hns
        simp at hns
      · rw [if_neg hvv] at hns
        simp only [List.mem_map] at hns
        obtain ⟨p, hp, rfl⟩ := hns
        obtain ⟨hph, hpl, hpc⟩ := ih v (v :: vis) p hp
        have hpne : p ≠ [] := by
          intro hn
          rw [hn] at hph
          cases hph
        refine ⟨by simp, ?_, ?_⟩
        · obtain ⟨x, xs, rfl⟩ : ∃ x xs, p = x :: xs := by
            cases p with
            | nil => exact absurd rfl hpne
            | cons x xs => exact ⟨x, xs, rfl⟩
          rw [List.getLast?_cons_cons]
          exact hpl
        · rw [List.chain'_cons']
          refine ⟨?_, hpc⟩
          intro hd hh
          rw [hph] at hh
          injection hh with hh2
          rw [← hh2]
          exact mem_succsOf.1 hv

theorem spa_vis {adjE : List (Nat × Nat)} {fin : Nat} :
    ∀ (fuel u : Nat) (vis ns : List Nat), u ∈ vis →
      ns ∈ simplePathsAux adjE fin fuel u vis →
      ns.Nodup ∧ ∀ x ∈ ns, x = u ∨ x ∉ vis := by
  intro fuel
  induction fuel with
  | zero => intro u vis ns _ h; simp [simplePathsAux] at h
  | succ m ih =>
    intro u vis ns hu h
    rw [simplePathsAux] at h
    rcases List.mem_append.1 h with hbase | hrec
    · by_cases hf : u = fin
      · rw [if_pos hf] at hbase
        simp only [List.mem_singleton] at hbase
        subst hbase
        refine ⟨List.nodup_singleton u, ?_⟩
        intro x hx
        simp only [List.mem_singleton] at hx
        exact Or.inl hx
      · rw [if_neg hf] at hbase
        simp at hbase
    · simp only [List.mem_flatMap] at hrec
      obtain ⟨v, hv, hns⟩ := hrec
      by_cases hvv : v ∈ vis
      · rw [if_pos hvv] at hns
        simp at hns
      · rw [if_neg hvv] at hns
        simp only [List.mem_map] at hns
        obtain ⟨p, hp, rfl⟩ := hns
        obtain ⟨hpn, hpv⟩ := ih v (v :: vis) p (by simp) hp
        have hunp : u ∉ p := by
          intro hup
          rcases hpv u hup with h1 | h1
          · subst h1
            exact hvv hu
          · exact h1 (by simp [hu])
        refine ⟨List.nodup_cons.2 ⟨hunp, hpn⟩, ?_⟩
        intro x hx
        rcases List.mem_cons.1 hx with rfl | hxp
        · exact Or.inl rfl
        · rcases hpv x hxp with h1 | h1
          · subst h1
            exact Or.inr hvv
          · exact Or.inr (fun hxv => h1 (by simp [hxv]))

theorem spa_complete {adjE : List (Nat × Nat)} {fin : Nat} :
    ∀ (ns : List Nat) (fuel u : Nat) (vis : List Nat),
      List.Chain' (fun a b => (a, b) ∈ adjE) ns → ns.head? = some u →
      ns.getLast? = some fin → ns.Nodup → (∀ x ∈ ns.tail, x ∉ vis) →
      ns.length ≤ fuel → ns ∈ simplePathsAux adjE fin fuel u vis := by
  intro ns
  induction ns with
  | nil => intro fuel u vis _ hh _ _ _ _; exact Option.noConfusion hh
  | cons a t ih =>
    intro fuel u vis hc hh hl hn hv hlen
    rw [List.head?_cons] at hh
    injection hh with hau
    subst hau
    cases fuel with
    | zero => simp only [List.length_cons] at hlen; omega
    | succ m =>
      rw [simplePathsAux]
      cases t with
      | nil =>
        have haf : a = fin := by
          rw [List.getLast?_singleton] at hl
          injection hl
        exact List.mem_append.2 (Or.inl (by rw [if_pos haf]; simp))
      | cons b rest =>
        refine List.mem_append.2 (Or.inr ?_)
        simp only [List.mem_flatMap]
        refine ⟨b, mem_succsOf.2 (List.chain'_cons.1 hc).1, ?_⟩
        have hbvis : b ∉ vis := hv b (by simp)
        rw [if_neg hbvis]
        simp only [List.mem_map]
        refine ⟨b :: rest, ?_, rfl⟩
        refine ih m b (b :: vis) (List.chain'_cons.1 hc).2 List.head?_cons ?_
          (List.Nodup.of_cons hn) ?_ ?_
        · rw [List.getLast?_cons_cons] at hl
          exact hl
        · intro x hx hmem
          simp only [List.tail_cons] at hx
          rcases List.mem_cons.1 hmem with hxb | hxv
          · subst hxb
            exact (List.nodup_cons.1 (List.Nodup.of_cons hn)).1 hx
          · exact hv x (by simp only [List.tail_cons]; exact List.mem_cons_of_mem b hx) hxv
        · simp only [List.length_cons] at hlen ⊢
          omega

theorem chain'_tail_pred {R : Nat → Nat → Prop} :
    ∀ {ns : List Nat}, List.Chain' R ns → ∀ x ∈ ns.tail, ∃ w, R w x := by
  intro ns
  induction ns with
  | nil => intro _ x hx; simp at hx
  | cons a t ih =>
    intro hc x hx
    simp only [List.tail_cons] at hx
    cases t with
    | nil => simp at hx
    | cons b rest =>
      obtain ⟨hab, hc2⟩ := List.chain'_cons.1 hc
      rcases List.mem_cons.1 hx with rfl | hxr
      · exact ⟨a, hab⟩
      · exact ih hc2 x (by simp only [List.tail_cons]; exact hxr)

theorem length_flatMap_pairs (l : List (Nat × Nat)) :
    (l.flatMap (fun e => [e.1, e.2])).length = 2 * l.length := by
  induction l with
  | nil => rfl
  | cons e t ih =>
    simp only [List.flatMap_cons, List.length_append, List.length_cons,
      List.length_nil, ih]
    omega

theorem path_length_bound {adjE : List (Nat × Nat)} {st fin : Nat} {ns : List Nat}
    (hp : isPathL adjE st fin ns) (hnd : ns.Nodup) :
    ns.length ≤ 2 * adjE.length + 1 := by
  obtain ⟨hh, _, hc⟩ := hp
  have hsub : ns ⊆ st :: adjE.flatMap (fun e => [e.1, e.2]) := by
    intro x hx
    cases ns with
    | nil => exact Option.noConfusion hh
    | cons a t =>
      rw [List.head?_cons] at hh
      injection hh with hast
      rcases List.mem_cons.1 hx with rfl | hxt
      · rw [hast]; exact List.mem_cons_self _ _
      · obtain ⟨w, hw⟩ := chain'_tail_pred hc x
          (by simp only [List.tail_cons]; exact hxt)
        refine List.mem_cons_of_mem _ ?_
        rw [List.mem_flatMap]
        exact ⟨(w, x), hw, by simp⟩
  have hlen := (hnd.subperm hsub).length_le
  simp only [List.length_cons, length_flatMap_pairs] at hlen
  omega

theorem not_nodup_decomp : ∀ {ns : List Nat}, ¬ ns.Nodup →
    ∃ xs x ys zs, ns = xs ++ (x :: ys) ++ (x :: zs) := by
  intro ns
  induction ns with
  | nil => intro h; exact absurd List.nodup_nil h
  | cons a t ih =>
    intro h
    by_cases hat : a ∈ t
    · obtain ⟨ys, zs, rfl⟩ := List.append_of_mem hat
      exact ⟨[], a, ys, zs, by simp⟩
    · have hnt : ¬ t.Nodup := fun hnt => h (List.nodup_cons.2 ⟨hat, hnt⟩)
      obtain ⟨xs, x, ys, zs, rfl⟩ := ih hnt
      exact ⟨a :: xs, x, ys, zs, by simp⟩

theorem getLast?_append_right {l l' : List Nat} (h : l' ≠ []) :
    (l ++ l').getLast? = l'.getLast? := by
  rw [List.getLast?_append]
  cases hl : l'.getLast? with
  | none => exact absurd (List.getLast?_eq_none_iff.1 hl) h
  | some w => rfl

theorem isPathL_shortcut {adjE : List (Nat × Nat)} {st fin : Nat}
    {xs ys zs : List Nat} {x : Nat}
    (h : isPathL adjE st fin (xs ++ (x :: ys) ++ (x :: zs))) :
    isPathL adjE st fin (xs ++ (x :: zs)) := by
  obtain ⟨hh, hl, hc⟩ := h
  rw [List.append_assoc] at hh hl hc
  refine ⟨?_, ?_, ?_⟩
  · simp only [List.head?_append, List.head?_cons, Option.or_some] at hh ⊢
    exact hh
  · rw [getLast?_append_right (by simp), getLast?_append_right (by simp)] at hl
    rw [getLast?_append_right (by simp)]
    exact hl
  · obtain ⟨hc1, hc23, hlink⟩ := List.chain'_append.1 hc
    obtain ⟨_, hc3, _⟩ := List.chain'_append.1 hc23
    refine List.chain'_append.2 ⟨hc1, hc3, ?_⟩
    intro p hp q hq
    apply hlink p hp
    simp only [List.head?_cons] at hq
    simp only [List.head?_append, List.head?_cons, Option.or_some]
    exact hq

theorem exists_nodup_path {adjE : List (Nat × Nat)} {st fin : Nat}
    (h : ∃ ns, isPathL adjE st fin ns) :
    ∃ ns, isPathL adjE st fin ns ∧ ns.Nodup := by
  obtain ⟨ns, hns⟩ := h
  suffices H : ∀ n (ms : List Nat), ms.length ≤ n → isPathL adjE st fin ms →
      ∃ ks, isPathL adjE st fin ks ∧ ks.Nodup by
    exact H ns.length ns le_rfl hns
  intro n
  induction n with
  | zero =>
    intro ms hlen hms
    cases ms with
    | nil => exact Option.noConfusion hms.1
    | cons a t => simp only [List.length_cons] at hlen; omega
  | succ m ih =>
    intro ms hlen hms
    by_cases hnd : ms.Nodup
    · exact ⟨ms, hms, hnd⟩
    · obtain ⟨xs, x, ys, zs, rfl⟩ := not_nodup_decomp hnd
      refine ih (xs ++ (x :: zs)) ?_ (isPathL_shortcut hms)
      simp only [List.length_append, List.length_cons] at hlen ⊢
      omega

theorem pathsFor_sound {adjE : List (Nat × Nat)} {st fin : Nat} {ns : List Nat}
    (h : ns ∈ pathsFor adjE st fin) : isPathL adjE st fin ns ∧ ns.Nodup := by
  have h' : ns ∈ simplePathsAux adjE fin (2 * adjE.length + 2) st [st] := h
  obtain ⟨hh, hl, hc⟩ := spa_sound _ st [st] ns h'
  exact ⟨⟨hh, hl, hc⟩, (spa_vis _ st [st] ns (by simp) h').1⟩

theorem pathsFor_complete {adjE : List (Nat × Nat)} {st fin : Nat} {ns : List Nat}
    (h : isPathL adjE st fin ns) (hnd : ns.Nodup) : ns ∈ pathsFor adjE st fin := by
  obtain ⟨hh, hl, hc⟩ := h
  have hvis : ∀ x ∈ ns.tail, x ∉ [st] := by
    cases ns with
    | nil => intro x hx; simp at hx
    | cons a t =>
      rw [List.head?_cons] at hh
      injection hh with hast
      intro x hx hmem
      simp only [List.mem_singleton] at hmem
      subst hmem
      simp only [List.tail_cons] at hx
      exact (List.nodup_cons.1 hnd).1 (by rw [hast]; exact hx)
  have hbound := path_length_bound ⟨hh, hl, hc⟩ hnd
  exact spa_complete ns (2 * adjE.length + 2) st [st] hc hh hl hnd hvis (by omega)

theorem argminFold_isSome (cost : List Nat → Int) :
    ∀ (ps : List (List Nat)) (q : List Nat),
      (List.foldl (fun acc p => match acc with
        | none => some p
        | some b => if cost p < cost b then some p else some b) (some q) ps).isSome
        = true := by
  intro ps
  induction ps with
  | nil => intro q; rfl
  | cons p ps ih =>
    intro q
    show (List.foldl (fun acc p => match acc with
      | none => some p
      | some b => if cost p < cost b then some p else some b)
        (if cost p < cost q then some p else some q) ps).isSome = true
    by_cases hlt : cost p < cost q
    · rw [if_pos hlt]; exact ih p
    · rw [if_neg hlt]; exact ih q

theorem argminFold_spec (cost : List Nat → Int) :
    ∀ (ps : List (List Nat)) (q r : List Nat),
      List.foldl (fun acc p => match acc with
          | none => some p
          | some b => if cost p < cost b then some p else some b) (some q) ps
        = some r →
      (r = q ∨ r ∈ ps) ∧ cost r ≤ cost q ∧ ∀ p ∈ ps, cost r ≤ cost p := by
  intro ps
  induction ps with
  | nil =>
    intro q r h
    simp only [List.foldl_nil] at h
    injection h with h
    subst h
    exact ⟨Or.inl rfl, le_refl _, fun p hp => absurd hp (List.not_mem_nil p)⟩
  | cons p ps ih =>
    intro q r h
    have h' : List.foldl (fun acc p => match acc with
        | none => some p
        | some b => if cost p < cost b then some p else some b)
          (if cost p < cost q then some p else some q) ps = some r := h
    by_cases hlt : cost p < cost q
    · rw [if_pos hlt] at h'
      obtain ⟨hmem, hle, hall⟩ := ih p r h'
      refine ⟨?_, le_trans hle (le_of_lt hlt), ?_⟩
      · rcases hmem with rfl | hm
        · exact Or.inr (List.mem_cons_self _ _)
        · exact Or.inr (List.mem_cons_of_mem _ hm)
      · intro x hx
        rcases List.mem_cons.1 hx with rfl | hxs
        · exact hle
        · exact hall x hxs
    · rw [if_neg hlt] at h'
      obtain ⟨hmem, hle, hall⟩ := ih q r h'
      refine ⟨?_, hle, ?_⟩
      · rcases hmem with rfl | hm
        · exact Or.inl rfl
        · exact Or.inr (List.mem_cons_of_mem _ hm)
      · intro x hx
        rcases List.mem_cons.1 hx with rfl | hxs
        · exact le_trans hle (not_lt.1 hlt)
        · exact hall x hxs

theorem argminBy_none_iff (cost : List Nat → Int) (ps : List (List Nat)) :
    argminBy cost ps = none ↔ ps = [] := by
  cases ps with
  | nil => simp [argminBy]
  | cons p ps =>
    constructor
    · intro h
      have hs := argminFold_isSome cost ps p
      have h' : List.foldl (fun acc p => match acc with
          | none => some p
          | some b => if cost p < cost b then some p else some b) (some p) ps
            = none := h
      rw [h'] at hs
      simp at hs
    · intro h
      exact absurd h (List.cons_ne_nil p ps)

theorem argminBy_mem_min {cost : List Nat → Int} {ps : List (List Nat)}
    {r : List Nat} (h : argminBy cost ps = some r) :
    r ∈ ps ∧ ∀ p ∈ ps, cost r ≤ cost p := by
  cases ps with
  | nil => exact Option.noConfusion h
  | cons p ps =>
    have h' : List.foldl (fun acc p => match acc with
        | none => some p
        | some b => if cost p < cost b then some p else some b) (some p) ps
          = some r := h
    obtain ⟨hmem, hle, hall⟩ := argminFold_spec cost ps p r h'
    refine ⟨?_, ?_⟩
    · rcases hmem with rfl | hm
      · exact List.mem_cons_self _ _
      · exact List.mem_cons_of_mem _ hm
    · intro x hx
      rcases List.mem_cons.1 hx with rfl | hxs
      · exact hle
      · exact hall x hxs

theorem spd_none_iff {st fin : Nat} {adjE : List (Nat × Nat)}
    {cost : (Nat × Nat) → Int} :
    shortest_path_dag st fin adjE cost = none ↔
      ¬ ∃ ns, isPathL adjE st fin ns := by
  unfold shortest_path_dag
  rw [Option.map_eq_none', argminBy_none_iff]
  constructor
  · rintro h ⟨ns, hns⟩
    obtain ⟨ks, hks, hknd⟩ := exists_nodup_path ⟨ns, hns⟩
    have hmem := pathsFor_complete hks hknd
    rw [h] at hmem
    exact absurd hmem (List.not_mem_nil ks)
  · intro h
    cases hp : pathsFor adjE st fin with
    | nil => rfl
    | cons q qs =>
      exfalso
      have hq : q ∈ pathsFor adjE st fin := by
        rw [hp]; exact List.mem_cons_self _ _
      exact h ⟨q, (pathsFor_sound hq).1⟩

theorem spd_some_spec {st fin : Nat} {adjE : List (Nat × Nat)}
    {cost : (Nat × Nat) → Int} {pes : List (Nat × Nat)}
    (h : shortest_path_dag st fin adjE cost = some pes) :
    ∃ ns, isPathL adjE st fin ns ∧ ns.Nodup ∧ pes = pathEdgesOf ns ∧
      ∀ ms, isPathL adjE st fin ms → ms.Nodup →
        ((pathEdgesOf ns).map cost).sum ≤ ((pathEdgesOf ms).map cost).sum := by
  unfold shortest_path_dag at h
  cases ha : argminBy (fun p => ((pathEdgesOf p).map cost).sum)
      (pathsFor adjE st fin) with
  | none => rw [ha] at h; exact Option.noConfusion h
  | some r =>
    rw [ha] at h
    simp only [Option.map_some'] at h
    injection h with h
    obtain ⟨hrmem, hrmin⟩ := argminBy_mem_min ha
    obtain ⟨hrp, hrnd⟩ := pathsFor_sound hrmem
    refine ⟨r, hrp, hrnd, h.symm, ?_⟩
    intro ms hms hmnd
    exact hrmin ms (pathsFor_complete hms hmnd)

theorem sum_map_neg (f : (Nat × Nat) → Int) (l : List (Nat × Nat)) :
    (l.map (fun e => -f e)).sum = -((l.map f).sum) := by
  induction l with
  | nil => simp
  | cons a t ih => simp only [List.map_cons, List.sum_cons, ih, neg_add]

theorem sum_map_neg_le {f : (Nat × Nat) → Int} {l1 l2 : List (Nat × Nat)}
    (h : (l1.map (fun e => -f e)).sum ≤ (l2.map (fun e => -f e)).sum) :
    (l2.map f).sum ≤ (l1.map f).sum := by
  rw [sum_map_neg, sum_map_neg] at h
  omega

/-- C5: ranking returns no program exactly when no start-to-finish path
exists over the edges that have a best-scoring candidate (`best_by_edge`);
when it returns a program, that program concatenates the per-edge best
expressions along a duplicate-free path whose summed per-edge score is
maximal among all duplicate-free start-to-finish paths. -/
theorem c5_path_ranking (d : Dag) (g : InputDataGraph) (ranks : Nat → Nat) :
    (Dag.top_ranked_expression d g ranks = none ↔
      ¬ ∃ ns, isPathL ((bestByEdge g ranks d).map (fun x => x.1))
        d.start d.finish ns) ∧
    (∀ prog, Dag.top_ranked_expression d g ranks = some prog →
      ∃ ns, isPathL ((bestByEdge g ranks d).map (fun x => x.1))
          d.start d.finish ns ∧
        ns.Nodup ∧
        prog = ⟨(pathEdgesOf ns).map (fun e =>
          ((lookupA (bestByEdge g ranks d) e).getD
            (0, SubstringExpression.ConstantString [])).2)⟩ ∧
        ∀ ms, isPathL ((bestByEdge g ranks d).map (fun x => x.1))
            d.start d.finish ms → ms.Nodup →
          ((pathEdgesOf ms).map (fun e =>
            ((((lookupA (bestByEdge g ranks d) e).getD
              (0, SubstringExpression.ConstantString [])).1 : Nat) : Int))).sum ≤
          ((pathEdgesOf ns).map (fun e =>
            ((((lookupA (bestByEdge g ranks d) e).getD
              (0, SubstringExpression.ConstantString [])).1 : Nat) : Int))).sum) := by
  have hrw : Dag.top_ranked_expression d g ranks =
      (shortest_path_dag d.start d.finish
          ((bestByEdge g ranks d).map (fun x => x.1))
          (fun e => -((((lookupA (bestByEdge g ranks d) e).getD
            (0, SubstringExpression.ConstantString [])).1 : Nat) : Int))).map
        (fun pes => ⟨pes.map (fun e =>
          ((lookupA (bestByEdge g ranks d) e).getD
            (0, SubstringExpression.ConstantString [])).2)⟩) := rfl
  constructor
  · rw [hrw, Option.map_eq_none']
    exact spd_none_iff
  · intro prog hprog
    rw [hrw] at hprog
    cases hspd : shortest_path_dag d.start d.finish
        ((bestByEdge g ranks d).map (fun x => x.1))
        (fun e => -((((lookupA (bestByEdge g ranks d) e).getD
          (0, SubstringExpression.ConstantString [])).1 : Nat) : Int)) with
    | none => rw [hspd] at hprog; exact Option.noConfusion hprog
    | some pes =>
      rw [hspd] at hprog
      simp only [Option.map_some'] at hprog
      injection hprog with hprog
      obtain ⟨ns, hnsP, hnsN, hpes, hmin⟩ := spd_some_spec hspd
      refine ⟨ns, hnsP, hnsN, ?_, ?_⟩
      · rw [← hprog, hpes]
      · intro ms hms hmnd
        exact sum_map_neg_le (hmin ms hms hmnd)

/-- Witness for C5: the one-edge DAG whose single edge holds the constant
candidate `"a"`; ranking returns the one-expression program. -/
theorem c5_path_ranking_witness :
    (Dag.top_ranked_expression
        ⟨0, 1, [((0, 1), [SubstringExpressionSet.ConstantString [97]])]⟩
        (⟨1, [], []⟩ : InputDataGraph) (fun _ => 0) =
      some ⟨[SubstringExpression.ConstantString [97]]⟩) ∧
    (∃ ns, isPathL ((bestByEdge (⟨1, [], []⟩ : InputDataGraph) (fun _ => 0)
          ⟨0, 1, [((0, 1), [SubstringExpressionSet.ConstantString [97]])]⟩).map
            (fun x => x.1))
        (⟨0, 1, [((0, 1), [SubstringExpressionSet.ConstantString [97]])]⟩ : Dag).start
        (⟨0, 1, [((0, 1), [SubstringExpressionSet.ConstantString [97]])]⟩ : Dag).finish
        ns ∧
      ns.Nodup ∧
      (⟨[SubstringExpression.ConstantString [97]]⟩ : StringExpression) =
        ⟨(pathEdgesOf ns).map (fun e =>
          ((lookupA (bestByEdge (⟨1, [], []⟩ : InputDataGraph) (fun _ => 0)
              ⟨0, 1, [((0, 1), [SubstringExpressionSet.ConstantString [97]])]⟩) e).getD
            (0, SubstringExpression.ConstantString [])).2)⟩ ∧
      ∀ ms, isPathL ((bestByEdge (⟨1, [], []⟩ : InputDataGraph) (fun _ => 0)
            ⟨0, 1, [((0, 1), [SubstringExpressionSet.ConstantString [97]])]⟩).map
              (fun x => x.1))
          (⟨0, 1, [((0, 1), [SubstringExpressionSet.ConstantString [97]])]⟩ : Dag).start
          (⟨0, 1, [((0, 1), [SubstringExpressionSet.ConstantString [97]])]⟩ : Dag).finish
          ms → ms.Nodup →
        ((pathEdgesOf ms).map (fun e =>
          ((((lookupA (bestByEdge (⟨1, [], []⟩ : InputDataGraph) (fun _ => 0)
              ⟨0, 1, [((0, 1), [SubstringExpressionSet.ConstantString [97]])]⟩) e).getD
            (0, SubstringExpression.ConstantString [])).1 : Nat) : Int))).sum ≤
        ((pathEdgesOf ns).map (fun e =>
          ((((lookupA (bestByEdge (⟨1, [], []⟩ : InputDataGraph) (fun _ => 0)
              ⟨0, 1, [((0, 1), [SubstringExpressionSet.ConstantString [97]])]⟩) e).getD
            (0, SubstringExpression.ConstantString [])).1 : Nat) : Int))).sum) :=
  ⟨by decide,
   (c5_path_ranking ⟨0, 1, [((0, 1), [SubstringExpressionSet.ConstantString [97]])]⟩
       (⟨1, [], []⟩ : InputDataGraph) (fun _ => 0)).2
     ⟨[SubstringExpression.ConstantString [97]]⟩ (by decide)⟩

/-! ## Algebra of intersection (claim C7) -/

theorem ses_inter_comm (e1 e2 : SubstringExpressionSet) :
    e1.intersection e2 = e2.intersection e1 := by
  cases e1 with
  | ConstantString s1 =>
    cases e2 with
    | ConstantString s2 =>
      simp only [SubstringExpressionSet.intersection]
      by_cases h : s1 = s2
      · subst h; rfl
      · rw [if_neg h, if_neg (fun hc => h hc.symm)]
    | SubstringSet c2 l2 r2 => rfl
  | SubstringSet c1 l1 r1 =>
    cases e2 with
    | ConstantString s2 => rfl
    | SubstringSet c2 l2 r2 =>
      simp only [SubstringExpressionSet.intersection]
      by_cases h : c1 = c2
      · subst h
        rw [Finset.inter_comm l2 l1, Finset.inter_comm r2 r1]
      · rw [if_neg h, if_neg (fun hc => h hc.symm)]

theorem ses_inter_assoc (e1 e2 e3 : SubstringExpressionSet) :
    (e1.intersection e2).bind (fun x => x.intersection e3) =
      (e2.intersection e3).bind (fun x => e1.intersection x) := by
  cases e1 with
  | ConstantString s1 =>
    cases e2 with
    | ConstantString s2 =>
      cases e3 with
      | ConstantString s3 =>
        simp only [SubstringExpressionSet.intersection]
        by_cases h12 : s1 = s2
        · subst h12
          by_cases h23 : s1 = s3
          · subst h23
            simp [SubstringExpressionSet.intersection]
          · rw [if_pos rfl, if_neg h23]
            simp [SubstringExpressionSet.intersection, h23]
        · by_cases h23 : s2 = s3
          · subst h23
            rw [if_neg h12, if_pos rfl]
            simp [SubstringExpressionSet.intersection, h12]
          · rw [if_neg h12, if_neg h23]
            rfl
      | SubstringSet c3 l3 r3 =>
        simp only [SubstringExpressionSet.intersection]
        by_cases h12 : s1 = s2
        · rw [if_pos h12]; rfl
        · rw [if_neg h12]; rfl
    | SubstringSet c2 l2 r2 =>
      cases e3 with
      | ConstantString s3 => rfl
      | SubstringSet c3 l3 r3 =>
        simp only [SubstringExpressionSet.intersection]
        by_cases hc : c2 = c3
        · subst hc
          rw [if_pos rfl]
          by_cases hL : l2 ∩ l3 = ∅
          · rw [if_pos hL]; rfl
          · rw [if_neg hL]
            by_cases hR : r2 ∩ r3 = ∅
            · rw [if_pos hR]; rfl
            · rw [if_neg hR]; rfl
        · rw [if_neg hc]; rfl
  | SubstringSet c1 l1 r1 =>
    cases e2 with
    | ConstantString s2 =>
      cases e3 with
      | ConstantString s3 =>
        simp only [SubstringExpressionSet.intersection]
        by_cases h23 : s2 = s3
        · rw [if_pos h23]; rfl
        · rw [if_neg h23]; rfl
      | SubstringSet c3 l3 r3 => rfl
    | SubstringSet c2 l2 r2 =>
      cases e3 with
      | ConstantString s3 =>
        simp only [SubstringExpressionSet.intersection]
        by_cases hc : c1 = c2
        · subst hc
          rw [if_pos rfl]
          by_cases hL : l1 ∩ l2 = ∅
          · rw [if_pos hL]; rfl
          · rw [if_neg hL]
            by_cases hR : r1 ∩ r2 = ∅
            · rw [if_pos hR]; rfl
            · rw [if_neg hR]; rfl
        · rw [if_neg hc]; rfl
      | SubstringSet c3 l3 r3 =>
        simp only [SubstringExpressionSet.intersection]
        by_cases h12 : c1 = c2
        · subst h12
          by_cases h23 : c1 = c3
          · subst h23
            rw [if_pos rfl, if_pos rfl]
            by_cases htl : l1 ∩ (l2 ∩ l3) = ∅
            · have htl' : l1 ∩ l2 ∩ l3 = ∅ := by rwa [Finset.inter_assoc]
              by_cases hL12 : l1 ∩ l2 = ∅
              · rw [if_pos hL12]
                by_cases hL23 : l2 ∩ l3 = ∅
                · rw [if_pos hL23]; rfl
                · rw [if_neg hL23]
                  by_cases hR23 : r2 ∩ r3 = ∅
                  · rw [if_pos hR23]; rfl
                  · rw [if_neg hR23]
                    simp only [Option.none_bind, Option.some_bind,
                      SubstringExpressionSet.intersection, if_pos rfl]
                    rw [if_pos htl, ite_self]
              · rw [if_neg hL12]
                by_cases hR12 : r1 ∩ r2 = ∅
                · rw [if_pos hR12]
                  by_cases hL23 : l2 ∩ l3 = ∅
                  · rw [if_pos hL23]; rfl
                  · rw [if_neg hL23]
                    by_cases hR23 : r2 ∩ r3 = ∅
                    · rw [if_pos hR23]; rfl
                    · rw [if_neg hR23]
                      simp only [Option.none_bind, Option.some_bind,
                        SubstringExpressionSet.intersection, if_pos rfl]
                      rw [if_pos htl, ite_self]
                · rw [if_neg hR12]
                  simp only [Option.some_bind, SubstringExpressionSet.intersection,
                    if_pos rfl]
                  rw [if_pos htl']
                  by_cases hL23 : l2 ∩ l3 = ∅
                  · rw [if_pos hL23]; rfl
                  · rw [if_neg hL23]
                    by_cases hR23 : r2 ∩ r3 = ∅
                    · rw [if_pos hR23]; rfl
                    · rw [if_neg hR23]
                      simp only [Option.some_bind,
                        SubstringExpressionSet.intersection, if_pos rfl]
                      rw [if_pos htl]
            · have hL12 : ¬ l1 ∩ l2 = ∅ := fun h => htl (by
                rw [← Finset.inter_assoc, h, Finset.empty_inter])
              have hL23 : ¬ l2 ∩ l3 = ∅ := fun h => htl (by
                rw [h, Finset.inter_empty])
              have htl' : ¬ l1 ∩ l2 ∩ l3 = ∅ := by rwa [Finset.inter_assoc]
              rw [if_neg hL12, if_neg hL23]
              by_cases htr : r1 ∩ (r2 ∩ r3) = ∅
              · have htr' : r1 ∩ r2 ∩ r3 = ∅ := by rwa [Finset.inter_assoc]
                by_cases hR12 : r1 ∩ r2 = ∅
                · rw [if_pos hR12]
                  by_cases hR23 : r2 ∩ r3 = ∅
                  · rw [if_pos hR23]; rfl
                  · rw [if_neg hR23]
                    simp only [Option.none_bind, Option.some_bind,
                      SubstringExpressionSet.intersection, if_pos rfl]
                    rw [if_neg htl, if_pos htr, ite_self]
                · rw [if_neg hR12]
                  simp only [Option.some_bind, SubstringExpressionSet.intersection,
                    if_pos rfl]
                  rw [if_neg htl', if_pos htr']
                  by_cases hR23 : r2 ∩ r3 = ∅
                  · rw [if_pos hR23]; rfl
                  · rw [if_neg hR23]
                    simp only [Option.some_bind,
                      SubstringExpressionSet.intersection, if_pos rfl]
                    rw [if_neg htl, if_pos htr]
              · have hR12 : ¬ r1 ∩ r2 = ∅ := fun h => htr (by
                  rw [← Finset.inter_assoc, h, Finset.empty_inter])
                have hR23 : ¬ r2 ∩ r3 = ∅ := fun h => htr (by
                  rw [h, Finset.inter_empty])
                have htr' : ¬ r1 ∩ r2 ∩ r3 = ∅ := by rwa [Finset.inter_assoc]
                rw [if_neg hR12, if_neg hR23]
                simp only [Option.some_bind, SubstringExpressionSet.intersection,
                  if_pos rfl]
                rw [if_neg htl', if_neg htr', if_neg htl, if_neg htr,
                  Finset.inter_assoc l1 l2 l3, Finset.inter_assoc r1 r2 r3]
          · rw [if_pos rfl, if_neg h23]
            by_cases hL12 : l1 ∩ l2 = ∅
            · rw [if_pos hL12]; rfl
            · rw [if_neg hL12]
              by_cases hR12 : r1 ∩ r2 = ∅
              · rw [if_pos hR12]; rfl
              · rw [if_neg hR12]
                simp only [Option.some_bind, SubstringExpressionSet.intersection]
                rw [if_neg h23]
                rfl
        · rw [if_neg h12]
          by_cases h23 : c2 = c3
          · subst h23
            rw [if_pos rfl]
            by_cases hL23 : l2 ∩ l3 = ∅
            · rw [if_pos hL23]; rfl
            · rw [if_neg hL23]
              by_cases hR23 : r2 ∩ r3 = ∅
              · rw [if_pos hR23]; rfl
              · rw [if_neg hR23]
                simp only [Option.none_bind, Option.some_bind,
                  SubstringExpressionSet.intersection]
                rw [if_neg h12]
          · rw [if_neg h23]; rfl

theorem flatMap_congr_fun {α β : Type} {f g : α → List β} (l : List α)
    (h : ∀ a, f a = g a) : l.flatMap f = l.flatMap g := by
  rw [funext h]

theorem filterMap_toList_eq {α β : Type} (f : α → Option β) (l : List α) :
    l.filterMap f = l.flatMap (fun a => (f a).toList) := by
  induction l with
  | nil => rfl
  | cons a t ih =>
    rw [List.filterMap_cons, List.flatMap_cons, ← ih]
    cases f a <;> rfl

theorem filterMap_const_none {α β : Type} (l : List α) :
    l.filterMap (fun _ => (none : Option β)) = [] := by
  induction l with
  | nil => rfl
  | cons a t ih =>
    rw [List.filterMap_cons]
    exact ih

theorem interExprs_assoc (s1 s2 s3 : List SubstringExpressionSet) :
    interExprs (interExprs s1 s2) s3 = interExprs s1 (interExprs s2 s3) := by
  unfold interExprs
  rw [List.flatMap_assoc]
  refine flatMap_congr_fun s1 (fun e1 => ?_)
  rw [List.filterMap_flatMap,
    filterMap_toList_eq (fun e2 => e1.intersection e2) s2, List.flatMap_assoc]
  refine flatMap_congr_fun s2 (fun e2 => ?_)
  rw [List.filterMap_filterMap]
  cases h : e1.intersection e2 with
  | none =>
    have hfun : (fun e3 => (e2.intersection e3).bind (fun x => e1.intersection x)) =
        (fun _ => (none : Option SubstringExpressionSet)) := by
      funext e3
      rw [← ses_inter_assoc, h]
      rfl
    rw [hfun, filterMap_const_none]
    rfl
  | some x =>
    have hfun : (fun e3 => (e2.intersection e3).bind (fun x => e1.intersection x)) =
        (fun e3 => x.intersection e3) := by
      funext e3
      rw [← ses_inter_assoc, h]
      rfl
    rw [hfun]
    simp

theorem flatMap_append_perm {α β : Type} (l : List α) (g h : α → List β) :
    (l.flatMap (fun a => g a ++ h a)).Perm (l.flatMap g ++ l.flatMap h) := by
  induction l with
  | nil => exact List.Perm.refl _
  | cons a t ih =>
    rw [List.flatMap_cons, List.flatMap_cons, List.flatMap_cons,
      List.append_assoc (g a) (h a), List.append_assoc (g a) (t.flatMap g)]
    refine List.Perm.append_left (g a) ?_
    refine List.Perm.trans (List.Perm.append_left (h a) ih) ?_
    rw [← List.append_assoc, ← List.append_assoc]
    exact List.Perm.append_right _ List.perm_append_comm

theorem flatMap_transpose_perm {α β γ : Type} (s1 : List α) (s2 : List β)
    (f : α → β → List γ) :
    (s1.flatMap (fun a => s2.flatMap (fun b => f a b))).Perm
      (s2.flatMap (fun b => s1.flatMap (fun a => f a b))) := by
  induction s1 with
  | nil => simp
  | cons a t ih =>
    rw [List.flatMap_cons]
    refine List.Perm.trans (List.Perm.append_left _ ih) ?_
    exact (flatMap_append_perm s2 (f a) _).symm

theorem interExprs_perm_comm (s1 s2 : List SubstringExpressionSet) :
    (interExprs s1 s2).Perm (interExprs s2 s1) := by
  have h1 : interExprs s1 s2 =
      s1.flatMap (fun e1 => s2.flatMap (fun e2 => (e1.intersection e2).toList)) := by
    unfold interExprs
    exact flatMap_congr_fun s1 (fun e1 => filterMap_toList_eq _ s2)
  have h2 : interExprs s2 s1 =
      s2.flatMap (fun e2 => s1.flatMap (fun e1 => (e2.intersection e1).toList)) := by
    unfold interExprs
    exact flatMap_congr_fun s2 (fun e2 => filterMap_toList_eq _ s1)
  have h3 : (fun e2 => s1.flatMap (fun e1 =>
        (SubstringExpressionSet.intersection e2 e1).toList)) =
      (fun e2 => s1.flatMap (fun e1 =>
        (SubstringExpressionSet.intersection e1 e2).toList)) := by
    funext e2
    exact flatMap_congr_fun s1 (fun e1 => by rw [ses_inter_comm])
  rw [h1, h2, h3]
  exact flatMap_transpose_perm s1 s2 (fun e1 e2 => (e1.intersection e2).toList)

theorem interExprs_nil_comm {s1 s2 : List SubstringExpressionSet} :
    interExprs s1 s2 = [] ↔ interExprs s2 s1 = [] := by
  constructor
  · intro h
    exact ((interExprs_perm_comm s2 s1).trans (h ▸ List.Perm.refl _)).eq_nil
  · intro h
    exact ((interExprs_perm_comm s1 s2).trans (h ▸ List.Perm.refl _)).eq_nil

theorem interExprs_nil_right (s : List SubstringExpressionSet) :
    interExprs s [] = [] := by
  unfold interExprs
  simp

theorem lookupA_of_mem_functional {α β : Type} [DecidableEq α] {l : List (α × β)}
    {a : α} {b : β} (hmem : (a, b) ∈ l) (hfun : ∀ b', (a, b') ∈ l → b' = b) :
    lookupA l a = some b := by
  induction l with
  | nil => cases hmem
  | cons e t ih =>
    obtain ⟨k, v⟩ := e
    rw [lookupA_cons]
    by_cases he : k = a
    · subst he
      rw [if_pos rfl]
      rw [hfun v (List.mem_cons_self _ _)]
    · rw [if_neg he]
      rcases List.mem_cons.1 hmem with heq | hmem'
      · exact absurd (congrArg Prod.fst heq).symm he
      · exact ih hmem' (fun b' hb' => hfun b' (List.mem_cons_of_mem _ hb'))

theorem interFold_split (ps : List (((Nat × Nat) × List SubstringExpressionSet) ×
      ((Nat × Nat) × List SubstringExpressionSet))) (st : NumSt)
    (l : List ((Nat × Nat) × List SubstringExpressionSet)) :
    ps.foldl stepPair (st, l) =
      ((ps.foldl stepPair (st, [])).1, l ++ (ps.foldl stepPair (st, [])).2) := by
  induction ps generalizing st l with
  | nil => simp
  | cons pe t ih =>
    simp only [List.foldl_cons]
    have hfst : (stepPair (st, l) pe).1 = (stepPair (st, []) pe).1 := by
      rw [stepPair_fst, stepPair_fst]
    have hsnd : (stepPair (st, l) pe).2 = l ++ (stepPair (st, []) pe).2 := by
      rw [stepPair_snd, stepPair_snd]
      simp
    have h1 : stepPair (st, l) pe =
        ((stepPair (st, []) pe).1, l ++ (stepPair (st, []) pe).2) :=
      Prod.ext hfst hsnd
    rw [h1, ih]
    have h4 : t.foldl stepPair (stepPair (st, []) pe) =
        ((t.foldl stepPair ((stepPair (st, []) pe).1, [])).1,
          (stepPair (st, []) pe).2 ++
            (t.foldl stepPair ((stepPair (st, []) pe).1, [])).2) :=
      ih _ _
    rw [h4, List.append_assoc]

theorem interFold_edges_aux (ps : List (((Nat × Nat) × List SubstringExpressionSet) ×
      ((Nat × Nat) × List SubstringExpressionSet))) (st : NumSt) :
    List.Forall₂ (fun pe (e : (Nat × Nat) × List SubstringExpressionSet) =>
        e.2 = interExprs pe.1.2 pe.2.2 ∧
        lookupA ((ps.foldl stepPair
            (st, ([] : List ((Nat × Nat) × List SubstringExpressionSet)))).1).map
          (pe.1.1.1, pe.2.1.1) = some e.1.1 ∧
        lookupA ((ps.foldl stepPair (st, [])).1).map (pe.1.1.2, pe.2.1.2) = some e.1.2)
      (ps.filter (fun pe => !(interExprs pe.1.2 pe.2.2 == [])))
      ((ps.foldl stepPair (st, [])).2) := by
  induction ps generalizing st with
  | nil => exact List.Forall₂.nil
  | cons pe0 t ih =>
    have hsplit : t.foldl stepPair (stepPair (st, []) pe0) =
        ((t.foldl stepPair ((stepPair (st, []) pe0).1, [])).1,
          (stepPair (st, []) pe0).2 ++
            (t.foldl stepPair ((stepPair (st, []) pe0).1, [])).2) :=
      interFold_split t _ _
    rw [List.filter_cons]
    by_cases hq : interExprs pe0.1.2 pe0.2.2 = []
    · have hE : (stepPair (st, []) pe0).2 = [] := by
        rw [stepPair_snd]
        simp [hq]
      rw [if_neg (by simp [hq])]
      simp only [List.foldl_cons, hsplit, hE, List.nil_append]
      exact ih ((stepPair (st, []) pe0).1)
    · have hE : (stepPair (st, []) pe0).2 =
          [(((numGet st (pe0.1.1.1, pe0.2.1.1)).2,
             (numGet (numGet st (pe0.1.1.1, pe0.2.1.1)).1 (pe0.1.1.2, pe0.2.1.2)).2),
            interExprs pe0.1.2 pe0.2.2)] := by
        rw [stepPair_snd]
        simp [hq]
      rw [if_pos (by simp [hq])]
      simp only [List.foldl_cons, hsplit, hE, List.cons_append, List.nil_append]
      refine List.Forall₂.cons ⟨rfl, ?_, ?_⟩ (ih ((stepPair (st, []) pe0).1))
      · refine interFold_stable t _ ?_
        rw [stepPair_fst]
        exact numGet_stable _ (numGet_lookup_self _ _)
      · refine interFold_stable t _ ?_
        rw [stepPair_fst]
        exact numGet_lookup_self _ _

theorem intersection_substrings_forall2 (d1 d2 : Dag) :
    List.Forall₂ (fun pe (e : (Nat × Nat) × List SubstringExpressionSet) =>
        e.2 = interExprs pe.1.2 pe.2.2 ∧
        lookupA (numAll d1 d2).map (pe.1.1.1, pe.2.1.1) = some e.1.1 ∧
        lookupA (numAll d1 d2).map (pe.1.1.2, pe.2.1.2) = some e.1.2)
      ((pairsL d1 d2).filter (fun pe => !(interExprs pe.1.2 pe.2.2 == [])))
      ((d1.intersection d2).substrings) := by
  have h := interFold_edges_aux (pairsL d1 d2) ⟨[], 0⟩
  have hsub : (d1.intersection d2).substrings =
      ((pairsL d1 d2).foldl stepPair (⟨[], 0⟩, [])).2 := by
    rw [intersection_eq]
    rfl
  rw [hsub]
  refine h.imp ?_
  rintro pe e ⟨h1, h2, h3⟩
  refine ⟨h1, ?_, ?_⟩ <;> unfold numAll <;>
    exact numGet_stable _ (numGet_stable _ (by assumption))

theorem numGet_keys_nodup {st : NumSt} (h : (st.map.map Prod.fst).Nodup)
    (p : (Nat × Nat)) : (((numGet st p).1).map.map Prod.fst).Nodup := by
  unfold numGet
  cases hp : lookupA st.map p with
  | some v => exact h
  | none =>
    simp only [List.map_cons]
    refine List.nodup_cons.2 ⟨?_, h⟩
    rw [← lookupA_eq_none_iff]
    exact hp

theorem interFold_keys_nodup (ps : List (((Nat × Nat) × List SubstringExpressionSet) ×
      ((Nat × Nat) × List SubstringExpressionSet)))
    (a : NumSt × List ((Nat × Nat) × List SubstringExpressionSet))
    (h : (a.1.map.map Prod.fst).Nodup) :
    (((ps.foldl stepPair a).1).map.map Prod.fst).Nodup := by
  induction ps generalizing a with
  | nil => exact h
  | cons pe t ih =>
    simp only [List.foldl_cons]
    refine ih _ ?_
    rw [stepPair_fst]
    exact numGet_keys_nodup (numGet_keys_nodup h _) _

theorem numAll_keys_nodup (d1 d2 : Dag) :
    ((numAll d1 d2).map.map Prod.fst).Nodup := by
  unfold numAll
  refine numGet_keys_nodup (numGet_keys_nodup ?_ _) _
  exact interFold_keys_nodup (pairsL d1 d2) (⟨[], 0⟩, []) List.nodup_nil

theorem numAll_wf (d1 d2 : Dag) : WFNum (numAll d1 d2) := by
  unfold numAll
  refine numGet_wf (numGet_wf ?_ _) _
  refine interFold_wfnum (pairsL d1 d2) (⟨[], 0⟩, []) ?_
  exact ⟨fun p n h => Option.noConfusion h, fun p q n h _ => Option.noConfusion h⟩

theorem snd_nodup_of_wf {l : List ((Nat × Nat) × Nat)}
    (hk : (l.map Prod.fst).Nodup)
    (hinj : ∀ p q n, lookupA l p = some n → lookupA l q = some n → p = q) :
    (l.map Prod.snd).Nodup := by
  refine List.Nodup.map_on ?_ (List.Nodup.of_map Prod.fst hk)
  intro x hx y hy hxy
  have hlx : lookupA l x.1 = some x.2 := lookupA_of_mem_nodup hk (by
    show (x.1, x.2) ∈ l
    exact hx)
  have hly : lookupA l y.1 = some x.2 := by
    have h0 : lookupA l y.1 = some y.2 := lookupA_of_mem_nodup hk (by
      show (y.1, y.2) ∈ l
      exact hy)
    rw [h0, hxy]
  exact Prod.ext (hinj x.1 y.1 x.2 hlx hly) hxy

theorem numAll_lookup_start (d1 d2 : Dag) :
    lookupA (numAll d1 d2).map (d1.start, d2.start) =
      some (d1.intersection d2).start := by
  have hst : (d1.intersection d2).start =
      (numGet (interFoldSt d1 d2).1 (d1.start, d2.start)).2 := by
    rw [intersection_eq]
  rw [hst]
  unfold numAll
  exact numGet_stable _ (numGet_lookup_self _ _)

theorem numAll_lookup_finish (d1 d2 : Dag) :
    lookupA (numAll d1 d2).map (d1.finish, d2.finish) =
      some (d1.intersection d2).finish := by
  have hfn : (d1.intersection d2).finish =
      (numGet (numGet (interFoldSt d1 d2).1 (d1.start, d2.start)).1
        (d1.finish, d2.finish)).2 := by
    rw [intersection_eq]
  rw [hfn]
  unfold numAll
  exact numGet_lookup_self _ _

theorem mem_pairsL {d1 d2 : Dag}
    {pe : ((Nat × Nat) × List SubstringExpressionSet) ×
      ((Nat × Nat) × List SubstringExpressionSet)} :
    pe ∈ pairsL d1 d2 ↔ pe.1 ∈ d1.substrings ∧ pe.2 ∈ d2.substrings := by
  unfold pairsL
  simp only [List.mem_flatMap, List.mem_map]
  constructor
  · rintro ⟨x, hx, y, hy, rfl⟩
    exact ⟨hx, hy⟩
  · rintro ⟨h1, h2⟩
    exact ⟨pe.1, h1, pe.2, h2, rfl⟩

theorem numAll_dom_pairs {d1 d2 : Dag}
    {pe : ((Nat × Nat) × List SubstringExpressionSet) ×
      ((Nat × Nat) × List SubstringExpressionSet)} (hpe : pe ∈ pairsL d1 d2) :
    (∃ n, lookupA (numAll d1 d2).map (pe.1.1.1, pe.2.1.1) = some n) ∧
    (∃ n, lookupA (numAll d1 d2).map (pe.1.1.2, pe.2.1.2) = some n) := by
  obtain ⟨⟨n, hn⟩, ⟨k, hk⟩⟩ := interFold_dom (pairsL d1 d2) (⟨[], 0⟩, []) hpe
  constructor
  · exact ⟨n, by unfold numAll; exact numGet_stable _ (numGet_stable _ hn)⟩
  · exact ⟨k, by unfold numAll; exact numGet_stable _ (numGet_stable _ hk)⟩

theorem map_eq_of_forall2_mem {α β γ : Type} {R : α → β → Prop} (f : β → γ)
    (g : α → γ) :
    ∀ (l1 : List α) (l2 : List β), List.Forall₂ R l1 l2 →
      (∀ a b, a ∈ l1 → R a b → f b = g a) → l2.map f = l1.map g := by
  intro l1
  induction l1 with
  | nil =>
    intro l2 h _
    cases h
    rfl
  | cons a t ih =>
    intro l2 h hfg
    cases h with
    | cons hr ht =>
      rw [List.map_cons, List.map_cons, hfg a _ (List.mem_cons_self _ _) hr,
        ih _ ht (fun x y hx hxy => hfg x y (List.mem_cons_of_mem _ hx) hxy)]

theorem map_eq_flatMap_single {α β : Type} (f : α → β) (l : List α) :
    l.map f = l.flatMap (fun a => [f a]) := by
  induction l with
  | nil => rfl
  | cons a t ih =>
    rw [List.map_cons, List.flatMap_cons, ih]
    rfl

theorem pairsL_swap_perm (d1 d2 : Dag) :
    ((pairsL d1 d2).map (fun pe => (pe.2, pe.1))).Perm (pairsL d2 d1) := by
  unfold pairsL
  rw [List.map_flatMap]
  have hstep : ∀ ent1 : (Nat × Nat) × List SubstringExpressionSet,
      List.map (fun pe : ((Nat × Nat) × List SubstringExpressionSet) ×
          ((Nat × Nat) × List SubstringExpressionSet) => (pe.2, pe.1))
        (List.map (fun ent2 => (ent1, ent2)) d2.substrings) =
      d2.substrings.flatMap (fun ent2 => [(ent2, ent1)]) := by
    intro ent1
    rw [List.map_map, ← map_eq_flatMap_single]
    exact List.map_congr_left (fun ent2 _ => rfl)
  rw [flatMap_congr_fun d1.substrings hstep]
  refine List.Perm.trans
    (flatMap_transpose_perm d1.substrings d2.substrings
      (fun ent1 ent2 => [(ent2, ent1)])) ?_
  have hstep2 : ∀ ent2 : (Nat × Nat) × List SubstringExpressionSet,
      d1.substrings.flatMap (fun ent1 => [(ent2, ent1)]) =
        List.map (fun ent1 => (ent2, ent1)) d1.substrings := by
    intro ent2
    exact (map_eq_flatMap_single _ _).symm
  rw [flatMap_congr_fun d2.substrings hstep2]

theorem mem_commMap {d1 d2 : Dag} {x y : Nat} :
    (x, y) ∈ commMap d1 d2 ↔ ∃ p : (Nat × Nat),
      lookupA (numAll d1 d2).map p = some x ∧
      lookupA (numAll d2 d1).map (p.2, p.1) = some y := by
  unfold commMap
  simp only [List.mem_filterMap, Option.map_eq_some']
  constructor
  · rintro ⟨ent, hent, y', hy', heq⟩
    injection heq with h1 h2
    refine ⟨ent.1, ?_, ?_⟩
    · rw [← h1]
      refine lookupA_of_mem_nodup (numAll_keys_nodup d1 d2) ?_
      show (ent.1, ent.2) ∈ (numAll d1 d2).map
      exact hent
    · rw [← h2]
      exact hy'
  · rintro ⟨p, hp, hq⟩
    exact ⟨(p, x), lookupA_mem hp, y, hq, rfl⟩

theorem commMap_fun {d1 d2 : Dag} {a b c : Nat}
    (h1 : (a, b) ∈ commMap d1 d2) (h2 : (a, c) ∈ commMap d1 d2) : b = c := by
  obtain ⟨p, hp1, hp2⟩ := mem_commMap.1 h1
  obtain ⟨q, hq1, hq2⟩ := mem_commMap.1 h2
  have hpq : p = q := (numAll_wf d1 d2).2 p q a hp1 hq1
  subst hpq
  rw [hp2] at hq2
  injection hq2

theorem commMap_inj {d1 d2 : Dag} {a b c : Nat}
    (h1 : (a, c) ∈ commMap d1 d2) (h2 : (b, c) ∈ commMap d1 d2) : a = b := by
  obtain ⟨p, hp1, hp2⟩ := mem_commMap.1 h1
  obtain ⟨q, hq1, hq2⟩ := mem_commMap.1 h2
  have hpq : (p.2, p.1) = (q.2, q.1) := (numAll_wf d2 d1).2 _ _ c hp2 hq2
  have hp_eq : p = q := by
    injection hpq with ha hb
    exact Prod.ext hb ha
  subst hp_eq
  rw [hp1] at hq1
  injection hq1

theorem lookupA_commMap {d1 d2 : Dag} {p : (Nat × Nat)} {x y : Nat}
    (hx : lookupA (numAll d1 d2).map p = some x)
    (hy : lookupA (numAll d2 d1).map (p.2, p.1) = some y) :
    lookupA (commMap d1 d2) x = some y := by
  refine lookupA_of_mem_functional (mem_commMap.2 ⟨p, hx, hy⟩) ?_
  intro y' hy'
  exact commMap_fun hy' (mem_commMap.2 ⟨p, hx, hy⟩)

theorem filter_map_swap_perm (d1 d2 : Dag)
    (q2 : ((Nat × Nat) × List SubstringExpressionSet) ×
      ((Nat × Nat) × List SubstringExpressionSet) → Bool)
    (g2 : ((Nat × Nat) × List SubstringExpressionSet) ×
      ((Nat × Nat) × List SubstringExpressionSet) →
      (Option Nat × Option Nat) × Multiset SubstringExpressionSet) :
    (((pairsL d1 d2).filter (fun pe => q2 (pe.2, pe.1))).map
      (fun pe => g2 (pe.2, pe.1))).Perm
    (((pairsL d2 d1).filter q2).map g2) := by
  have h1 : ((pairsL d1 d2).filter (fun pe => q2 (pe.2, pe.1))).map
      (fun pe => g2 (pe.2, pe.1)) =
      (((pairsL d1 d2).filter (fun pe => q2 (pe.2, pe.1))).map
        (fun pe => (pe.2, pe.1))).map g2 := by
    rw [List.map_map]
    exact List.map_congr_left (fun a _ => rfl)
  have h2 : ((pairsL d1 d2).filter (fun pe => q2 (pe.2, pe.1))).map
      (fun pe => (pe.2, pe.1)) =
      ((pairsL d1 d2).map (fun pe => (pe.2, pe.1))).filter q2 := by
    rw [List.filter_map]
    exact congrArg _ (List.filter_congr (fun a _ => rfl))
  rw [h1, h2]
  exact List.Perm.map g2 (List.Perm.filter q2 (pairsL_swap_perm d1 d2))

theorem dag_inter_comm_iso (d1 d2 : Dag) :
    DagIso (commMap d1 d2) (d1.intersection d2) (d2.intersection d1) := by
  refine ⟨fun a b c hab hac => commMap_fun hab hac,
    fun a b c hac hbc => commMap_inj hac hbc, ?_, ?_, ?_⟩
  · exact lookupA_commMap (numAll_lookup_start d1 d2) (numAll_lookup_start d2 d1)
  · exact lookupA_commMap (numAll_lookup_finish d1 d2) (numAll_lookup_finish d2 d1)
  · have hL : ((d1.intersection d2).substrings).map (edgeKeyM (commMap d1 d2)) =
        ((pairsL d1 d2).filter (fun pe => !(interExprs pe.1.2 pe.2.2 == []))).map
          (fun pe => ((lookupA (numAll d2 d1).map (pe.2.1.1, pe.1.1.1),
                       lookupA (numAll d2 d1).map (pe.2.1.2, pe.1.1.2)),
                      (interExprs pe.1.2 pe.2.2 :
                        Multiset SubstringExpressionSet))) := by
      refine map_eq_of_forall2_mem _ _ _ _ (intersection_substrings_forall2 d1 d2) ?_
      intro pe e hpe hrel
      obtain ⟨he2, hs, hf⟩ := hrel
      have hpe' : pe ∈ pairsL d1 d2 := List.mem_of_mem_filter hpe
      have hpe2 : (pe.2, pe.1) ∈ pairsL d2 d1 := by
        rw [mem_pairsL]
        exact ⟨(mem_pairsL.1 hpe').2, (mem_pairsL.1 hpe').1⟩
      obtain ⟨⟨ys, hys⟩, ⟨yf, hyf⟩⟩ := numAll_dom_pairs hpe2
      unfold edgeKeyM
      rw [lookupA_commMap hs hys, lookupA_commMap hf hyf, hys, hyf, he2]
    have hR : ((d2.intersection d1).substrings).map
        (fun e => ((some e.1.1, some e.1.2),
          (e.2 : Multiset SubstringExpressionSet))) =
        ((pairsL d2 d1).filter (fun pe => !(interExprs pe.1.2 pe.2.2 == []))).map
          (fun pe => ((lookupA (numAll d2 d1).map (pe.1.1.1, pe.2.1.1),
                       lookupA (numAll d2 d1).map (pe.1.1.2, pe.2.1.2)),
                      (interExprs pe.1.2 pe.2.2 :
                        Multiset SubstringExpressionSet))) := by
      refine map_eq_of_forall2_mem _ _ _ _ (intersection_substrings_forall2 d2 d1) ?_
      intro pe e hpe hrel
      obtain ⟨he2, hs, hf⟩ := hrel
      rw [hs, hf, he2]
    rw [hL, hR]
    have hq : ∀ pe : ((Nat × Nat) × List SubstringExpressionSet) ×
        ((Nat × Nat) × List SubstringExpressionSet),
        (!(interExprs pe.1.2 pe.2.2 == [])) =
          (fun pe2 : ((Nat × Nat) × List SubstringExpressionSet) ×
              ((Nat × Nat) × List SubstringExpressionSet) =>
            !(interExprs pe2.1.2 pe2.2.2 == [])) (pe.2, pe.1) := by
      intro pe
      show (!(interExprs pe.1.2 pe.2.2 == [])) = !(interExprs pe.2.2 pe.1.2 == [])
      by_cases h : interExprs pe.1.2 pe.2.2 = []
      · rw [h, interExprs_nil_comm.1 h]
      · have h' : ¬ interExprs pe.2.2 pe.1.2 = [] :=
          fun hc => h (interExprs_nil_comm.2 hc)
        have hb1 : (interExprs pe.1.2 pe.2.2 == []) = false :=
          beq_eq_false_iff_ne.2 h
        have hb2 : (interExprs pe.2.2 pe.1.2 == []) = false :=
          beq_eq_false_iff_ne.2 h'
        rw [hb1, hb2]
    have hg : ∀ pe : ((Nat × Nat) × List SubstringExpressionSet) ×
        ((Nat × Nat) × List SubstringExpressionSet),
        ((lookupA (numAll d2 d1).map (pe.2.1.1, pe.1.1.1),
          lookupA (numAll d2 d1).map (pe.2.1.2, pe.1.1.2)),
         (interExprs pe.1.2 pe.2.2 : Multiset SubstringExpressionSet)) =
        (fun pe2 : ((Nat × Nat) × List SubstringExpressionSet) ×
            ((Nat × Nat) × List SubstringExpressionSet) =>
          ((lookupA (numAll d2 d1).map (pe2.1.1.1, pe2.2.1.1),
            lookupA (numAll d2 d1).map (pe2.1.1.2, pe2.2.1.2)),
           (interExprs pe2.1.2 pe2.2.2 : Multiset SubstringExpressionSet)))
          (pe.2, pe.1) := by
      intro pe
      have hms : (interExprs pe.1.2 pe.2.2 : Multiset SubstringExpressionSet) =
          (interExprs pe.2.2 pe.1.2 : Multiset SubstringExpressionSet) :=
        Multiset.coe_eq_coe.2 (interExprs_perm_comm _ _)
      rw [hms]
    rw [List.filter_congr (fun pe _ => hq pe),
      List.map_congr_left (fun pe _ => hg pe)]
    exact filter_map_swap_perm d1 d2
      (fun pe2 => !(interExprs pe2.1.2 pe2.2.2 == []))
      (fun pe2 => ((lookupA (numAll d2 d1).map (pe2.1.1.1, pe2.2.1.1),
        lookupA (numAll d2 d1).map (pe2.1.1.2, pe2.2.1.2)),
        (interExprs pe2.1.2 pe2.2.2 : Multiset SubstringExpressionSet)))

theorem forall2_append {α β : Type} {R : α → β → Prop} {l1 l3 : List α}
    {l2 l4 : List β} (h1 : List.Forall₂ R l1 l2) (h2 : List.Forall₂ R l3 l4) :
    List.Forall₂ R (l1 ++ l3) (l2 ++ l4) := by
  induction h1 with
  | nil => exact h2
  | cons hr ht ih => exact List.Forall₂.cons hr ih

theorem forall2_comp {α β γ : Type} {R : α → β → Prop} {S : β → γ → Prop} :
    ∀ {l1 : List α} {l2 : List β} {l3 : List γ},
      List.Forall₂ R l1 l2 → List.Forall₂ S l2 l3 →
      List.Forall₂ (fun a c => ∃ b, R a b ∧ S b c) l1 l3 := by
  intro l1 l2 l3 h1
  induction h1 generalizing l3 with
  | nil =>
    intro h2
    cases h2
    exact List.Forall₂.nil
  | cons hr ht ih =>
    intro h2
    cases h2 with
    | cons hs hts => exact List.Forall₂.cons ⟨_, hr, hs⟩ (ih hts)

theorem forall2_filter_transport {α β : Type} {R : α → β → Prop}
    {l1 : List α} {l2 : List β} (h : List.Forall₂ R l1 l2)
    (p : α → Bool) (q : β → Bool) (hpq : ∀ a b, R a b → p a = q b) :
    List.Forall₂ R (l1.filter p) (l2.filter q) := by
  induction h with
  | nil => exact List.Forall₂.nil
  | @cons a b la lb hr ht ih =>
    rw [List.filter_cons, List.filter_cons, ← hpq a b hr]
    by_cases hp : p a = true
    · rw [if_pos hp, if_pos hp]
      exact List.Forall₂.cons hr ih
    · rw [if_neg hp, if_neg hp]
      exact ih

theorem forall2_prodL {α β γ : Type} {R : α → β → Prop} {la : List α}
    {lb : List β} (h : List.Forall₂ R la lb) (s : List γ) :
    List.Forall₂ (fun x y => R x.1 y.1 ∧ x.2 = y.2)
      (la.flatMap (fun a => s.map (fun c => (a, c))))
      (lb.flatMap (fun b => s.map (fun c => (b, c)))) := by
  induction h with
  | nil => exact List.Forall₂.nil
  | @cons a b la' lb' hr ht ih =>
    rw [List.flatMap_cons, List.flatMap_cons]
    refine forall2_append ?_ ih
    clear ih ht
    induction s with
    | nil => exact List.Forall₂.nil
    | cons c t ih2 => exact List.Forall₂.cons ⟨hr, rfl⟩ ih2

theorem forall2_prodR {α β γ : Type} {R : α → β → Prop} {la : List α}
    {lb : List β} (h : List.Forall₂ R la lb) (s : List γ) :
    List.Forall₂ (fun x y => x.1 = y.1 ∧ R x.2 y.2)
      (s.flatMap (fun c => la.map (fun a => (c, a))))
      (s.flatMap (fun c => lb.map (fun b => (c, b)))) := by
  induction s with
  | nil => exact List.Forall₂.nil
  | cons c t ih =>
    rw [List.flatMap_cons, List.flatMap_cons]
    refine forall2_append ?_ ih
    clear ih
    induction h with
    | nil => exact List.Forall₂.nil
    | cons hr ht ih2 => exact List.Forall₂.cons ⟨rfl, hr⟩ ih2

theorem prodL_filter {α γ : Type} (l : List α) (p : α → Bool) (s : List γ) :
    ((l.filter p).flatMap (fun a => s.map (fun c => (a, c)))) =
      ((l.flatMap (fun a => s.map (fun c => (a, c)))).filter
        (fun x => p x.1)) := by
  induction l with
  | nil => rfl
  | cons a t ih =>
    rw [List.filter_cons, List.flatMap_cons, List.filter_append, ← ih,
      List.filter_map]
    by_cases hp : p a = true
    · rw [if_pos hp, List.flatMap_cons]
      have hco : ((fun x : α × γ => p x.1) ∘ (fun c => (a, c))) =
          (fun _ => true) := funext fun c => hp
      rw [hco, List.filter_true]
    · rw [if_neg hp]
      have hco : ((fun x : α × γ => p x.1) ∘ (fun c => (a, c))) =
          (fun _ => false) := funext fun c => by
        show p a = false
        rw [← Bool.not_eq_true]
        exact hp
      rw [hco, List.filter_false, List.map_nil, List.nil_append]

theorem prodR_filter {α γ : Type} (s : List γ) (l : List α) (p : α → Bool) :
    (s.flatMap (fun c => (l.filter p).map (fun a => (c, a)))) =
      ((s.flatMap (fun c => l.map (fun a => (c, a)))).filter
        (fun x => p x.2)) := by
  induction s with
  | nil => rfl
  | cons c t ih =>
    rw [List.flatMap_cons, List.flatMap_cons, List.filter_append, ← ih,
      List.filter_map]
    have hco : ((fun x : γ × α => p x.2) ∘ (fun a => (c, a))) = p :=
      funext fun a => rfl
    rw [hco]

theorem prod_assoc_base {α β γ : Type} (s1 : List α) (s2 : List β)
    (s3 : List γ) :
    ((s1.flatMap (fun a => s2.map (fun b => (a, b)))).flatMap
        (fun x => s3.map (fun c => (x, c)))) =
      (s1.flatMap (fun a => (s2.flatMap (fun b => s3.map (fun c => (b, c)))).map
        (fun y => (a, y)))).map (fun t => ((t.1, t.2.1), t.2.2)) := by
  rw [List.flatMap_assoc, List.map_flatMap]
  refine flatMap_congr_fun s1 (fun a => ?_)
  rw [List.flatMap_map, List.map_map, List.map_flatMap]
  refine flatMap_congr_fun s2 (fun b => ?_)
  rw [List.map_map]
  exact List.map_congr_left (fun c _ => rfl)

theorem mem_prodL {α γ : Type} {l : List α} {s : List γ} {x : α × γ} :
    x ∈ l.flatMap (fun a => s.map (fun c => (a, c))) ↔ x.1 ∈ l ∧ x.2 ∈ s := by
  simp only [List.mem_flatMap, List.mem_map]
  constructor
  · rintro ⟨a, ha, c, hc, rfl⟩
    exact ⟨ha, hc⟩
  · rintro ⟨h1, h2⟩
    exact ⟨x.1, h1, x.2, h2, rfl⟩

theorem mem_prodR {α γ : Type} {s : List γ} {l : List α} {x : γ × α} :
    x ∈ s.flatMap (fun c => l.map (fun a => (c, a))) ↔ x.1 ∈ s ∧ x.2 ∈ l := by
  simp only [List.mem_flatMap, List.mem_map]
  constructor
  · rintro ⟨c, hc, a, ha, rfl⟩
    exact ⟨hc, ha⟩
  · rintro ⟨h1, h2⟩
    exact ⟨x.1, h1, x.2, h2, rfl⟩

theorem lookupA_swap_mem {l : List ((Nat × Nat) × Nat)} {v : Nat} {p : Nat × Nat}
    (h : lookupA (l.map Prod.swap) v = some p) : (p, v) ∈ l := by
  have hm := lookupA_mem h
  simp only [List.mem_map] at hm
  obtain ⟨e, he, heq⟩ := hm
  have hee : e = (p, v) := by
    obtain ⟨k, w⟩ := e
    simp only [Prod.swap] at heq
    injection heq with h1 h2
    rw [h1, h2]
  rwa [hee] at he

theorem lookupA_swap_of_lookup {l : List ((Nat × Nat) × Nat)}
    (hk : (l.map Prod.fst).Nodup)
    (hinj : ∀ p q n, lookupA l p = some n → lookupA l q = some n → p = q)
    {p : Nat × Nat} {v : Nat} (h : lookupA l p = some v) :
    lookupA (l.map Prod.swap) v = some p := by
  refine lookupA_of_mem_functional ?_ ?_
  · simp only [List.mem_map]
    exact ⟨(p, v), lookupA_mem h, rfl⟩
  · intro p' hp'
    have hm : (p', v) ∈ l := by
      simp only [List.mem_map] at hp'
      obtain ⟨e, he, heq⟩ := hp'
      obtain ⟨k, w⟩ := e
      simp only [Prod.swap] at heq
      injection heq with h1 h2
      rw [← h1, ← h2]
      exact he
    have hl' : lookupA l p' = some v := lookupA_of_mem_nodup hk hm
    exact hinj p' p v hl' h

theorem mem_assocMap {d1 d2 d3 : Dag} {x y : Nat} :
    (x, y) ∈ assocMap d1 d2 d3 ↔ ∃ k : Nat × Nat,
      lookupA (numAll (d1.intersection d2) d3).map k = some x ∧
      ∃ p : Nat × Nat, lookupA ((numAll d1 d2).map.map Prod.swap) k.1 = some p ∧
      ∃ n23, lookupA (numAll d2 d3).map (p.2, k.2) = some n23 ∧
        lookupA (numAll d1 (d2.intersection d3)).map (p.1, n23) = some y := by
  unfold assocMap
  simp only [List.mem_filterMap, Option.bind_eq_some, Option.map_eq_some']
  constructor
  · rintro ⟨ent, hent, p, hp, n23, hn, y', hy', heq⟩
    injection heq with h1 h2
    refine ⟨ent.1, ?_, p, hp, n23, hn, ?_⟩
    · rw [← h1]
      refine lookupA_of_mem_nodup (numAll_keys_nodup _ _) ?_
      show (ent.1, ent.2) ∈ _
      exact hent
    · rw [← h2]
      exact hy'
  · rintro ⟨k, hk, p, hp, n23, hn, hy⟩
    exact ⟨(k, x), lookupA_mem hk, p, hp, n23, hn, y, hy, rfl⟩

theorem assocMap_fun {d1 d2 d3 : Dag} {a b c : Nat}
    (h1 : (a, b) ∈ assocMap d1 d2 d3) (h2 : (a, c) ∈ assocMap d1 d2 d3) :
    b = c := by
  obtain ⟨k, hk, p, hp, n, hn, hy⟩ := mem_assocMap.1 h1
  obtain ⟨k', hk', p', hp', n', hn', hy'⟩ := mem_assocMap.1 h2
  have hkk : k = k' := (numAll_wf _ _).2 _ _ a hk hk'
  subst hkk
  rw [hp] at hp'
  injection hp' with hpp
  subst hpp
  rw [hn] at hn'
  injection hn' with hnn
  subst hnn
  rw [hy] at hy'
  injection hy'

theorem assocMap_inj {d1 d2 d3 : Dag} {a b c : Nat}
    (h1 : (a, c) ∈ assocMap d1 d2 d3) (h2 : (b, c) ∈ assocMap d1 d2 d3) :
    a = b := by
  obtain ⟨k, hk, p, hp, n, hn, hy⟩ := mem_assocMap.1 h1
  obtain ⟨k', hk', p', hp', n', hn', hy'⟩ := mem_assocMap.1 h2
  have hB := (numAll_wf d1 (d2.intersection d3)).2 _ _ c hy hy'
  injection hB with hB1 hB2
  subst hB2
  have hM23 := (numAll_wf d2 d3).2 _ _ n hn hn'
  injection hM23 with h23a h23b
  have hpp : p = p' := Prod.ext hB1 h23a
  subst hpp
  have hm1 : (p, k.1) ∈ (numAll d1 d2).map := lookupA_swap_mem hp
  have hm2 : (p, k'.1) ∈ (numAll d1 d2).map := lookupA_swap_mem hp'
  have hl1 : lookupA (numAll d1 d2).map p = some k.1 :=
    lookupA_of_mem_nodup (numAll_keys_nodup d1 d2) hm1
  have hl2 : lookupA (numAll d1 d2).map p = some k'.1 :=
    lookupA_of_mem_nodup (numAll_keys_nodup d1 d2) hm2
  have hk1 : k.1 = k'.1 := by
    rw [hl1] at hl2
    injection hl2
  have hkk : k = k' := Prod.ext hk1 h23b
  subst hkk
  rw [hk] at hk'
  injection hk'

theorem lookupA_assocMap {d1 d2 d3 : Dag} {k : Nat × Nat} {x : Nat}
    {p : Nat × Nat} {n23 y : Nat}
    (hk : lookupA (numAll (d1.intersection d2) d3).map k = some x)
    (hp : lookupA (numAll d1 d2).map p = some k.1)
    (hn : lookupA (numAll d2 d3).map (p.2, k.2) = some n23)
    (hy : lookupA (numAll d1 (d2.intersection d3)).map (p.1, n23) = some y) :
    lookupA (assocMap d1 d2 d3) x = some y := by
  have hswap : lookupA ((numAll d1 d2).map.map Prod.swap) k.1 = some p :=
    lookupA_swap_of_lookup (numAll_keys_nodup d1 d2) (numAll_wf d1 d2).2 hp
  have hmem : (x, y) ∈ assocMap d1 d2 d3 :=
    mem_assocMap.2 ⟨k, hk, p, hswap, n23, hn, hy⟩
  refine lookupA_of_mem_functional hmem ?_
  intro y' hy'
  exact assocMap_fun hy' hmem

theorem interExprs_nil_left (s : List SubstringExpressionSet) :
    interExprs [] s = [] := rfl

theorem assoc_cond_eq (es1 es2 es3 : List SubstringExpressionSet) :
    ((!(interExprs es1 es2 == [])) &&
      (!(interExprs (interExprs es1 es2) es3 == []))) =
    ((!(interExprs es2 es3 == [])) &&
      (!(interExprs es1 (interExprs es2 es3) == []))) := by
  by_cases ht : interExprs (interExprs es1 es2) es3 = []
  · have ht2 : interExprs es1 (interExprs es2 es3) = [] := by
      rw [← interExprs_assoc]
      exact ht
    have hb1 : (interExprs (interExprs es1 es2) es3 == []) = true := by
      rw [ht]
      rfl
    have hb2 : (interExprs es1 (interExprs es2 es3) == []) = true := by
      rw [ht2]
      rfl
    rw [hb1, hb2]
    simp
  · have ht2 : ¬ interExprs es1 (interExprs es2 es3) = [] := by
      rw [← interExprs_assoc]
      exact ht
    have h12 : ¬ interExprs es1 es2 = [] := fun h => ht (by
      rw [h, interExprs_nil_left])
    have h23 : ¬ interExprs es2 es3 = [] := fun h => ht2 (by
      rw [h, interExprs_nil_right])
    rw [beq_eq_false_iff_ne.2 ht, beq_eq_false_iff_ne.2 ht2,
      beq_eq_false_iff_ne.2 h12, beq_eq_false_iff_ne.2 h23]

theorem assoc_edge_maps (d1 d2 d3 : Dag) :
    ((((d1.intersection d2).intersection d3).substrings).map
      (edgeKeyM (assocMap d1 d2 d3))) =
    (((d1.intersection (d2.intersection d3)).substrings).map
      (fun e => ((some e.1.1, some e.1.2),
        (e.2 : Multiset SubstringExpressionSet)))) := by
  have FB := intersection_substrings_forall2 d1 (d2.intersection d3)
  have F23 := intersection_substrings_forall2 d2 d3
  have FL := forall2_prodR F23 d1.substrings
  have FLf := forall2_filter_transport FL
    (fun x => !(interExprs x.1.2 (interExprs x.2.1.2 x.2.2.2) == []))
    (fun y => !(interExprs y.1.2 y.2.2 == []))
    (by
      rintro x y ⟨h1, he2, _, _⟩
      show (!(interExprs x.1.2 (interExprs x.2.1.2 x.2.2.2) == [])) =
        (!(interExprs y.1.2 y.2.2 == []))
      rw [he2, h1])
  have FBC := forall2_comp FLf FB
  have hBmap := map_eq_of_forall2_mem
    (fun e : (Nat × Nat) × List SubstringExpressionSet =>
      ((some e.1.1, some e.1.2), (e.2 : Multiset SubstringExpressionSet)))
    (fun t : ((Nat × Nat) × List SubstringExpressionSet) ×
        (((Nat × Nat) × List SubstringExpressionSet) ×
          ((Nat × Nat) × List SubstringExpressionSet)) =>
      (((lookupA (numAll d2 d3).map (t.2.1.1.1, t.2.2.1.1)).bind
          (fun n => lookupA (numAll d1 (d2.intersection d3)).map (t.1.1.1, n)),
        (lookupA (numAll d2 d3).map (t.2.1.1.2, t.2.2.1.2)).bind
          (fun n => lookupA (numAll d1 (d2.intersection d3)).map (t.1.1.2, n))),
       (interExprs t.1.2 (interExprs t.2.1.2 t.2.2.2) :
         Multiset SubstringExpressionSet)))
    _ _ FBC
    (by
      rintro t e ht ⟨y, ⟨hy1, h23e2, h23s, h23f⟩, hBe2, hBs, hBf⟩
      show ((some e.1.1, some e.1.2), (e.2 : Multiset SubstringExpressionSet)) =
        (((lookupA (numAll d2 d3).map (t.2.1.1.1, t.2.2.1.1)).bind
            (fun n => lookupA (numAll d1 (d2.intersection d3)).map (t.1.1.1, n)),
          (lookupA (numAll d2 d3).map (t.2.1.1.2, t.2.2.1.2)).bind
            (fun n => lookupA (numAll d1 (d2.intersection d3)).map (t.1.1.2, n))),
         (interExprs t.1.2 (interExprs t.2.1.2 t.2.2.2) :
           Multiset SubstringExpressionSet))
      rw [h23s, h23f]
      simp only [Option.some_bind]
      rw [hy1, hBs, hBf, ← h23e2, ← hBe2])
  have FAx := intersection_substrings_forall2 (d1.intersection d2) d3
  have F12 := intersection_substrings_forall2 d1 d2
  have FLA := forall2_prodL F12 d3.substrings
  have FLAf := forall2_filter_transport FLA
    (fun x => !(interExprs (interExprs x.1.1.2 x.1.2.2) x.2.2 == []))
    (fun y => !(interExprs y.1.2 y.2.2 == []))
    (by
      rintro x y ⟨⟨he2, _, _⟩, h2⟩
      show (!(interExprs (interExprs x.1.1.2 x.1.2.2) x.2.2 == [])) =
        (!(interExprs y.1.2 y.2.2 == []))
      rw [he2, ← h2])
  have FAC := forall2_comp FLAf FAx
  have hAmap := map_eq_of_forall2_mem
    (edgeKeyM (assocMap d1 d2 d3))
    (fun x : (((Nat × Nat) × List SubstringExpressionSet) ×
        ((Nat × Nat) × List SubstringExpressionSet)) ×
        ((Nat × Nat) × List SubstringExpressionSet) =>
      (((lookupA (numAll d2 d3).map (x.1.2.1.1, x.2.1.1)).bind
          (fun n => lookupA (numAll d1 (d2.intersection d3)).map (x.1.1.1.1, n)),
        (lookupA (numAll d2 d3).map (x.1.2.1.2, x.2.1.2)).bind
          (fun n => lookupA (numAll d1 (d2.intersection d3)).map (x.1.1.1.2, n))),
       (interExprs x.1.1.2 (interExprs x.1.2.2 x.2.2) :
         Multiset SubstringExpressionSet)))
    _ _ FAC
    (by
      rintro x e hx ⟨y, ⟨⟨h12e2, h12s, h12f⟩, hx2⟩, hAe2, hAs, hAf⟩
      have hx0 := List.mem_of_mem_filter hx
      have hx1 : x.1 ∈ (pairsL d1 d2).filter
          (fun pe => !(interExprs pe.1.2 pe.2.2 == [])) := (mem_prodL.1 hx0).1
      have hx3 : x.2 ∈ d3.substrings := (mem_prodL.1 hx0).2
      have hx1' : x.1 ∈ pairsL d1 d2 := List.mem_of_mem_filter hx1
      have hm1 : x.1.1 ∈ d1.substrings := (mem_pairsL.1 hx1').1
      have hm2 : x.1.2 ∈ d2.substrings := (mem_pairsL.1 hx1').2
      have htrip : interExprs (interExprs x.1.1.2 x.1.2.2) x.2.2 ≠ [] := by
        intro hc
        have hcnd : (!(interExprs (interExprs x.1.1.2 x.1.2.2) x.2.2 == [])) =
            true := (List.mem_filter.1 hx).2
        rw [hc] at hcnd
        simp at hcnd
      have h23ne : interExprs x.1.2.2 x.2.2 ≠ [] := by
        intro hc
        apply htrip
        rw [interExprs_assoc, hc, interExprs_nil_right]
      have hpe23 : (x.1.2, x.2) ∈ pairsL d2 d3 := mem_pairsL.2 ⟨hm2, hx3⟩
      obtain ⟨⟨ns, hns⟩, ⟨nf, hnf⟩⟩ := numAll_dom_pairs hpe23
      have hns0 : lookupA (numAll d2 d3).map (x.1.2.1.1, x.2.1.1) = some ns := hns
      have hnf0 : lookupA (numAll d2 d3).map (x.1.2.1.2, x.2.1.2) = some nf := hnf
      have hedge : ((ns, nf), interExprs x.1.2.2 x.2.2) ∈
          (d2.intersection d3).substrings :=
        mem_intersection_substrings.2
          ⟨x.1.2, hm2, x.2, hx3, h23ne, ns, nf, hns0, hnf0, rfl⟩
      have hpeB : (x.1.1, ((ns, nf), interExprs x.1.2.2 x.2.2)) ∈
          pairsL d1 (d2.intersection d3) := mem_pairsL.2 ⟨hm1, hedge⟩
      obtain ⟨⟨ys, hys⟩, ⟨yf, hyf⟩⟩ := numAll_dom_pairs hpeB
      have hys0 : lookupA (numAll d1 (d2.intersection d3)).map
          (x.1.1.1.1, ns) = some ys := hys
      have hyf0 : lookupA (numAll d1 (d2.intersection d3)).map
          (x.1.1.1.2, nf) = some yf := hyf
      have hns' : lookupA (numAll d2 d3).map (x.1.2.1.1, y.2.1.1) = some ns := by
        rw [← hx2]
        exact hns0
      have hnf' : lookupA (numAll d2 d3).map (x.1.2.1.2, y.2.1.2) = some nf := by
        rw [← hx2]
        exact hnf0
      have hLs : lookupA (assocMap d1 d2 d3) e.1.1 = some ys :=
        lookupA_assocMap hAs h12s hns' hys0
      have hLf : lookupA (assocMap d1 d2 d3) e.1.2 = some yf :=
        lookupA_assocMap hAf h12f hnf' hyf0
      show edgeKeyM (assocMap d1 d2 d3) e =
        (((lookupA (numAll d2 d3).map (x.1.2.1.1, x.2.1.1)).bind
            (fun n => lookupA (numAll d1 (d2.intersection d3)).map (x.1.1.1.1, n)),
          (lookupA (numAll d2 d3).map (x.1.2.1.2, x.2.1.2)).bind
            (fun n => lookupA (numAll d1 (d2.intersection d3)).map (x.1.1.1.2, n))),
         (interExprs x.1.1.2 (interExprs x.1.2.2 x.2.2) :
           Multiset SubstringExpressionSet))
      unfold edgeKeyM
      rw [hLs, hLf, hAe2, h12e2, ← hx2, interExprs_assoc, hns0, hnf0]
      simp only [Option.some_bind]
      rw [hys0, hyf0])
  rw [hAmap, hBmap]
  have hrwA : (((pairsL d1 d2).filter
        (fun pe => !(interExprs pe.1.2 pe.2.2 == []))).flatMap
        (fun a => d3.substrings.map (fun c => (a, c)))) =
      (((pairsL d1 d2).flatMap
        (fun a => d3.substrings.map (fun c => (a, c)))).filter
        (fun x => !(interExprs x.1.1.2 x.1.2.2 == []))) :=
    prodL_filter (pairsL d1 d2) _ d3.substrings
  have hrwB : (d1.substrings.flatMap (fun c =>
        ((pairsL d2 d3).filter
          (fun pe => !(interExprs pe.1.2 pe.2.2 == []))).map (fun a => (c, a)))) =
      ((d1.substrings.flatMap
        (fun c => (pairsL d2 d3).map (fun a => (c, a)))).filter
        (fun x => !(interExprs x.2.1.2 x.2.2.2 == []))) :=
    prodR_filter d1.substrings (pairsL d2 d3) _
  rw [hrwA, hrwB, List.filter_filter, List.filter_filter]
  have hbase : ((pairsL d1 d2).flatMap
        (fun a => d3.substrings.map (fun c => (a, c)))) =
      ((d1.substrings.flatMap
        (fun c => (pairsL d2 d3).map (fun a => (c, a)))).map
        (fun t => ((t.1, t.2.1), t.2.2))) :=
    prod_assoc_base d1.substrings d2.substrings d3.substrings
  rw [hbase, List.filter_map, List.map_map]
  have hfilter : List.filter
        ((fun a => !(interExprs (interExprs a.1.1.2 a.1.2.2) a.2.2 == []) &&
          !(interExprs a.1.1.2 a.1.2.2 == [])) ∘
          (fun t : ((Nat × Nat) × List SubstringExpressionSet) ×
              (((Nat × Nat) × List SubstringExpressionSet) ×
                ((Nat × Nat) × List SubstringExpressionSet)) =>
            ((t.1, t.2.1), t.2.2)))
        (d1.substrings.flatMap (fun c => (pairsL d2 d3).map (fun a => (c, a)))) =
      List.filter
        (fun a => !(interExprs a.1.2 (interExprs a.2.1.2 a.2.2.2) == []) &&
          !(interExprs a.2.1.2 a.2.2.2 == []))
        (d1.substrings.flatMap (fun c => (pairsL d2 d3).map (fun a => (c, a)))) :=
    List.filter_congr (fun t _ => by
      show ((!(interExprs (interExprs t.1.2 t.2.1.2) t.2.2.2 == [])) &&
          (!(interExprs t.1.2 t.2.1.2 == []))) =
        ((!(interExprs t.1.2 (interExprs t.2.1.2 t.2.2.2) == [])) &&
          (!(interExprs t.2.1.2 t.2.2.2 == [])))
      rw [Bool.and_comm, assoc_cond_eq, Bool.and_comm])
  rw [hfilter]
  exact List.map_congr_left (fun t _ => rfl)

theorem dag_inter_assoc_iso (d1 d2 d3 : Dag) :
    DagIso (assocMap d1 d2 d3) ((d1.intersection d2).intersection d3)
      (d1.intersection (d2.intersection d3)) := by
  refine ⟨fun a b c hab hac => assocMap_fun hab hac,
    fun a b c hac hbc => assocMap_inj hac hbc, ?_, ?_, ?_⟩
  · exact lookupA_assocMap (numAll_lookup_start (d1.intersection d2) d3)
      (numAll_lookup_start d1 d2) (numAll_lookup_start d2 d3)
      (numAll_lookup_start d1 (d2.intersection d3))
  · exact lookupA_assocMap (numAll_lookup_finish (d1.intersection d2) d3)
      (numAll_lookup_finish d1 d2) (numAll_lookup_finish d2 d3)
      (numAll_lookup_finish d1 (d2.intersection d3))
  · rw [assoc_edge_maps]

/-- C7: expression-set intersection is commutative and (as a partial
operation, composed through `Option.bind`) associative; DAG intersection is
commutative and associative up to an injective renumbering of the nodes that
preserves start, finish, and the renamed edge multiset. -/
theorem c7_intersection_algebra (d1 d2 d3 : Dag)
    (e1 e2 e3 : SubstringExpressionSet) :
    e1.intersection e2 = e2.intersection e1 ∧
    (e1.intersection e2).bind (fun x => x.intersection e3) =
      (e2.intersection e3).bind (fun x => e1.intersection x) ∧
    (∃ m, DagIso m (d1.intersection d2) (d2.intersection d1)) ∧
    (∃ m, DagIso m ((d1.intersection d2).intersection d3)
      (d1.intersection (d2.intersection d3))) :=
  ⟨ses_inter_comm e1 e2, ses_inter_assoc e1 e2 e3,
   ⟨commMap d1 d2, dag_inter_comm_iso d1 d2⟩,
   ⟨assocMap d1 d2 d3, dag_inter_assoc_iso d1 d2 d3⟩⟩

theorem rustMax_mem (key : PositionSet → Nat) :
    ∀ (l : List PositionSet) (acc : Option PositionSet) (p : PositionSet),
      List.foldl (fun acc x => match acc with
        | none => some x
        | some a => if key a ≤ key x then some x else some a) acc l = some p →
      p ∈ l ∨ acc = some p := by
  intro l
  induction l with
  | nil =>
    intro acc p h
    exact Or.inr h
  | cons x t ih =>
    intro acc p h
    simp only [List.foldl_cons] at h
    rcases ih _ p h with hm | he
    · exact Or.inl (List.mem_cons_of_mem _ hm)
    · cases acc with
      | none =>
        injection he with he
        exact Or.inl (by rw [← he]; exact List.mem_cons_self _ _)
      | some a =>
        have he' : (if key a ≤ key x then some x else some a) = some p := he
        by_cases hk : key a ≤ key x
        · rw [if_pos hk] at he'
          injection he' with he'
          exact Or.inl (by rw [← he']; exact List.mem_cons_self _ _)
        · rw [if_neg hk] at he'
          exact Or.inr he'

theorem mem_sortPos (s : Finset PositionSet) (p : PositionSet) :
    p ∈ sortPos s ↔ p ∈ s := by
  rw [Finset.mem_def]
  unfold sortPos
  induction s.val using Quotient.ind with
  | _ l => exact (List.perm_insertionSort posLE l).mem_iff

theorem pickMax_mem {key : PositionSet → Nat} {s : Finset PositionSet}
    {p : PositionSet} (h : pickMax key s = some p) : p ∈ s := by
  unfold pickMax rustMax at h
  rcases rustMax_mem key (sortPos s) none p h with hm | he
  · exact (mem_sortPos s p).1 hm
  · exact Option.noConfusion he

theorem bestCand_fold_src (g : InputDataGraph) (ranks : Nat → Nat) :
    ∀ (es : List SubstringExpressionSet)
      (acc : Option (Nat × SubstringExpression)) (r : Nat × SubstringExpression),
      es.foldl (fun b e => betterCand b (candScore g ranks e)) acc = some r →
      acc = some r ∨ ∃ c ∈ es, (candScore g ranks c).1 = some r.2 ∧
        (candScore g ranks c).2 = r.1 := by
  intro es
  induction es with
  | nil =>
    intro acc r h
    exact Or.inl h
  | cons c t ih =>
    intro acc r h
    simp only [List.foldl_cons] at h
    rcases ih _ r h with he | ⟨c', hc', h1, h2⟩
    · unfold betterCand at he
      cases hc1 : (candScore g ranks c).1 with
      | none =>
        rw [hc1] at he
        exact Or.inl he
      | some ex =>
        cases acc with
        | none =>
          rw [hc1] at he
          have he' : some ((candScore g ranks c).2, ex) = some r := he
          injection he' with he'
          refine Or.inr ⟨c, List.mem_cons_self _ _, ?_, ?_⟩
          · rw [hc1, ← he']
          · rw [← he']
        | some b =>
          rw [hc1] at he
          have he' : (if b.1 < (candScore g ranks c).2
              then some ((candScore g ranks c).2, ex) else some b) = some r := he
          by_cases hlt : b.1 < (candScore g ranks c).2
          · rw [if_pos hlt] at he'
            injection he' with he'
            refine Or.inr ⟨c, List.mem_cons_self _ _, ?_, ?_⟩
            · rw [hc1, ← he']
            · rw [← he']
          · rw [if_neg hlt] at he'
            exact Or.inl he'
    · exact Or.inr ⟨c', List.mem_cons_of_mem _ hc', h1, h2⟩

theorem bestCand_src {g : InputDataGraph} {ranks : Nat → Nat}
    {es : List SubstringExpressionSet} {r : Nat × SubstringExpression}
    (h : bestCand g ranks es = some r) :
    ∃ c ∈ es, (candScore g ranks c).1 = some r.2 ∧
      (candScore g ranks c).2 = r.1 := by
  unfold bestCand at h
  rcases bestCand_fold_src g ranks es none r h with he | hr
  · exact Option.noConfusion he
  · exact hr

theorem forall₂_mem_left {α β : Type} {R : α → β → Prop} {l1 : List α}
    {l2 : List β} (h : List.Forall₂ R l1 l2) {a : α} (ha : a ∈ l1) :
    ∃ b ∈ l2, R a b := by
  induction h with
  | nil => simp at ha
  | cons hR ht ih =>
    rcases List.mem_cons.1 ha with rfl | ha'
    · exact ⟨_, by simp, hR⟩
    · obtain ⟨b, hb, hr⟩ := ih ha'
      exact ⟨b, List.mem_cons_of_mem _ hb, hr⟩

theorem pathEdgesOf_cons_cons (a b : Nat) (t : List Nat) :
    pathEdgesOf (a :: b :: t) = (a, b) :: pathEdgesOf (b :: t) := rfl

theorem pathEdges_mem_adj {adjE : List (Nat × Nat)} :
    ∀ {ns : List Nat}, List.Chain' (fun a b => (a, b) ∈ adjE) ns →
      ∀ e ∈ pathEdgesOf ns, e ∈ adjE := by
  intro ns
  induction ns with
  | nil =>
    intro _ e he
    exact absurd he (List.not_mem_nil e)
  | cons a t ih =>
    intro hc e he
    cases t with
    | nil => exact absurd he (List.not_mem_nil e)
    | cons b t' =>
      rw [pathEdgesOf_cons_cons] at he
      obtain ⟨hab, hc'⟩ := List.chain'_cons.1 hc
      rcases List.mem_cons.1 he with rfl | he'
      · exact hab
      · exact ih hc' e he'

theorem slice_append (out : Str) {x y z : Nat} (h1 : x ≤ y) (h2 : y ≤ z) :
    (out.drop x).take (y - x) ++ (out.drop y).take (z - y) =
      (out.drop x).take (z - x) := by
  have hz : z - x = (y - x) + (z - y) := by omega
  have hd : (out.drop x).drop (y - x) = out.drop y := by
    rw [List.drop_drop]
    congr 1
    omega
  rw [hz, List.take_add, hd]

theorem slices_flatten (out : Str) (φ : Nat → Nat) :
    ∀ (ns : List Nat) (a b : Nat), ns.head? = some a → ns.getLast? = some b →
      (∀ e ∈ pathEdgesOf ns, φ e.1 ≤ φ e.2) →
      (((pathEdgesOf ns).map (fun e =>
        (out.drop (φ e.1)).take (φ e.2 - φ e.1))).flatten =
        (out.drop (φ a)).take (φ b - φ a)) ∧ φ a ≤ φ b := by
  intro ns
  induction ns with
  | nil =>
    intro a b ha _ _
    exact Option.noConfusion ha
  | cons x t ih =>
    intro a b ha hb hmono
    rw [List.head?_cons] at ha
    injection ha with hxa
    subst hxa
    cases t with
    | nil =>
      rw [List.getLast?_singleton] at hb
      injection hb with hba
      subst hba
      exact ⟨by simp [pathEdgesOf], le_refl _⟩
    | cons y t' =>
      rw [List.getLast?_cons_cons] at hb
      have hmono' : ∀ e ∈ pathEdgesOf (y :: t'), φ e.1 ≤ φ e.2 := by
        intro e he
        exact hmono e (by
          rw [pathEdgesOf_cons_cons]
          exact List.mem_cons_of_mem _ he)
      have hhead : φ x ≤ φ y :=
        hmono (x, y) (by
          rw [pathEdgesOf_cons_cons]
          exact List.mem_cons_self _ _)
      obtain ⟨hflat, hle⟩ := ih y b List.head?_cons hb hmono'
      rw [pathEdgesOf_cons_cons, List.map_cons, List.flatten_cons, hflat]
      exact ⟨slice_append out hhead hle, le_trans hhead hle⟩

theorem ses_inter_inversion {e1 e2 c : SubstringExpressionSet}
    (h : e1.intersection e2 = some c) :
    (∃ s1, e1 = SubstringExpressionSet.ConstantString s1 ∧
      e2 = SubstringExpressionSet.ConstantString s1 ∧
      c = SubstringExpressionSet.ConstantString s1) ∨
    (∃ ci L1 R1 L2 R2, e1 = SubstringExpressionSet.SubstringSet ci L1 R1 ∧
      e2 = SubstringExpressionSet.SubstringSet ci L2 R2 ∧
      c = SubstringExpressionSet.SubstringSet ci (L1 ∩ L2) (R1 ∩ R2)) := by
  cases e1 with
  | ConstantString s1 =>
    cases e2 with
    | ConstantString s2 =>
      simp only [SubstringExpressionSet.intersection] at h
      by_cases hs : s1 = s2
      · subst hs
        rw [if_pos rfl] at h
        injection h with h
        exact Or.inl ⟨s1, rfl, rfl, h.symm⟩
      · rw [if_neg hs] at h
        exact Option.noConfusion h
    | SubstringSet c2 l2 r2 => exact Option.noConfusion h
  | SubstringSet c1 l1 r1 =>
    cases e2 with
    | ConstantString s2 => exact Option.noConfusion h
    | SubstringSet c2 l2 r2 =>
      simp only [SubstringExpressionSet.intersection] at h
      by_cases hc : c1 = c2
      · subst hc
        rw [if_pos rfl] at h
        by_cases hL : l1 ∩ l2 = ∅
        · rw [if_pos hL] at h
          exact Option.noConfusion h
        · rw [if_neg hL] at h
          by_cases hR : r1 ∩ r2 = ∅
          · rw [if_pos hR] at h
            exact Option.noConfusion h
          · rw [if_neg hR] at h
            injection h with h
            exact Or.inr ⟨c1, l1, r1, l2, r2, rfl, rfl, h.symm⟩
      · rw [if_neg hc] at h
        exact Option.noConfusion h

theorem semCandOK_inter_left {g : InputDataGraph} {ρ : Nat} {inp : List Str}
    {s : Str} {e1 e2 c : SubstringExpressionSet}
    (h : e1.intersection e2 = some c) (hok : SemCandOK g ρ inp s e1) :
    SemCandOK g ρ inp s c := by
  rcases ses_inter_inversion h with ⟨s1, he1, _, hc⟩ |
    ⟨ci, L1, R1, L2, R2, he1, _, hc⟩
  · subst he1
    subst hc
    exact hok
  · subst he1
    subst hc
    obtain ⟨colS, hcol, l, r, h1, h2, h3, h4, hL, hR⟩ := hok
    exact ⟨colS, hcol, l, r, h1, h2, h3, h4,
      fun p hp => hL p (Finset.mem_inter.1 hp).1,
      fun p hp => hR p (Finset.mem_inter.1 hp).1⟩

theorem semCandOK_inter_right {g : InputDataGraph} {ρ : Nat} {inp : List Str}
    {s : Str} {e1 e2 c : SubstringExpressionSet}
    (h : e1.intersection e2 = some c) (hok : SemCandOK g ρ inp s e2) :
    SemCandOK g ρ inp s c := by
  rcases ses_inter_inversion h with ⟨s1, _, he2, hc⟩ |
    ⟨ci, L1, R1, L2, R2, _, he2, hc⟩
  · subst he2
    subst hc
    exact hok
  · subst he2
    subst hc
    obtain ⟨colS, hcol, l, r, h1, h2, h3, h4, hL, hR⟩ := hok
    exact ⟨colS, hcol, l, r, h1, h2, h3, h4,
      fun p hp => hL p (Finset.mem_inter.1 hp).2,
      fun p hp => hR p (Finset.mem_inter.1 hp).2⟩

theorem dagSem_new {inp : List Str} {out : Str} {g : InputDataGraph} {ρ : Nat}
    {d : Dag} (hnd : (g.labels.map Prod.fst).Nodup)
    (h : Dag.new inp out g ρ = some d) : DagSem g ρ inp out d := by
  obtain ⟨hst, hfin, hknd, hkeys, hlook, _, _⟩ := dagNew_char inp out g ρ d h
  refine ⟨id, by rw [hst]; rfl, by rw [hfin]; rfl, ?_⟩
  intro ent hent
  have hkm : (ent.1.1, ent.1.2) ∈ d.substrings.map Prod.fst :=
    List.mem_map_of_mem Prod.fst hent
  have hij := (hkeys ent.1.1 ent.1.2).1 hkm
  have hlk : lookupA d.substrings (ent.1.1, ent.1.2) = some ent.2 := by
    refine lookupA_of_mem_nodup hknd ?_
    show ((ent.1.1, ent.1.2), ent.2) ∈ d.substrings
    exact hent
  have hes := hlook ent.1.1 ent.1.2 ent.2 hlk
  refine ⟨le_of_lt hij.1, hij.2, ?_⟩
  intro c hc
  rw [hes] at hc
  have hsne : (out.drop ent.1.1).take (ent.1.2 - ent.1.1) ≠ [] := by
    intro hnil
    have hlen := congrArg List.length hnil
    simp only [List.length_take, List.length_drop, List.length_nil] at hlen
    omega
  rcases List.mem_cons.1 hc with rfl | hcf
  · exact rfl
  · simp only [List.mem_flatMap, List.mem_map] at hcf
    obtain ⟨p, hp, lr, hlr, rfl⟩ := hcf
    have hcol : inp.get? p.1 = some p.2 := List.mem_enum_iff_get?.1 hp
    obtain ⟨hpre, hr2⟩ :=
      (mem_occsSpec hsne lr.1 lr.2).1 hlr
    have hslen : 1 ≤ ((out.drop ent.1.1).take (ent.1.2 - ent.1.1)).length :=
      List.length_pos.2 hsne
    have h5 : ((out.drop ent.1.1).take (ent.1.2 - ent.1.1)).length ≤
        (p.2.drop lr.1).length := by
      have h6 := congrArg List.length (prefixB_take.1 hpre)
      rw [List.length_take] at h6
      have h7 := min_le_right
        ((out.drop ent.1.1).take (ent.1.2 - ent.1.1)).length
        (p.2.drop lr.1).length
      rw [h6] at h7
      exact h7
    rw [List.length_drop] at h5
    refine ⟨p.2, hcol, lr.1 + 1, lr.2 + 1, by omega, by omega, by omega, ?_, ?_, ?_⟩
    · have he : lr.2 + 1 - (lr.1 + 1) =
          ((out.drop ent.1.1).take (ent.1.2 - ent.1.1)).length := by omega
      unfold slice1
      rw [Nat.add_sub_cancel, he]
      exact prefixB_take.1 hpre
    · intro q hq
      rcases (mem_generate_left hnd).1 hq with rfl | ⟨v, rfl, hlab⟩
      · exact rfl
      · exact hlab
    · intro q hq
      have hne : lr.1 + 1 ≠ lr.2 + 1 := by omega
      rcases (mem_generate_right hnd hne).1 hq with rfl | ⟨v, rfl, hlab⟩
      · exact rfl
      · exact hlab

theorem dagSem_inter_left {g : InputDataGraph} {ρ : Nat} {inp : List Str}
    {out : Str} {d1 d2 : Dag} (h : DagSem g ρ inp out d1) :
    DagSem g ρ inp out (d1.intersection d2) := by
  obtain ⟨φ, hst, hfin, hed⟩ := h
  refine ⟨fun n =>
    φ (((lookupA ((numAll d1 d2).map.map Prod.swap) n).getD (0, 0)).1), ?_, ?_, ?_⟩
  · have h2 := lookupA_swap_of_lookup (numAll_keys_nodup d1 d2)
      (numAll_wf d1 d2).2 (numAll_lookup_start d1 d2)
    show φ (((lookupA ((numAll d1 d2).map.map Prod.swap)
      (d1.intersection d2).start).getD (0, 0)).1) = 0
    rw [h2]
    exact hst
  · have h2 := lookupA_swap_of_lookup (numAll_keys_nodup d1 d2)
      (numAll_wf d1 d2).2 (numAll_lookup_finish d1 d2)
    show φ (((lookupA ((numAll d1 d2).map.map Prod.swap)
      (d1.intersection d2).finish).getD (0, 0)).1) = out.length
    rw [h2]
    exact hfin
  · intro ent hent
    obtain ⟨ent1, h1, ent2, h2, hne, n, k, hn, hk, rfl⟩ :=
      mem_intersection_substrings.1 hent
    have hsw1 := lookupA_swap_of_lookup (numAll_keys_nodup d1 d2)
      (numAll_wf d1 d2).2 hn
    have hsw2 := lookupA_swap_of_lookup (numAll_keys_nodup d1 d2)
      (numAll_wf d1 d2).2 hk
    obtain ⟨hle, hub, hcands⟩ := hed ent1 h1
    refine ⟨?_, ?_, ?_⟩
    · show φ (((lookupA _ n).getD (0, 0)).1) ≤ φ (((lookupA _ k).getD (0, 0)).1)
      rw [hsw1, hsw2]
      exact hle
    · show φ (((lookupA _ k).getD (0, 0)).1) ≤ out.length
      rw [hsw2]
      exact hub
    · intro c hc
      obtain ⟨e1, he1, e2, he2, hi⟩ := mem_interExprs.1 hc
      have hok := semCandOK_inter_left hi (hcands e1 he1)
      show SemCandOK g ρ inp
        ((out.drop (φ (((lookupA _ n).getD (0, 0)).1))).take
          (φ (((lookupA _ k).getD (0, 0)).1) -
            φ (((lookupA _ n).getD (0, 0)).1))) c
      rw [hsw1, hsw2]
      exact hok

theorem dagSem_inter_right {g : InputDataGraph} {ρ : Nat} {inp : List Str}
    {out : Str} {d1 d2 : Dag} (h : DagSem g ρ inp out d2) :
    DagSem g ρ inp out (d1.intersection d2) := by
  obtain ⟨φ, hst, hfin, hed⟩ := h
  refine ⟨fun n =>
    φ (((lookupA ((numAll d1 d2).map.map Prod.swap) n).getD (0, 0)).2), ?_, ?_, ?_⟩
  · have h2 := lookupA_swap_of_lookup (numAll_keys_nodup d1 d2)
      (numAll_wf d1 d2).2 (numAll_lookup_start d1 d2)
    show φ (((lookupA ((numAll d1 d2).map.map Prod.swap)
      (d1.intersection d2).start).getD (0, 0)).2) = 0
    rw [h2]
    exact hst
  · have h2 := lookupA_swap_of_lookup (numAll_keys_nodup d1 d2)
      (numAll_wf d1 d2).2 (numAll_lookup_finish d1 d2)
    show φ (((lookupA ((numAll d1 d2).map.map Prod.swap)
      (d1.intersection d2).finish).getD (0, 0)).2) = out.length
    rw [h2]
    exact hfin
  · intro ent hent
    obtain ⟨ent1, h1, ent2, h2, hne, n, k, hn, hk, rfl⟩ :=
      mem_intersection_substrings.1 hent
    have hsw1 := lookupA_swap_of_lookup (numAll_keys_nodup d1 d2)
      (numAll_wf d1 d2).2 hn
    have hsw2 := lookupA_swap_of_lookup (numAll_keys_nodup d1 d2)
      (numAll_wf d1 d2).2 hk
    obtain ⟨hle, hub, hcands⟩ := hed ent2 h2
    refine ⟨?_, ?_, ?_⟩
    · show φ (((lookupA _ n).getD (0, 0)).2) ≤ φ (((lookupA _ k).getD (0, 0)).2)
      rw [hsw1, hsw2]
      exact hle
    · show φ (((lookupA _ k).getD (0, 0)).2) ≤ out.length
      rw [hsw2]
      exact hub
    · intro c hc
      obtain ⟨e1, he1, e2, he2, hi⟩ := mem_interExprs.1 hc
      have hok := semCandOK_inter_right hi (hcands e2 he2)
      show SemCandOK g ρ inp
        ((out.drop (φ (((lookupA _ n).getD (0, 0)).2))).take
          (φ (((lookupA _ k).getD (0, 0)).2) -
            φ (((lookupA _ n).getD (0, 0)).2))) c
      rw [hsw1, hsw2]
      exact hok

theorem foldl_inter_sem {g : InputDataGraph} {ρ : Nat} {inp : List Str}
    {out : Str} :
    ∀ (ds : List Dag) (acc : Dag),
      (DagSem g ρ inp out acc ∨ ∃ d ∈ ds, DagSem g ρ inp out d) →
      DagSem g ρ inp out (ds.foldl Dag.intersection acc) := by
  intro ds
  induction ds with
  | nil =>
    intro acc h
    rcases h with h | ⟨d, hd, _⟩
    · exact h
    · exact absurd hd (List.not_mem_nil d)
  | cons d t ih =>
    intro acc h
    simp only [List.foldl_cons]
    refine ih _ ?_
    rcases h with h | ⟨d', hd', hsem⟩
    · exact Or.inl (dagSem_inter_left h)
    · rcases List.mem_cons.1 hd' with rfl | hd''
      · exact Or.inl (dagSem_inter_right hsem)
      · exact Or.inr ⟨d', hd'', hsem⟩

theorem evalPosition_CP {m : Matcher} {k : Int} {colS : Str} {val : Nat}
    (hk : k = (val : Int)) (h1 : 1 ≤ val) (h2 : val ≤ colS.length + 1) :
    evalPosition m (Position.ConstantPosition k) colS = some val := by
  subst hk
  simp only [evalPosition]
  rw [if_pos]
  · simp
  · exact ⟨by exact_mod_cast h1, by exact_mod_cast h2⟩

theorem evalSE_sub {m : Matcher} {inp : List Str} {ci : Nat} {colS : Str}
    {A B : Position} {l r : Nat}
    (hcol : inp.get? ci = some colS)
    (hA : evalPosition m A colS = some l)
    (hB : evalPosition m B colS = some r)
    (h1 : 1 ≤ l) (h2 : l ≤ r) (h3 : r ≤ colS.length + 1) :
    evalSE m inp (SubstringExpression.Substring ci A B) =
      some (slice1 colS l r) := by
  simp only [evalSE, hcol, hA, hB, Option.bind_eq_bind, Option.some_bind]
  rw [if_pos ⟨h1, h2, h3⟩]

theorem candScore_eval {m : Matcher} {g : InputDataGraph} {ranks : Nat → Nat}
    {ρ : Nat} {inp : List Str} {s : Str} {c : SubstringExpressionSet}
    {ex : SubstringExpression}
    (hsmp : ∀ v p, sampleP g (PositionSet.GraphNode v) = some p →
      ∀ ci colS si, inp.get? ci = some colS →
        labelAt g v (ρ, ci) = some si → evalPosition m p colS = some si)
    (hok : SemCandOK g ρ inp s c)
    (hc : (candScore g ranks c).1 = some ex) :
    evalSE m inp ex = some s := by
  cases c with
  | ConstantString s1 =>
    rw [candScore_CS] at hc
    have hc' : some (SubstringExpression.ConstantString s1) = some ex := hc
    injection hc' with hc'
    subst hc'
    have hs : s1 = s := hok
    rw [← hs]
    rfl
  | SubstringSet ci L R =>
    obtain ⟨colS, hcol, l, r, h1, h2, h3, h4, hL, hR⟩ := hok
    cases hpl : pickMax (rankKey ranks) L with
    | none =>
      exfalso
      simp [candScore, hpl] at hc
    | some p_l =>
      cases hpr : pickMax (rankKey ranks) R with
      | none =>
        exfalso
        simp [candScore, hpl, hpr] at hc
      | some p_r =>
        have hpmem := pickMax_mem hpl
        have hqmem := pickMax_mem hpr
        cases p_l with
        | ConstantPosition k1 =>
          have hA : evalPosition m (Position.ConstantPosition k1) colS = some l :=
            evalPosition_CP (hL _ hpmem) h1 (le_trans h2 h3)
          cases p_r with
          | ConstantPosition k2 =>
            rw [candScore_CPCP g ranks ci L R k1 k2 hpl hpr] at hc
            have hc' : some (SubstringExpression.Substring ci
                (Position.ConstantPosition k1) (Position.ConstantPosition k2)) =
                some ex := hc
            injection hc' with hc'
            subst hc'
            have hB : evalPosition m (Position.ConstantPosition k2) colS = some r :=
              evalPosition_CP (hR _ hqmem) (le_trans h1 h2) h3
            rw [evalSE_sub hcol hA hB h1 h2 h3, h4]
          | GraphNode v =>
            rw [candScore_CPGN g ranks ci L R k1 v hpl hpr] at hc
            by_cases hb : (sumDiffsLT (usizeOf k1) (labelsOf g v)).2
            · rw [if_pos hb] at hc
              exact Option.noConfusion hc
            · rw [if_neg hb] at hc
              cases hsb : sampleP g (PositionSet.GraphNode v) with
              | none => rw [hsb] at hc; exact Option.noConfusion hc
              | some b =>
                rw [hsb] at hc
                simp only [Option.map_some'] at hc
                injection hc with hc
                subst hc
                have hB : evalPosition m b colS = some r :=
                  hsmp v b hsb ci colS r hcol (hR _ hqmem)
                rw [evalSE_sub hcol hA hB h1 h2 h3, h4]
        | GraphNode v =>
          have hlab : labelAt g v (ρ, ci) = some l := hL _ hpmem
          cases p_r with
          | ConstantPosition k2 =>
            rw [candScore_GNCP g ranks ci L R k2 v hpl hpr] at hc
            by_cases hb : (sumDiffsGT (usizeOf k2) (labelsOf g v)).2
            · rw [if_pos hb] at hc
              exact Option.noConfusion hc
            · rw [if_neg hb] at hc
              cases hsa : sampleP g (PositionSet.GraphNode v) with
              | none => rw [hsa] at hc; exact Option.noConfusion hc
              | some a =>
                rw [hsa] at hc
                simp only [Option.map_some'] at hc
                injection hc with hc
                subst hc
                have hA : evalPosition m a colS = some l :=
                  hsmp v a hsa ci colS l hcol hlab
                have hB : evalPosition m (Position.ConstantPosition k2) colS = some r :=
                  evalPosition_CP (hR _ hqmem) (le_trans h1 h2) h3
                rw [evalSE_sub hcol hA hB h1 h2 h3, h4]
          | GraphNode v2 =>
            rw [candScore_GNGN g ranks ci L R v v2 hpl hpr] at hc
            by_cases hb : (sumDiffsGG g v2 (labelsOf g v)).2
            · rw [if_pos hb] at hc
              exact Option.noConfusion hc
            · rw [if_neg hb] at hc
              cases hsa : sampleP g (PositionSet.GraphNode v) with
              | none => rw [hsa] at hc; exact Option.noConfusion hc
              | some a =>
                rw [hsa] at hc
                cases hsb : sampleP g (PositionSet.GraphNode v2) with
                | none =>
                  rw [hsb] at hc
                  simp only [Option.some_bind, Option.map_none'] at hc
                  exact Option.noConfusion hc
                | some b =>
                  rw [hsb] at hc
                  simp only [Option.some_bind, Option.map_some'] at hc
                  injection hc with hc
                  subst hc
                  have hA : evalPosition m a colS = some l :=
                    hsmp v a hsa ci colS l hcol hlab
                  have hB : evalPosition m b colS = some r :=
                    hsmp v2 b hsb ci colS r hcol (hR _ hqmem)
                  rw [evalSE_sub hcol hA hB h1 h2 h3, h4]

theorem topRanked_run {m : Matcher} {g : InputDataGraph} {ranks : Nat → Nat}
    {ρ : Nat} {inp : List Str} {out : Str} {D : Dag} {prog : StringExpression}
    (hsem : DagSem g ρ inp out D)
    (hsmp : ∀ v p, sampleP g (PositionSet.GraphNode v) = some p →
      ∀ ci colS si, inp.get? ci = some colS →
        labelAt g v (ρ, ci) = some si → evalPosition m p colS = some si)
    (htop : D.top_ranked_expression g ranks = some prog) :
    runProg m prog inp = some out := by
  obtain ⟨φ, hst, hfin, hed⟩ := hsem
  have hrw : D.top_ranked_expression g ranks =
      (shortest_path_dag D.start D.finish
          ((bestByEdge g ranks D).map (fun x => x.1))
          (fun e => -((((lookupA (bestByEdge g ranks D) e).getD
            (0, SubstringExpression.ConstantString [])).1 : Nat) : Int))).map
        (fun pes => ⟨pes.map (fun e =>
          ((lookupA (bestByEdge g ranks D) e).getD
            (0, SubstringExpression.ConstantString [])).2)⟩) := rfl
  rw [hrw] at htop
  cases hspd : shortest_path_dag D.start D.finish
      ((bestByEdge g ranks D).map (fun x => x.1))
      (fun e => -((((lookupA (bestByEdge g ranks D) e).getD
        (0, SubstringExpression.ConstantString [])).1 : Nat) : Int)) with
  | none => rw [hspd] at htop; exact Option.noConfusion htop
  | some pes =>
    rw [hspd] at htop
    simp only [Option.map_some'] at htop
    injection htop with htop
    obtain ⟨ns, hnsP, hnsN, hpes, _⟩ := spd_some_spec hspd
    obtain ⟨hhead, hlast, hchain⟩ := hnsP
    have hedge : ∀ e ∈ pathEdgesOf ns,
        evalSE m inp (((lookupA (bestByEdge g ranks D) e).getD
          (0, SubstringExpression.ConstantString [])).2) =
          some ((out.drop (φ e.1)).take (φ e.2 - φ e.1)) ∧ φ e.1 ≤ φ e.2 := by
      intro e he
      have hadj : e ∈ (bestByEdge g ranks D).map Prod.fst :=
        pathEdges_mem_adj hchain e he
      obtain ⟨val, hval⟩ := Option.isSome_iff_exists.1 (lookupA_isSome_iff.2 hadj)
      have hmem := lookupA_mem hval
      obtain ⟨ent, hent, hmap⟩ := List.mem_filterMap.1 hmem
      cases hbc : bestCand g ranks ent.2 with
      | none =>
        rw [hbc] at hmap
        exact absurd hmap (by simp)
      | some b0 =>
        rw [hbc] at hmap
        simp only [Option.map_some'] at hmap
        injection hmap with hmap
        have he1 : ent.1 = e := congrArg Prod.fst hmap
        have hb0 : b0 = val := congrArg Prod.snd hmap
        subst hb0
        subst he1
        obtain ⟨c, hcmem, hcex, _⟩ := bestCand_src hbc
        obtain ⟨hle, _, hcands⟩ := hed ent hent
        have heval := candScore_eval hsmp (hcands c hcmem) hcex
        rw [hval]
        exact ⟨heval, hle⟩
    have hmono : ∀ e ∈ pathEdgesOf ns, φ e.1 ≤ φ e.2 := fun e he => (hedge e he).2
    obtain ⟨hflat, _⟩ := slices_flatten out φ ns D.start D.finish hhead hlast hmono
    subst htop
    show (optMapM (evalSE m inp) (pes.map (fun e =>
        ((lookupA (bestByEdge g ranks D) e).getD
          (0, SubstringExpression.ConstantString [])).2))).map List.flatten =
      some out
    subst hpes
    have hsome : (optMapM (evalSE m inp) ((pathEdgesOf ns).map (fun e =>
        ((lookupA (bestByEdge g ranks D) e).getD
          (0, SubstringExpression.ConstantString [])).2))).isSome := by
      apply optMapM_isSome
      intro a ha
      obtain ⟨e, he, rfl⟩ := List.mem_map.1 ha
      rw [(hedge e he).1]
      rfl
    obtain ⟨ys, hys⟩ := Option.isSome_iff_exists.1 hsome
    have hys2 := optMapM_map_eq hys (fun a => (evalSE m inp a).getD [])
      (fun a _ y hy => by show y = (evalSE m inp a).getD []; rw [hy]; rfl)
    rw [List.map_map] at hys2
    have hys3 : ys = (pathEdgesOf ns).map (fun e =>
        (out.drop (φ e.1)).take (φ e.2 - φ e.1)) := by
      rw [hys2]
      apply List.map_congr_left
      intro e he
      show (evalSE m inp (((lookupA (bestByEdge g ranks D) e).getD
        (0, SubstringExpression.ConstantString [])).2)).getD [] =
        (out.drop (φ e.1)).take (φ e.2 - φ e.1)
      rw [(hedge e he).1]
      rfl
    rw [hys, hys3]
    simp only [Option.map_some']
    rw [hflat, hst, hfin]
    simp

/-- C1: if learning returns a program, then for every paired example
`(in, out)` supplied to it, the synthesized program applied to `in` returns
exactly `out`.  The input data graph and token matcher enter through two
spec-modelled invariants of the modules absent from src/: the graph's
node-label map has no duplicate node keys, and any position sampled from a
graph node's incident token sets evaluates, on each cell of each example
row, to that node's label there. -/
theorem c1_learn_consistent (m : Matcher) (paired : List (List Str × Str))
    (g : InputDataGraph) (ranks : Nat → Nat) (prog : StringExpression)
    (hnd : (g.labels.map Prod.fst).Nodup)
    (hsample : ∀ pr ∈ paired.enum, ∀ v p,
      sampleP g (PositionSet.GraphNode v) = some p →
      ∀ ci colS si, pr.2.1.get? ci = some colS →
        labelAt g v (pr.1, ci) = some si → evalPosition m p colS = some si)
    (hlearn : learnTopRanked paired g ranks = some prog) :
    ∀ pr ∈ paired, runProg m prog pr.1 = some pr.2 := by
  intro pr hpr
  obtain ⟨ρ, hρg⟩ := List.mem_iff_get?.1 hpr
  have hρ : (ρ, pr) ∈ paired.enum := List.mem_enum_iff_get?.2 hρg
  unfold learnTopRanked at hlearn
  cases hDl : Dag.learn paired g with
  | none => rw [hDl] at hlearn; exact Option.noConfusion hlearn
  | some D =>
    rw [hDl] at hlearn
    simp only [Option.some_bind] at hlearn
    unfold Dag.learn at hDl
    cases hom : optMapM (fun p => Dag.new p.2.1 p.2.2 g p.1) paired.enum with
    | none => rw [hom] at hDl; exact Option.noConfusion hDl
    | some ds =>
      rw [hom] at hDl
      simp only [Option.some_bind] at hDl
      cases ds with
      | nil => exact Option.noConfusion hDl
      | cons d0 rest =>
        have hD : D = rest.foldl Dag.intersection d0 := by
          have hDl' : some (rest.foldl Dag.intersection d0) = some D := hDl
          injection hDl' with hDl'
          exact hDl'.symm
        obtain ⟨d, hd, hnew0⟩ :=
          forall₂_mem_left (optMapM_eq_some hom) hρ
        have hnew : Dag.new pr.1 pr.2 g ρ = some d := hnew0
        have hsemd : DagSem g ρ pr.1 pr.2 d := dagSem_new hnd hnew
        have hsemD : DagSem g ρ pr.1 pr.2 D := by
          rw [hD]
          refine foldl_inter_sem rest d0 ?_
          rcases List.mem_cons.1 hd with rfl | hdr
          · exact Or.inl hsemd
          · exact Or.inr ⟨d, hdr, hsemd⟩
        exact topRanked_run hsemD
          (fun v p hs ci colS si hc hl =>
            hsample (ρ, pr) hρ v p hs ci colS si hc hl)
          hlearn

/-- Witness for C1: the single example mapping the row `["ab"]` to `"a"`,
over the trivial one-row input data graph; learning returns the program
`Substring(0, 1, 2)`, which runs to `"a"` on the example. -/
theorem c1_learn_consistent_witness :
    ((((⟨1, [], []⟩ : InputDataGraph).labels.map Prod.fst).Nodup) ∧
      (∀ pr ∈ ([([[97, 98]], [97])] : List (List Str × Str)).enum, ∀ v p,
        sampleP (⟨1, [], []⟩ : InputDataGraph) (PositionSet.GraphNode v) = some p →
        ∀ ci colS si, pr.2.1.get? ci = some colS →
          labelAt (⟨1, [], []⟩ : InputDataGraph) v (pr.1, ci) = some si →
          evalPosition (fun _ _ => []) p colS = some si) ∧
      learnTopRanked ([([[97, 98]], [97])] : List (List Str × Str))
        (⟨1, [], []⟩ : InputDataGraph) (fun _ => 0) =
        some ⟨[SubstringExpression.Substring 0 (Position.ConstantPosition 1)
          (Position.ConstantPosition 2)]⟩) ∧
    (∀ pr ∈ ([([[97, 98]], [97])] : List (List Str × Str)),
      runProg (fun _ _ => [])
        ⟨[SubstringExpression.Substring 0 (Position.ConstantPosition 1)
          (Position.ConstantPosition 2)]⟩ pr.1 = some pr.2) :=
  ⟨⟨by decide, fun pr hpr v p hs => Option.noConfusion hs, by decide⟩,
   c1_learn_consistent (fun _ _ => []) ([([[97, 98]], [97])])
     (⟨1, [], []⟩ : InputDataGraph) (fun _ => 0)
     ⟨[SubstringExpression.Substring 0 (Position.ConstantPosition 1)
       (Position.ConstantPosition 2)]⟩
     (by decide) (fun pr hpr v p hs => Option.noConfusion hs) (by decide)⟩

/-- C8: an example with empty output yields the single-node DAG
(`start = finish = 0`, no edges); ranking and extraction succeed on it with
the empty program, which runs to the empty string on every row. -/
theorem c8_empty_output (input : List Str) (g : InputDataGraph) (row : Nat)
    (ranks : Nat → Nat) (m : Matcher) (anyRow : List Str) :
    Dag.new input [] g row = some ⟨0, 0, []⟩ ∧
    Dag.top_ranked_expression ⟨0, 0, []⟩ g ranks = some ⟨[]⟩ ∧
    runProg m ⟨[]⟩ anyRow = some [] := by
  exact ⟨rfl, rfl, rfl⟩

/-- Witness for C3: one input column `"ab"`, output `"a"`, the empty graph. -/
theorem c3_single_dag_witness :
    Dag.new [[97, 98]] [97] (⟨1, [], []⟩ : InputDataGraph) 0 =
      some ⟨0, 1, [((0, 1), [SubstringExpressionSet.ConstantString [97],
        SubstringExpressionSet.SubstringSet 0 {PositionSet.ConstantPosition 1}
          {PositionSet.ConstantPosition 2}])]⟩ ∧
    ((⟨0, 1, [((0, 1), [SubstringExpressionSet.ConstantString [97],
        SubstringExpressionSet.SubstringSet 0 {PositionSet.ConstantPosition 1}
          {PositionSet.ConstantPosition 2}])]⟩ : Dag).start = 0 ∧
     (⟨0, 1, [((0, 1), [SubstringExpressionSet.ConstantString [97],
        SubstringExpressionSet.SubstringSet 0 {PositionSet.ConstantPosition 1}
          {PositionSet.ConstantPosition 2}])]⟩ : Dag).finish = ([97] : Str).length ∧
     ((⟨0, 1, [((0, 1), [SubstringExpressionSet.ConstantString [97],
        SubstringExpressionSet.SubstringSet 0 {PositionSet.ConstantPosition 1}
          {PositionSet.ConstantPosition 2}])]⟩ : Dag).substrings.map Prod.fst).Nodup ∧
     (∀ i j : Nat, (i, j) ∈ (⟨0, 1, [((0, 1), [SubstringExpressionSet.ConstantString [97],
        SubstringExpressionSet.SubstringSet 0 {PositionSet.ConstantPosition 1}
          {PositionSet.ConstantPosition 2}])]⟩ : Dag).substrings.map Prod.fst ↔
        i < j ∧ j ≤ ([97] : Str).length) ∧
     (∀ i j es, lookupA (⟨0, 1, [((0, 1), [SubstringExpressionSet.ConstantString [97],
        SubstringExpressionSet.SubstringSet 0 {PositionSet.ConstantPosition 1}
          {PositionSet.ConstantPosition 2}])]⟩ : Dag).substrings (i, j) = some es →
       es = SubstringExpressionSet.ConstantString ((([97] : Str).drop i).take (j - i)) ::
         ([[97, 98]] : List Str).enum.flatMap (fun p =>
           (occsSpec p.2 ((([97] : Str).drop i).take (j - i))).map (fun lr =>
             SubstringExpressionSet.generate_substring_set (0, p.1)
               (lr.1 + 1) (lr.2 + 1) (⟨1, [], []⟩ : InputDataGraph)))) ∧
     (∀ (t s : Str) (l r : Nat), s ≠ [] →
       ((l, r) ∈ occsSpec t s ↔ s.isPrefixOf (t.drop l) = true ∧ r = l + s.length)) ∧
     (∀ t s : Str, (occsSpec t s).Nodup)) :=
  ⟨by decide,
   c3_single_dag [[97, 98]] [97] (⟨1, [], []⟩ : InputDataGraph) 0
     ⟨0, 1, [((0, 1), [SubstringExpressionSet.ConstantString [97],
       SubstringExpressionSet.SubstringSet 0 {PositionSet.ConstantPosition 1}
         {PositionSet.ConstantPosition 2}])]⟩ (by decide)⟩

end BlinkFill
